import Mathlib

/-!
# dhlease: a verification development

A shallow embedding of `dhlease.c` (the DHCP lease file viewer): the lease
queue (`TAILQ` of `struct lease_t`), the de-duplication pass, the report
filter, and the hand-written lexer and block parser, followed by theorems
about them.

Conventions of the embedding:

* a byte is a `Nat`; a C string is a `List Nat`, and where the C code reads a
  buffer as a string only the bytes before the first NUL count (`cstr`);
* `time_t` is an `Int`; `difftime` is the integer difference, whose sign is
  the sign of the C `double` result;
* `struct lease_t` objects live in a heap (`Heap.nodes`), a pointer to one is
  its index, and the `TAILQ` links are stored in the objects as in
  `sys/queue.h`;
* a C function that can call `error()` (which exits), dereference a bad
  pointer or loop forever returns `Except Abort _`;
* the static `buffer[2048]` is the list of the bytes stored since the last
  `memset`; a store at index 2048 or above, and a string read of 2048 bytes
  without a NUL, leave the array and end the run in `Abort.bufferOverflow`;
* the local `datebuf[64]` of `parse_date_string` is the list `Env.stack` of the
  bytes found there and behind it; a copy of more than 64 bytes overwrites the
  frame of the function and ends the run in `Abort.stackSmashed` where the
  function would return.
-/

namespace Dhlease

/-! ## Outcomes -/

/-- The ways a run ends without returning normally. The first group are the
calls of `error()` in `dhlease.c`, named after their message. -/
inductive Abort where
  /-- Line 319: the call of `error()` for "syntax error: expected a lease
  section". It passes the `int token` where the format has `%s`, which is
  undefined behaviour: the run ends there, by that diagnostic or by a crash
  inside `vfprintf`. -/
  | expectedLease
  /-- Line 323: "found token ... outside lease boundaries". -/
  | outsideBoundaries
  /-- Line 329: "lease section began inside existing lease section". -/
  | nestedLease
  /-- Line 403: "element ... found outside block scope". -/
  | outsideScope
  /-- Line 424: "missing (chr) in line ...". -/
  | missingChar (chr : Nat)
  /-- Line 474: "unbalanced bracket". -/
  | unbalancedBracket
  /-- Lines 505, 529, 555, 584: "unexpected EOF". -/
  | unexpectedEOF
  /-- Lines 508, 532, 558, 587: "unexpected newline". -/
  | unexpectedNewline
  /-- Line 610: "weird buffer". -/
  | weirdBuffer
  /-- Line 155: "time conversion failed". -/
  | timeConversion
  /-- A loop of the program that never exits (it keeps reading at end of file). -/
  | loopsForever
  /-- A null or dangling pointer is dereferenced. -/
  | badPointer
  /-- The fuel of a pointer-chasing loop of the embedding ran out. -/
  | outOfFuel
  /-- A store `buffer[i++] = c` with `i` at 2048 or above (dhlease.c:513, 538,
  564, 596, 648), or a string read of `buffer` when its 2048 bytes hold no NUL
  (dhlease.c:332, 366, 374, 609): undefined behaviour. -/
  | bufferOverflow
  /-- The `strncpy` of dhlease.c:614 has written more than the 64 bytes of
  `datebuf` and `parse_date_string` returns through the frame it overwrote:
  undefined behaviour. -/
  | stackSmashed
  deriving DecidableEq, Repr

/-! ## Bytes and C strings -/

/-- The bytes of a string literal. -/
def bytes (s : String) : List Nat := s.toList.map Char.toNat

/-- The C string held in a buffer: the bytes before the first NUL. -/
def cstr (b : List Nat) : List Nat := b.takeWhile (fun c => c != 0)

/-- C `isspace` in the "C" locale. -/
def isspace (c : Nat) : Bool := c == 32 || (9 ≤ c && c ≤ 13)

/-- C `isdigit`. -/
def isdigit (c : Nat) : Bool := 48 ≤ c && c ≤ 57

/-- C `isascii`. -/
def isascii (c : Nat) : Bool := c ≤ 127

/-- C `tolower` in the "C" locale. -/
def tolower (c : Nat) : Nat := if 65 ≤ c ∧ c ≤ 90 then c + 32 else c

/-- Comparison of two NUL-free byte strings after `tolower`, as `strcasecmp`
does it: the difference of the first pair of bytes that differ. -/
def casecmp : List Nat → List Nat → Int
  | [], [] => 0
  | [], b :: _ => 0 - (tolower b : Int)
  | a :: _, [] => (tolower a : Int)
  | a :: as, b :: bs =>
    if tolower a = tolower b then casecmp as bs else (tolower a : Int) - (tolower b : Int)

/-- C `strcasecmp`. -/
def strcasecmp (s1 s2 : List Nat) : Int := casecmp (cstr s1) (cstr s2)

/-! ## The lease queue -/

/-- A `struct lease_t **`: where a pointer to a lease is stored. `head` is
`&head.tqh_first`, `next i` is `&p->entities.tqe_next` for the lease at
address `i`. -/
inductive Slot where
  | null
  | head
  | next (i : Nat)
  deriving DecidableEq, Repr

/-- The data fields of `struct lease_t` (dhlease.h): a record of the list. -/
structure Lease where
  start : Int
  end_ : Int
  hostname : Option (List Nat)
  client : Option (List Nat)
  ipaddr : Option (List Nat)
  macaddr : Option (List Nat)
  abandoned : Int
  expired : Int
  deriving DecidableEq, Repr

/-- The type `struct lease_t`: the data fields and `TAILQ_ENTRY(lease_t) entities`. -/
structure lease_t extends Lease where
  tqe_next : Option Nat
  tqe_prev : Slot
  deriving DecidableEq, Repr

/-- The lease objects of the process and `head`, the `TAILQ_HEAD`. -/
structure Heap where
  nodes : List lease_t
  tqh_first : Option Nat
  tqh_last : Slot
  deriving DecidableEq, Repr

/-- The result of `calloc(1, sizeof(struct lease_t))`: all fields zero. -/
def lease_zero : Lease :=
  { start := 0, end_ := 0, hostname := none, client := none, ipaddr := none,
    macaddr := none, abandoned := 0, expired := 0 }

/-- The macro `TAILQ_HEAD_INITIALIZER(head)` / `TAILQ_INIT(&head)` with no lease allocated. -/
def TAILQ_INIT : Heap := { nodes := [], tqh_first := none, tqh_last := Slot.head }

/-- The macro `TAILQ_EMPTY(&head)`. -/
def TAILQ_EMPTY (h : Heap) : Bool := h.tqh_first.isNone

/-- Allocation of a lease object holding `r`, not linked: its address is the
second component. -/
def Heap.alloc (h : Heap) (r : Lease) : Heap × Nat :=
  ({ h with nodes := h.nodes ++ [{ toLease := r, tqe_next := none, tqe_prev := Slot.null }] },
   h.nodes.length)

/-- The assignment `*s = v` through a `struct lease_t **`. -/
def Heap.store (h : Heap) (s : Slot) (v : Option Nat) : Except Abort Heap :=
  match s with
  | Slot.null => Except.error Abort.badPointer
  | Slot.head => Except.ok { h with tqh_first := v }
  | Slot.next j =>
    match h.nodes[j]? with
    | none => Except.error Abort.badPointer
    | some e => Except.ok { h with nodes := h.nodes.set j { e with tqe_next := v } }

/-- The macro `TAILQ_INSERT_TAIL(&head, elm, entities)` of `sys/queue.h`. -/
def TAILQ_INSERT_TAIL (h : Heap) (elm : Nat) : Except Abort Heap :=
  match h.nodes[elm]? with
  | none => Except.error Abort.badPointer
  | some e =>
    -- elm->tqe_next = NULL; elm->tqe_prev = head.tqh_last;
    let h1 : Heap :=
      { h with nodes := h.nodes.set elm { e with tqe_next := none, tqe_prev := h.tqh_last } }
    -- *head.tqh_last = elm;
    match h1.store h1.tqh_last (some elm) with
    | Except.error a => Except.error a
    | Except.ok h2 =>
      -- head.tqh_last = &elm->tqe_next;
      Except.ok { h2 with tqh_last := Slot.next elm }

/-- The statement `if (p != NULL) p->tqe_prev = s; else head.tqh_last = s;`,
the first of `TAILQ_REMOVE`. -/
def Heap.store_prev (h : Heap) (p : Option Nat) (s : Slot) : Except Abort Heap :=
  match p with
  | some k =>
    match h.nodes[k]? with
    | none => Except.error Abort.badPointer
    | some nk => Except.ok { h with nodes := h.nodes.set k { nk with tqe_prev := s } }
  | none => Except.ok { h with tqh_last := s }

/-- The macro `TAILQ_REMOVE(&head, elm, entities)` of `sys/queue.h`. The links of `elm`
itself are left as they are. -/
def TAILQ_REMOVE (h : Heap) (elm : Nat) : Except Abort Heap :=
  match h.nodes[elm]? with
  | none => Except.error Abort.badPointer
  | some e =>
    -- if (elm->tqe_next != NULL) elm->tqe_next->tqe_prev = elm->tqe_prev;
    -- else head.tqh_last = elm->tqe_prev;
    match h.store_prev e.tqe_next e.tqe_prev with
    | Except.error a => Except.error a
    | Except.ok h1 =>
      -- *elm->tqe_prev = elm->tqe_next;
      match h1.nodes[elm]? with
      | none => Except.error Abort.badPointer
      | some e1 => h1.store e1.tqe_prev e1.tqe_next

/-- The leases visited by `TAILQ_FOREACH(p, &head, entities)` from `p` on, as
addresses. -/
def foreach_nodes : Nat → Heap → Option Nat → Except Abort (List Nat)
  | _, _, none => Except.ok []
  | 0, _, some _ => Except.error Abort.outOfFuel
  | fuel + 1, h, some p =>
    match h.nodes[p]? with
    | none => Except.error Abort.badPointer
    | some e =>
      match foreach_nodes fuel h e.tqe_next with
      | Except.error a => Except.error a
      | Except.ok l => Except.ok (p :: l)

/-- The data of the lease at an address (the zero record for a bad address). -/
def Heap.lease (h : Heap) (p : Nat) : Lease :=
  match h.nodes[p]? with
  | some e => e.toLease
  | none => lease_zero

/-- The lease list: the records of the queue from first to last. -/
def lease_list (h : Heap) : Except Abort (List Lease) :=
  match foreach_nodes (h.nodes.length + 1) h h.tqh_first with
  | Except.error a => Except.error a
  | Except.ok l => Except.ok (l.map h.lease)

/-- The queue the parser builds from the records `ls`: each is allocated and
appended with `TAILQ_INSERT_TAIL`. -/
def queue_of : List Lease → Heap → Except Abort Heap
  | [], h => Except.ok h
  | r :: rs, h =>
    match TAILQ_INSERT_TAIL (h.alloc r).1 (h.alloc r).2 with
    | Except.error a => Except.error a
    | Except.ok h1 => queue_of rs h1

/-! ## Time -/

/-- C `difftime(t1, t0)`, exact on the integers. -/
def difftime (t1 t0 : Int) : Int := t1 - t0

/-- The function `compare_time` (dhlease.c:182). -/
def compare_time (t1 t2 : Int) : Int :=
  let diff := difftime t1 t2
  if diff < 0 then -1
  else if diff = 0 then 0
  else 1

/-- The function `has_lease_expired` (dhlease.c:165); `tnow` is the value `time(NULL)` returns. -/
def has_lease_expired (tnow : Int) (tend : Int) : Int :=
  if difftime tend tnow < 0 then 1 else 0

/-! ## De-duplication -/

/-- The body of the inner loop of `remove_duplicates` (dhlease.c:215-221) for
the leases `cur` at `p_cur` and `sub` at `p_cur_sub`. -/
def remove_duplicates_body (h : Heap) (p_cur : Nat) (cur sub : lease_t) : Except Abort Heap :=
  match sub.macaddr with
  | none => Except.ok h
  | some smac =>
    match cur.macaddr with
    | none => Except.error Abort.badPointer
    | some cmac =>
      if strcasecmp cmac smac = 0 then
        if compare_time cur.end_ sub.end_ = -1 then TAILQ_REMOVE h p_cur
        else Except.ok h
      else Except.ok h

/-- The inner `TAILQ_FOREACH(p_cur_sub, ...)` of `remove_duplicates`
(dhlease.c:214-222), from `p_cur_sub` on. -/
def remove_duplicates_inner : Nat → Heap → Nat → Option Nat → Except Abort Heap
  | _, h, _, none => Except.ok h
  | 0, _, _, some _ => Except.error Abort.outOfFuel
  | fuel + 1, h, p_cur, some p_cur_sub =>
    match h.nodes[p_cur]?, h.nodes[p_cur_sub]? with
    | some cur, some sub =>
      match remove_duplicates_body h p_cur cur sub with
      | Except.error a => Except.error a
      | Except.ok h1 =>
        match h1.nodes[p_cur_sub]? with
        | none => Except.error Abort.badPointer
        | some sub1 => remove_duplicates_inner fuel h1 p_cur sub1.tqe_next
    | _, _ => Except.error Abort.badPointer

/-- The outer `TAILQ_FOREACH(p_cur, ...)` of `remove_duplicates`
(dhlease.c:212-227), from `p_cur` on. -/
def remove_duplicates_outer : Nat → Heap → Option Nat → Except Abort Heap
  | _, h, none => Except.ok h
  | 0, _, some _ => Except.error Abort.outOfFuel
  | fuel + 1, h, some p_cur =>
    match h.nodes[p_cur]? with
    | none => Except.error Abort.badPointer
    | some cur =>
      let body : Except Abort Heap :=
        match cur.macaddr with
        | some _ => remove_duplicates_inner (h.nodes.length + 1) h p_cur h.tqh_first
        | none => TAILQ_REMOVE h p_cur
      match body with
      | Except.error a => Except.error a
      | Except.ok h1 =>
        match h1.nodes[p_cur]? with
        | none => Except.error Abort.badPointer
        | some cur1 => remove_duplicates_outer fuel h1 cur1.tqe_next

/-- The function `remove_duplicates` (dhlease.c:205). -/
def remove_duplicates (h : Heap) : Except Abort Heap :=
  if TAILQ_EMPTY h then Except.ok h
  else remove_duplicates_outer (h.nodes.length + 1) h h.tqh_first


/-! ## The report -/

/-- Whether `little` is, ignoring case, a prefix of `big` (NUL-free strings). -/
def caseprefix : List Nat → List Nat → Bool
  | [], _ => true
  | _ :: _, [] => false
  | n :: ns, c :: cs => tolower n == tolower c && caseprefix ns cs

/-- The offset of the first occurrence of `little` in `big`, ignoring case
(NUL-free strings). -/
def casestr : List Nat → List Nat → Option Nat
  | [], little => if caseprefix little [] then some 0 else none
  | c :: cs, little =>
    if caseprefix little (c :: cs) then some 0
    else (casestr cs little).map (fun k => k + 1)

/-- C `strcasestr(big, little)`: where the first occurrence starts, `none` for `NULL`. -/
def strcasestr (big little : List Nat) : Option Nat := casestr (cstr big) (cstr little)

/-- The function `match_partial_string` (dhlease.c:117); `none` is the `NULL` string. -/
def match_partial_string (src search : Option (List Nat)) : Int :=
  match src, search with
  | some s, some t => if (strcasestr s t).isNone then -1 else 0
  | _, _ => -1

/-- The program options (dhlease.c:46-58) that the parser and the report read. -/
structure Opts where
  aflag : Bool
  cflag : Bool
  dflag : Bool
  iflag : Bool
  mflag : Bool
  xflag : Bool
  cval : Option (List Nat)
  mval : Option (List Nat)
  ival : Option (List Nat)
  deriving DecidableEq, Repr

/-- The assignments to `display` for one lease (dhlease.c:253-262), from the
value `display` has when the iteration starts. -/
def output_display (o : Opts) (tnow : Int) (p : Lease) (display : Int) : Int :=
  let display := if o.mflag then (if match_partial_string p.macaddr o.mval = 0 then 1 else 0)
    else display
  let display := if o.cflag then (if match_partial_string p.client o.cval = 0 then 1 else 0)
    else display
  let display := if o.iflag then (if match_partial_string p.ipaddr o.ival = 0 then 1 else 0)
    else display
  let display := if o.aflag then (if has_lease_expired tnow p.end_ ≠ 0 then 0 else 1)
    else display
  let display := if o.xflag then (if has_lease_expired tnow p.end_ ≠ 0 then 1 else 0)
    else display
  display

/-- The `TAILQ_FOREACH` of `output_leases` (dhlease.c:251-272) from `p_cur` on:
the records for which a row is printed. -/
def output_leases_loop : Nat → Opts → Int → Heap → Option Nat → Int → Except Abort (List Lease)
  | _, _, _, _, none, _ => Except.ok []
  | 0, _, _, _, some _, _ => Except.error Abort.outOfFuel
  | fuel + 1, o, tnow, h, some p_cur, display =>
    match h.nodes[p_cur]? with
    | none => Except.error Abort.badPointer
    | some e =>
      let display1 := output_display o tnow e.toLease display
      match output_leases_loop fuel o tnow h e.tqe_next display1 with
      | Except.error a => Except.error a
      | Except.ok rows => Except.ok (if display1 = 1 then e.toLease :: rows else rows)

/-- The function `output_leases` (dhlease.c:234): the records whose row is printed after the
header, in the order of printing. The column widths only pad the rows and are
left out; `tnow` is the value of `time(NULL)`. -/
def output_leases (o : Opts) (tnow : Int) (h : Heap) : Except Abort (List Lease) :=
  if TAILQ_EMPTY h then Except.ok []
  else output_leases_loop (h.nodes.length + 1) o tnow h h.tqh_first 1

/-- The filter that decides alone in `output_leases`: the one that is last
among the active ones in the order `-m`, `-c`, `-i`, `-a`, `-x`; with no
filter active every record passes. -/
def last_filter (o : Opts) (tnow : Int) (r : Lease) : Bool :=
  if o.xflag then decide (r.end_ < tnow)
  else if o.aflag then decide (¬ r.end_ < tnow)
  else if o.iflag then decide (match_partial_string r.ipaddr o.ival = 0)
  else if o.cflag then decide (match_partial_string r.client o.cval = 0)
  else if o.mflag then decide (match_partial_string r.macaddr o.mval = 0)
  else true

/-- The conjunction of the active filters. -/
def all_filters (o : Opts) (tnow : Int) (r : Lease) : Bool :=
  (!o.mflag || decide (match_partial_string r.macaddr o.mval = 0)) &&
  (!o.cflag || decide (match_partial_string r.client o.cval = 0)) &&
  (!o.iflag || decide (match_partial_string r.ipaddr o.ival = 0)) &&
  (!o.aflag || decide (¬ r.end_ < tnow)) &&
  (!o.xflag || decide (r.end_ < tnow))

/-- No option set. -/
def opts_none : Opts :=
  { aflag := false, cflag := false, dflag := false, iflag := false, mflag := false,
    xflag := false, cval := none, mval := none, ival := none }

/-- Only `-a`. -/
def opts_a : Opts := { opts_none with aflag := true }

/-- Only `-x`. -/
def opts_x : Opts := { opts_none with xflag := true }

/-- The options `-m zz -c host`. -/
def opts_mc : Opts :=
  { opts_none with mflag := true, mval := some (bytes "zz"), cflag := true,
                   cval := some (bytes "host") }

/-- The record of the lease of `host1`. -/
def lease_host1 : Lease :=
  { lease_zero with ipaddr := some (bytes "10.0.0.5"),
                    macaddr := some (bytes "aa:bb:cc:dd:ee:ff"),
                    client := some (bytes "host1") }

/-! ## Keywords -/

def TOK_INVALID_TOKEN : Nat := 0
def TOK_LEASE : Nat := 1
def TOK_HARDWARE : Nat := 2
def TOK_ETHERNET : Nat := 3
def TOK_STARTS : Nat := 4
def TOK_ENDS : Nat := 5
def TOK_CLIENT_HOSTNAME : Nat := 6
def TOK_ABANDONED : Nat := 7
def CHAR_CURLY_BRACE_START : Nat := 123
def CHAR_CURLY_BRACE_END : Nat := 125
def CHAR_SEMICOLON : Nat := 59

/-- The table `keywords` (dhlease.c:69-80): name and value. -/
def keywords : List (List Nat × Nat) :=
  [ (bytes "abandoned", TOK_ABANDONED),
    (bytes "client-hostname", TOK_CLIENT_HOSTNAME),
    (bytes "ends", TOK_ENDS),
    (bytes "ethernet", TOK_ETHERNET),
    (bytes "hardware", TOK_HARDWARE),
    (bytes "lease", TOK_LEASE),
    (bytes "starts", TOK_STARTS) ]

/-- The function `keyword_cmp` (dhlease.c:688). -/
def keyword_cmp (p1 : List Nat) (p2 : List Nat × Nat) : Int := strcasecmp p1 p2.1

/-- C `bsearch` (the loop of the BSD libc): `base` is the part of the table
still searched, `lim` the number of its entries in play. -/
def bsearch_loop (key : List Nat) : Nat → List (List Nat × Nat) → Nat → Option (List Nat × Nat)
  | 0, _, _ => none
  | fuel + 1, base, lim =>
    if lim = 0 then none
    else
      match base[lim / 2]? with
      | none => none
      | some p =>
        let cmp := keyword_cmp key p
        if cmp = 0 then some p
        else if cmp > 0 then bsearch_loop key fuel (base.drop (lim / 2 + 1)) ((lim - 1) / 2)
        else bsearch_loop key fuel base (lim / 2)

/-- C `bsearch(key, base, nmemb, size, keyword_cmp)`. -/
def bsearch (key : List Nat) (base : List (List Nat × Nat)) : Option (List Nat × Nat) :=
  bsearch_loop key (base.length + 1) base base.length

/-- The function `lookup` (dhlease.c:695). -/
def lookup (value : List Nat) : Nat :=
  match bsearch value keywords with
  | some p => p.2
  | none => TOK_INVALID_TOKEN

/-! ## Time conversion -/

/-- The fields of `struct tm` that `strptime` sets for the format of the lease file. -/
structure Tm where
  tm_sec : Nat
  tm_min : Nat
  tm_hour : Nat
  tm_mday : Nat
  tm_mon : Nat
  tm_year : Int
  deriving DecidableEq, Repr

/-- What the run takes from its environment: `mktime` (it depends on the time
zone and on the fields of the uninitialised `struct tm` that `strptime` leaves
alone, `tm_isdst` among them), and `stack`, the bytes that lie in the
uninitialised `datebuf` of `parse_date_string` and after it. An `Env` stands
for one state of that memory: what two calls of `mktime` return for the same
six fields agrees only as far as the uninitialised fields do, so the theorems
that compare two runs give each run its own `Env` and do not compare the
times. -/
structure Env where
  mktime : Tm → Int
  stack : List Nat

/-- The loop of `_conv_num` of the BSD `strptime`: reads digits while the
number can still stay within `ulim`. -/
def conv_num_loop : List Nat → Nat → Nat → Nat → Nat × List Nat
  | [], result, _, _ => (result, [])
  | c :: cs, result, rulim, ulim =>
    let result1 := result * 10 + (c - 48)
    let rulim1 := rulim / 10
    if result1 * 10 ≤ ulim ∧ rulim1 ≠ 0 ∧ isdigit (cs.headD 0) = true then
      conv_num_loop cs result1 rulim1 ulim
    else (result1, cs)

/-- The function `_conv_num(&buf, &dest, llim, ulim)` of the BSD `strptime`: the number and
the rest of the string, `none` when there is no digit or the number is out of
range. -/
def conv_num (buf : List Nat) (llim ulim : Nat) : Option (Nat × List Nat) :=
  match buf with
  | [] => none
  | c :: _ =>
    if isdigit c then
      let r := conv_num_loop buf 0 ulim ulim
      if r.1 < llim ∨ r.1 > ulim then none else some r
    else none

/-- An ordinary character of a `strptime` format: the next byte must be it. -/
def expect_char (c : Nat) (buf : List Nat) : Option (List Nat) :=
  match buf with
  | [] => none
  | b :: bs => if b = c then some bs else none

/-- C `strptime(buf, "%Y/%m/%d %H:%M:%S", &tm)` on a NUL-free string, as the
BSD libc does it: `none` for `NULL`. White space in the format matches any
amount of white space. -/
def strptime_fmt (buf : List Nat) : Option Tm :=
  match conv_num buf 0 9999 with
  | none => none
  | some (year, b1) =>
  match expect_char 47 b1 with
  | none => none
  | some b2 =>
  match conv_num b2 1 12 with
  | none => none
  | some (mon, b3) =>
  match expect_char 47 b3 with
  | none => none
  | some b4 =>
  match conv_num b4 1 31 with
  | none => none
  | some (mday, b5) =>
  match conv_num (b5.dropWhile isspace) 0 23 with
  | none => none
  | some (hour, b6) =>
  match expect_char 58 b6 with
  | none => none
  | some b7 =>
  match conv_num b7 0 59 with
  | none => none
  | some (min, b8) =>
  match expect_char 58 b8 with
  | none => none
  | some b9 =>
  match conv_num b9 0 60 with
  | none => none
  | some (sec, _) =>
    some { tm_sec := sec, tm_min := min, tm_hour := hour, tm_mday := mday,
           tm_mon := mon - 1, tm_year := (year : Int) - 1900 }

/-- The function `string_to_time` (dhlease.c:148). -/
def string_to_time (env : Env) (datestr : List Nat) : Except Abort Int :=
  match strptime_fmt (cstr datestr) with
  | none => Except.error Abort.timeConversion
  | some tm => Except.ok (env.mktime tm)

/-- C `strncpy(dst, src, strlen(src))` into memory that holds `dst`: the
first bytes are overwritten and no NUL is added. -/
def strncpy_over (dst src : List Nat) : List Nat := src ++ dst.drop src.length

/-! ## The lexer and the block parser -/

/-- The size of `static char buffer[2048]` (dhlease.c:61). -/
def BUFFER_SIZE : Nat := 2048

/-- The size of `char datebuf[64]` (dhlease.c:607). -/
def DATEBUF_SIZE : Nat := 64

/-- The static variables of `dhlease.c` that the parser works on, and the
locals `count` and `hastoken` of `parse_lease_file` that `get_token` writes
through pointers. `input` is what is left to read from `fp` and `eof` its
end-of-file indicator; `inblock` only ever holds 0 or 1. `buffer` holds the
bytes stored in `buffer[0..i)` since the `memset` of the scanning function,
the rest of the array being zero. The counters `line` and `cpos` feed
diagnostics only and are left out. -/
structure Parser where
  input : List Nat
  eof : Bool
  token : Nat
  inblock : Bool
  buffer : List Nat
  lbuf : Option Nat
  heap : Heap
  count : Nat
  hastoken : Bool
  deriving DecidableEq, Repr

/-- C `getc(fp)`: `none` is `EOF`, and the end-of-file indicator is sticky. -/
def getc (st : Parser) : Option Nat × Parser :=
  if st.eof then (none, st)
  else
    match st.input with
    | [] => (none, { st with eof := true })
    | c :: rest => (some c, { st with input := rest })

/-- The function `get_char` (dhlease.c:454); `none` is the return value -1. -/
def get_char (st : Parser) : Except Abort (Option Nat × Parser) :=
  match getc st with
  | (none, st1) => Except.ok (none, st1)
  | (some c, st1) =>
    if c = CHAR_CURLY_BRACE_END ∧ st1.inblock ≠ true then
      Except.error Abort.unbalancedBracket
    else if c = CHAR_CURLY_BRACE_END then
      match st1.lbuf with
      | none => Except.error Abort.badPointer
      | some l =>
        match TAILQ_INSERT_TAIL st1.heap l with
        | Except.error a => Except.error a
        | Except.ok hp => Except.ok (some c, { st1 with inblock := false, heap := hp })
    else Except.ok (some c, st1)

/-- The function `peek_char` (dhlease.c:433). -/
def peek_char (st : Parser) : Except Abort (Option Nat × Parser) :=
  match getc st with
  | (none, st1) => Except.ok (none, st1)
  | (some c, st1) => Except.ok (some c, { st1 with input := c :: st1.input })

/-- The function `check_block_scope` (dhlease.c:399). -/
def check_block_scope (st : Parser) : Except Abort Unit :=
  if st.inblock = false then Except.error Abort.outsideScope else Except.ok ()

/-- The loop of `seek_char` (dhlease.c:416-425). At end of file `get_char`
keeps returning -1 and the loop never exits. -/
def seek_char_loop (chr : Nat) : Nat → Parser → Except Abort Parser
  | 0, _ => Except.error Abort.outOfFuel
  | fuel + 1, st =>
    match get_char st with
    | Except.error a => Except.error a
    | Except.ok (none, _) => Except.error Abort.loopsForever
    | Except.ok (some c, st1) =>
      if c = chr then Except.ok st1
      else if c = 10 then Except.error (Abort.missingChar chr)
      else seek_char_loop chr fuel st1

/-- The function `seek_char` (dhlease.c:411). -/
def seek_char (chr : Nat) (st : Parser) : Except Abort Parser :=
  seek_char_loop chr (st.input.length + 1) st

/-- The loop of `read_string_to_semicolon` (dhlease.c:502-515). The store
`buffer[i++] = c` has no bound check. -/
def read_string_to_semicolon_loop : Nat → Parser → Except Abort Parser
  | 0, _ => Except.error Abort.outOfFuel
  | fuel + 1, st =>
    match get_char st with
    | Except.error a => Except.error a
    | Except.ok (none, _) => Except.error Abort.unexpectedEOF
    | Except.ok (some c, st1) =>
      if c = 10 then Except.error Abort.unexpectedNewline
      else if c = CHAR_SEMICOLON then Except.ok st1
      else if BUFFER_SIZE ≤ st1.buffer.length then Except.error Abort.bufferOverflow
      else read_string_to_semicolon_loop fuel { st1 with buffer := st1.buffer ++ [c] }

/-- The function `read_string_to_semicolon` (dhlease.c:495). -/
def read_string_to_semicolon (st : Parser) : Except Abort Parser :=
  read_string_to_semicolon_loop (st.input.length + 1) { st with buffer := [] }

/-- The loop of `parse_ip_address` (dhlease.c:526-539) and of
`parse_ethernet_address` (dhlease.c:551-565), which are the same. The store
`buffer[i++] = c` has no bound check. -/
def parse_address_loop : Nat → Parser → Except Abort Parser
  | 0, _ => Except.error Abort.outOfFuel
  | fuel + 1, st =>
    match get_char st with
    | Except.error a => Except.error a
    | Except.ok (none, _) => Except.error Abort.unexpectedEOF
    | Except.ok (some c, st1) =>
      if c = 10 then Except.error Abort.unexpectedNewline
      else if isspace c ∨ c = 34 ∨ c = CHAR_SEMICOLON then Except.ok st1
      else if isascii c ∨ isdigit c then
        if BUFFER_SIZE ≤ st1.buffer.length then Except.error Abort.bufferOverflow
        else parse_address_loop fuel { st1 with buffer := st1.buffer ++ [c] }
      else parse_address_loop fuel st1

/-- The function `parse_ip_address` (dhlease.c:519). -/
def parse_ip_address (st : Parser) : Except Abort Parser :=
  parse_address_loop (st.input.length + 1) { st with buffer := [] }

/-- The function `parse_ethernet_address` (dhlease.c:544). -/
def parse_ethernet_address (st : Parser) : Except Abort Parser :=
  parse_address_loop (st.input.length + 1) { st with buffer := [] }

/-- The loop of `parse_client_hostname` (dhlease.c:580-597). The store
`buffer[i++] = c` has no bound check. -/
def parse_client_hostname_loop : Nat → Parser → Except Abort Parser
  | 0, _ => Except.error Abort.outOfFuel
  | fuel + 1, st =>
    match get_char st with
    | Except.error a => Except.error a
    | Except.ok (none, _) => Except.error Abort.unexpectedEOF
    | Except.ok (some c, st1) =>
      if c = 10 then Except.error Abort.unexpectedNewline
      else if c = 34 then parse_client_hostname_loop fuel st1
      else if isspace c ∨ c = CHAR_SEMICOLON then Except.ok st1
      else if isascii c ∨ isdigit c then
        if BUFFER_SIZE ≤ st1.buffer.length then Except.error Abort.bufferOverflow
        else parse_client_hostname_loop fuel { st1 with buffer := st1.buffer ++ [c] }
      else parse_client_hostname_loop fuel st1

/-- The function `parse_client_hostname` (dhlease.c:573). -/
def parse_client_hostname (st : Parser) : Except Abort Parser :=
  parse_client_hostname_loop (st.input.length + 1) { st with buffer := [] }

/-- The function `parse_date_string` (dhlease.c:605). Without the weekday and blank at
the front nothing is copied and `datebuf` is passed on as it was found. With
them, `strncpy` copies `strlen(buffer) - 2` bytes whatever the size of
`datebuf[64]`: the bytes beyond the 64 overwrite the frame of this function.
`string_to_time` still runs on what was copied, and when it calls `error()`
the process exits there; when it returns, this function returns through the
overwritten frame. -/
def parse_date_string (env : Env) (st : Parser) : Except Abort Int :=
  let s := cstr st.buffer
  if s.length < 3 then Except.error Abort.weirdBuffer
  else
    let datebuf :=
      if isdigit (s.getD 0 0) && isspace (s.getD 1 0) then strncpy_over env.stack (s.drop 2)
      else env.stack
    match string_to_time env datebuf with
    | Except.error a => Except.error a
    | Except.ok t =>
      if (isdigit (s.getD 0 0) && isspace (s.getD 1 0)) = true ∧ DATEBUF_SIZE < s.length - 2 then
        Except.error Abort.stackSmashed
      else Except.ok t

/-- The loop `do c = get_char(); while (c != 10)` that skips a comment in
`get_token` (dhlease.c:652-655). At end of file it never exits. -/
def skip_comment_loop : Nat → Parser → Except Abort Parser
  | 0, _ => Except.error Abort.outOfFuel
  | fuel + 1, st =>
    match get_char st with
    | Except.error a => Except.error a
    | Except.ok (none, _) => Except.error Abort.loopsForever
    | Except.ok (some c, st1) =>
      if c = 10 then Except.ok st1 else skip_comment_loop fuel st1

/-- The scanning loop of `get_token` (dhlease.c:635-661): `true` when the loop
is left by `break`, `false` when `get_token` returns 0 from inside it. The
store `buffer[i++] = c` has no bound check; the bytes of a comment are read
and not stored. -/
def get_token_loop : Nat → Parser → Except Abort (Bool × Parser)
  | 0, _ => Except.error Abort.outOfFuel
  | fuel + 1, st =>
    match get_char st with
    | Except.error a => Except.error a
    | Except.ok (none, st1) => Except.ok (false, st1)
    | Except.ok (some c, st1) =>
      if c = 9 ∨ c = 10 ∨ c = CHAR_SEMICOLON ∨ isspace c then Except.ok (true, st1)
      else if BUFFER_SIZE ≤ st1.buffer.length then Except.error Abort.bufferOverflow
      else
        let st2 := { st1 with buffer := st1.buffer ++ [c] }
        if c = 35 then
          match skip_comment_loop fuel st2 with
          | Except.error a => Except.error a
          | Except.ok st3 => get_token_loop fuel st3
        else get_token_loop fuel st2

/-- The function `get_token(&count, &hastoken)` (dhlease.c:624): the value returned and the
state. `lookup` compares `buffer` with the keywords by `strcasecmp`, which
stops within the first 16 bytes, so a full `buffer` is not read past its
end here. -/
def get_token (st : Parser) : Except Abort (Nat × Parser) :=
  match get_token_loop (st.input.length + 1) { st with buffer := [], hastoken := false } with
  | Except.error a => Except.error a
  | Except.ok (false, st1) => Except.ok (0, st1)
  | Except.ok (true, st1) =>
    let kwl := lookup st1.buffer
    if kwl ≤ TOK_INVALID_TOKEN then Except.ok (TOK_INVALID_TOKEN, st1)
    else
      -- if (kwl == TOK_LEASE) lbuf = calloc(1, sizeof(struct lease_t));
      let st2 :=
        if kwl = TOK_LEASE then
          { st1 with heap := (st1.heap.alloc lease_zero).1,
                     lbuf := some (st1.heap.alloc lease_zero).2 }
        else st1
      Except.ok (kwl, { st2 with count := st2.count + 1, hastoken := true })

/-- An assignment to a data field of `*lbuf`. -/
def set_lbuf (st : Parser) (f : Lease → Lease) : Except Abort Parser :=
  match st.lbuf with
  | none => Except.error Abort.badPointer
  | some l =>
    match st.heap.nodes[l]? with
    | none => Except.error Abort.badPointer
    | some e =>
      Except.ok { st with heap :=
        { st.heap with nodes := st.heap.nodes.set l { e with toLease := f e.toLease } } }

/-- A string read of `buffer` (`strlen(buffer)`, `%s`): when all 2048 bytes
of the array are non-zero the read runs past its end. -/
def buffer_full (st : Parser) : Prop := BUFFER_SIZE ≤ (cstr st.buffer).length

instance (st : Parser) : Decidable (buffer_full st) := by
  unfold buffer_full
  infer_instance

/-- The `switch (token)` of `parse_lease_file` (dhlease.c:325-388). The string
reads of `buffer` are those of lines 332, 366 and 374, and the `strlen` of
line 609 at the start of `parse_date_string`. The bookkeeping of the column
widths is left out: `len_ipaddr`, `len_macaddr` and `len_client` feed the
layout of the report only, and so do `len_start` and `len_end`, whose
`strlen(time_to_string(...))` (lines 345-346 and 354-355) needs `asctime_r`
to succeed, which it does for the years up to 9999. -/
def lease_switch (env : Env) (st : Parser) : Except Abort Parser :=
  if st.token = TOK_LEASE then
    if st.inblock = true then Except.error Abort.nestedLease
    else
      match parse_ip_address { st with inblock := true } with
      | Except.error a => Except.error a
      | Except.ok st1 =>
        if buffer_full st1 then Except.error Abort.bufferOverflow
        else
          match seek_char CHAR_CURLY_BRACE_START st1 with
          | Except.error a => Except.error a
          | Except.ok st2 => set_lbuf st2 (fun r => { r with ipaddr := some (cstr st2.buffer) })
  else if st.token = TOK_STARTS then
    match check_block_scope st with
    | Except.error a => Except.error a
    | Except.ok _ =>
      match read_string_to_semicolon st with
      | Except.error a => Except.error a
      | Except.ok st1 =>
        if buffer_full st1 then Except.error Abort.bufferOverflow
        else
          match parse_date_string env st1 with
          | Except.error a => Except.error a
          | Except.ok t => set_lbuf st1 (fun r => { r with start := t })
  else if st.token = TOK_ENDS then
    match check_block_scope st with
    | Except.error a => Except.error a
    | Except.ok _ =>
      match read_string_to_semicolon st with
      | Except.error a => Except.error a
      | Except.ok st1 =>
        if buffer_full st1 then Except.error Abort.bufferOverflow
        else
          match parse_date_string env st1 with
          | Except.error a => Except.error a
          | Except.ok t => set_lbuf st1 (fun r => { r with end_ := t })
  else if st.token = TOK_HARDWARE then
    match check_block_scope st with
    | Except.error a => Except.error a
    | Except.ok _ =>
      match get_token st with
      | Except.error a => Except.error a
      | Except.ok (tmp, st1) =>
        if tmp ≠ TOK_ETHERNET then Except.ok st1
        else
          match parse_ethernet_address st1 with
          | Except.error a => Except.error a
          | Except.ok st2 =>
            if buffer_full st2 then Except.error Abort.bufferOverflow
            else set_lbuf st2 (fun r => { r with macaddr := some (cstr st2.buffer) })
  else if st.token = TOK_CLIENT_HOSTNAME then
    match check_block_scope st with
    | Except.error a => Except.error a
    | Except.ok _ =>
      match parse_client_hostname st with
      | Except.error a => Except.error a
      | Except.ok st1 =>
        if buffer_full st1 then Except.error Abort.bufferOverflow
        else set_lbuf st1 (fun r => { r with client := some (cstr st1.buffer) })
  else if st.token = TOK_ABANDONED then
    match peek_char st with
    | Except.error a => Except.error a
    | Except.ok (_, st1) => set_lbuf st1 (fun r => { r with abandoned := 1 })
  else Except.ok st

/-- One iteration of the `do ... while (!feof(fp))` loop of `parse_lease_file`
(dhlease.c:312-388). The run ends at each of the two calls of `error()`; the
one of line 319 does so by undefined behaviour (see `Abort.expectedLease`). -/
def lease_step (env : Env) (st : Parser) : Except Abort Parser :=
  match get_token st with
  | Except.error a => Except.error a
  | Except.ok (tok, st0) =>
    let st1 := { st0 with token := tok }
    if st1.inblock = false ∧ st1.buffer.getD 0 0 = CHAR_CURLY_BRACE_END then Except.ok st1
    else if st1.count = 1 ∧ st1.hastoken = true ∧ st1.token ≠ TOK_LEASE then
      Except.error Abort.expectedLease
    else if st1.hastoken = true ∧ st1.token ≠ TOK_LEASE ∧ st1.inblock = false then
      Except.error Abort.outsideBoundaries
    else lease_switch env st1

/-- The loop `do ... while (!feof(fp))` of `parse_lease_file`. -/
def lease_loop (env : Env) : Nat → Parser → Except Abort Parser
  | 0, _ => Except.error Abort.outOfFuel
  | fuel + 1, st =>
    match lease_step env st with
    | Except.error a => Except.error a
    | Except.ok st1 => if st1.eof then Except.ok st1 else lease_loop env fuel st1

/-- The state in which `parse_lease_file` enters its loop on the file
`input`: `main` has initialised the queue, and the statics are zero. -/
def parser_init (input : List Nat) : Parser :=
  { input := input, eof := false, token := 0, inblock := false, buffer := [],
    lbuf := none, heap := TAILQ_INIT, count := 0, hastoken := false }

/-- The parsing part of `parse_lease_file` (dhlease.c:291-391): the state when
the loop is left. Every iteration but the last reads a byte, so the fuel is
enough. -/
def parse_leases (env : Env) (input : List Nat) : Except Abort Parser :=
  lease_loop env (input.length + 1) (parser_init input)

/-- The function `parse_lease_file` (dhlease.c:279) on the file `input`: the rows that
`output_leases` prints. -/
def parse_lease_file (env : Env) (o : Opts) (tnow : Int) (input : List Nat) :
    Except Abort (List Lease) :=
  match parse_leases env input with
  | Except.error a => Except.error a
  | Except.ok st =>
    if o.dflag then
      match remove_duplicates st.heap with
      | Except.error a => Except.error a
      | Except.ok h => output_leases o tnow h
    else output_leases o tnow st.heap

/-- The lease list after parsing the file `input`. -/
def parsed_list (env : Env) (input : List Nat) : Except Abort (List Lease) :=
  match parse_leases env input with
  | Except.error a => Except.error a
  | Except.ok st => lease_list st.heap

/-! ## Runs of the parser -/

/-- From `st` to `st1` no byte is put back into the file and the end-of-file
indicator is not cleared. -/
def Adv (st st1 : Parser) : Prop :=
  st1.input.length ≤ st.input.length ∧ (st.eof = true → st1.eof = true)

/-- The states in which the loop of `parse_lease_file` starts an iteration,
in a run that starts in `s0`. -/
inductive Reach (env : Env) (s0 : Parser) : Parser → Prop where
  | start : Reach env s0 s0
  | next (st st1 : Parser) : Reach env s0 st → lease_step env st = Except.ok st1 →
      st1.eof = false → Reach env s0 st1

/-- The conversion `mktime` does in the time zone UTC (days from the civil
date, then seconds). -/
def mktime_utc (tm : Tm) : Int :=
  let y : Int := tm.tm_year + 1900
  let m : Int := (tm.tm_mon : Int) + 1
  let y1 : Int := if m ≤ 2 then y - 1 else y
  let era : Int := y1 / 400
  let yoe : Int := y1 - era * 400
  let mp : Int := if m > 2 then m - 3 else m + 9
  let doy : Int := (153 * mp + 2) / 5 + (tm.tm_mday : Int) - 1
  let doe : Int := yoe * 365 + yoe / 4 - yoe / 100 + doy
  let days : Int := era * 146097 + doe - 719468
  days * 86400 + (tm.tm_hour : Int) * 3600 + (tm.tm_min : Int) * 60 + (tm.tm_sec : Int)

/-- An environment: the time zone UTC, and zero bytes on the stack. -/
def env_utc : Env := { mktime := mktime_utc, stack := [] }

/-- The state after `n` iterations of the loop of `parse_lease_file` that
return (an iteration that aborts leaves the state where it is). -/
def after_steps (env : Env) : Nat → Parser → Parser
  | 0, st => st
  | n + 1, st =>
    match lease_step env st with
    | Except.ok st1 => after_steps env n st1
    | Except.error _ => st

/-! ## The grammar of the lease file

The well-formed files of the specification (section 6) in the layout that
`dhcpd` writes: blocks `lease IP { directive* }`, the tokens of a header or of
a directive separated by one blank, directives ended by `;`, white space
between the directives and around the blocks, literals of fewer than 2048
bytes. -/

/-- Two decimal digits. -/
def digits2 (n : Nat) : List Nat := [48 + n / 10, 48 + n % 10]

/-- Four decimal digits. -/
def digits4 (n : Nat) : List Nat := [48 + n / 1000, 48 + n / 100 % 10, 48 + n / 10 % 10, 48 + n % 10]

/-- A time of the form `YYYY/MM/DD HH:MM:SS`. -/
structure Stamp where
  year : Nat
  mon : Nat
  mday : Nat
  hour : Nat
  min : Nat
  sec : Nat
  deriving DecidableEq, Repr

/-- The fields of a `Stamp` are in the ranges of a date and a time of day.
The year stays below 9999, so that the time is still one that `asctime_r` can
print when the second 60 or a daylight saving hour carries it forward. -/
def Stamp.valid (t : Stamp) : Prop :=
  t.year ≤ 9998 ∧ 1 ≤ t.mon ∧ t.mon ≤ 12 ∧ 1 ≤ t.mday ∧ t.mday ≤ 31 ∧ t.hour ≤ 23 ∧
    t.min ≤ 59 ∧ t.sec ≤ 60

instance (t : Stamp) : Decidable t.valid := by
  unfold Stamp.valid; infer_instance

/-- The text `YYYY/MM/DD HH:MM:SS` of a `Stamp`. -/
def Stamp.render (t : Stamp) : List Nat :=
  digits4 t.year ++ 47 :: (digits2 t.mon ++ 47 :: (digits2 t.mday ++ 32 ::
    (digits2 t.hour ++ 58 :: (digits2 t.min ++ 58 :: digits2 t.sec))))

/-- The `struct tm` that `strptime` fills for a `Stamp`. -/
def Stamp.tm (t : Stamp) : Tm :=
  { tm_sec := t.sec, tm_min := t.min, tm_hour := t.hour, tm_mday := t.mday,
    tm_mon := t.mon - 1, tm_year := (t.year : Int) - 1900 }

/-- A field literal: non-empty, short enough for `buffer` to hold it with its
NUL, ASCII, and without NUL, white space, quote, semicolon, brace or `#`. -/
def literal (s : List Nat) : Prop :=
  s ≠ [] ∧ s.length < BUFFER_SIZE ∧ ∀ c ∈ s, c ≠ 0 ∧ c ≤ 127 ∧ isspace c = false ∧ c ≠ 34 ∧ c ≠ 59 ∧ c ≠ 123 ∧
    c ≠ 125 ∧ c ≠ 35

instance (s : List Nat) : Decidable (literal s) := by
  unfold literal; infer_instance

/-- A run of white space. -/
def blank (s : List Nat) : Prop := ∀ c ∈ s, isspace c = true

instance (s : List Nat) : Decidable (blank s) := by
  unfold blank; infer_instance

/-- A directive of a lease block. -/
inductive Directive where
  | starts (wday : Nat) (t : Stamp)
  | ends (wday : Nat) (t : Stamp)
  | hardware_ethernet (mac : List Nat)
  | client_hostname (name : List Nat)
  | abandoned
  deriving DecidableEq, Repr

/-- The text of a directive, with its `;`. -/
def Directive.render : Directive → List Nat
  | Directive.starts w t => bytes "starts " ++ (w :: 32 :: (t.render ++ [59]))
  | Directive.ends w t => bytes "ends " ++ (w :: 32 :: (t.render ++ [59]))
  | Directive.hardware_ethernet mac => bytes "hardware ethernet " ++ (mac ++ [59])
  | Directive.client_hostname name => bytes "client-hostname " ++ (34 :: (name ++ [34, 59]))
  | Directive.abandoned => bytes "abandoned;"

/-- The literals of a directive are well-formed. -/
def Directive.wf : Directive → Prop
  | Directive.starts w t => isdigit w = true ∧ t.valid
  | Directive.ends w t => isdigit w = true ∧ t.valid
  | Directive.hardware_ethernet mac => literal mac
  | Directive.client_hostname name => literal name
  | Directive.abandoned => True

instance (d : Directive) : Decidable d.wf := by
  cases d <;> unfold Directive.wf <;> infer_instance

/-- What a directive sets in the record of its block. -/
def Directive.apply (env : Env) (r : Lease) : Directive → Lease
  | Directive.starts _ t => { r with start := env.mktime t.tm }
  | Directive.ends _ t => { r with end_ := env.mktime t.tm }
  | Directive.hardware_ethernet mac => { r with macaddr := some mac }
  | Directive.client_hostname name => { r with client := some name }
  | Directive.abandoned => { r with abandoned := 1 }

/-- A lease block with its layout: each directive comes with the white space
before it, `close` is the white space before the closing brace and `after`
the white space after it. -/
structure Block where
  ip : List Nat
  body : List (List Nat × Directive)
  close : List Nat
  after : List Nat
  deriving DecidableEq, Repr

/-- The text of the directives of a block, each after its white space. -/
def render_body : List (List Nat × Directive) → List Nat
  | [] => []
  | (gap, d) :: ds => gap ++ (d.render ++ render_body ds)

/-- The text of a block: `lease IP {` directives `}` and the white space after. -/
def Block.render (b : Block) : List Nat :=
  bytes "lease " ++ (b.ip ++ (32 :: 123 :: (render_body b.body ++ (b.close ++ (125 :: b.after)))))

/-- The text of a sequence of blocks. -/
def render_blocks : List Block → List Nat
  | [] => []
  | b :: bs => b.render ++ render_blocks bs

/-- The literals and the white space of a block are well-formed. -/
def Block.wf (b : Block) : Prop :=
  literal b.ip ∧ (∀ gd ∈ b.body, blank gd.1 ∧ gd.2.wf) ∧ blank b.close ∧ blank b.after

instance (b : Block) : Decidable b.wf := by
  unfold Block.wf; infer_instance

/-- A sequence of blocks is well-formed: each block is, and white space
separates a closing brace from the block that follows. -/
def wf_blocks : List Block → Prop
  | [] => True
  | [b] => b.wf
  | b :: b1 :: bs => b.wf ∧ b.after ≠ [] ∧ wf_blocks (b1 :: bs)

/-- Whether a sequence of blocks is well-formed can be computed. -/
def wf_blocks_dec : (bs : List Block) → Decidable (wf_blocks bs)
  | [] => isTrue trivial
  | [b] => inferInstanceAs (Decidable b.wf)
  | b :: b1 :: bs =>
    have := wf_blocks_dec (b1 :: bs)
    inferInstanceAs (Decidable (b.wf ∧ b.after ≠ [] ∧ wf_blocks (b1 :: bs)))

instance (bs : List Block) : Decidable (wf_blocks bs) := wf_blocks_dec bs

/-- The record of a block: the address of the header and what the directives
set, in their order. -/
def Block.record (env : Env) (b : Block) : Lease :=
  (b.body.map Prod.snd).foldl (Directive.apply env) { lease_zero with ipaddr := some b.ip }

/-! ## Well-formed queues -/

/-- The links from slot `r`, which holds `p`, run through the leases `S` in
order and end at slot `r1`, which holds `p1`: each lease of `S` is pointed to
by the slot before it and its `tqe_prev` is that slot. -/
def Seg (h : Heap) : Slot → Option Nat → List Nat → Slot → Option Nat → Prop
  | r, p, [], r1, p1 => r = r1 ∧ p = p1
  | r, p, k :: rest, r1, p1 =>
    p = some k ∧ ∃ e, h.nodes[k]? = some e ∧ e.tqe_prev = r ∧
      Seg h (Slot.next k) e.tqe_next rest r1 p1

/-- The queue of `h` is a well-formed `TAILQ` whose leases are, in order, the
distinct addresses `S`. -/
def Linked (h : Heap) (S : List Nat) : Prop :=
  Seg h Slot.head h.tqh_first S h.tqh_last none ∧ S.Nodup

/-- The slot `s` is a valid `struct lease_t **` of `h` and holds `v`. -/
def Holds (h : Heap) : Slot → Option Nat → Prop
  | Slot.null, _ => False
  | Slot.head, v => h.tqh_first = v
  | Slot.next a, v => ∃ e, h.nodes[a]? = some e ∧ e.tqe_next = v

/-- Two heaps hold the same records at the same addresses. -/
def SameData (h h1 : Heap) : Prop :=
  h1.nodes.length = h.nodes.length ∧ ∀ p, h1.lease p = h.lease p

/-- The test of the inner loop of `remove_duplicates` for the records `r`
(of `p_cur`) and `s` (of `p_cur_sub`): `s` has the MAC address of `r`, ignoring
case, and a strictly later end time. -/
def newer (r s : Lease) : Prop :=
  ∃ m n, r.macaddr = some m ∧ s.macaddr = some n ∧ strcasecmp m n = 0 ∧ r.end_ < s.end_

instance (r s : Lease) : Decidable (newer r s) :=
  match hr : r.macaddr, hs : s.macaddr with
  | some m, some n =>
    if h : strcasecmp m n = 0 ∧ r.end_ < s.end_ then
      isTrue ⟨m, n, hr, hs, h.1, h.2⟩
    else
      isFalse (fun ⟨m1, n1, h1, h2, h3, h4⟩ => by
        rw [hr] at h1; rw [hs] at h2
        cases h1; cases h2; exact h ⟨h3, h4⟩)
  | none, _ => isFalse (fun ⟨_, _, h1, _, _, _⟩ => by rw [hr] at h1; cases h1)
  | _, none => isFalse (fun ⟨_, _, _, h2, _, _⟩ => by rw [hs] at h2; cases h2)

/-- The records `remove_duplicates` keeps, among those of `ls`: those with a
MAC address for which no record of `ls` is `newer`. -/
def kept (ls : List Lease) (r : Lease) : Prop :=
  r.macaddr ≠ none ∧ ∀ s ∈ ls, ¬ newer r s

instance (ls : List Lease) (r : Lease) : Decidable (kept ls r) := by
  unfold kept; infer_instance

/-- A lease with only a MAC address and an end time set. -/
def lease_mac_end (mac : String) (e : Int) : Lease :=
  { lease_zero with macaddr := some (bytes mac), end_ := e }

/-- The time `2024/01/01 10:00:00`. -/
def stamp_start : Stamp := { year := 2024, mon := 1, mday := 1, hour := 10, min := 0, sec := 0 }

/-- The time `2024/01/08 10:00:00`. -/
def stamp_end : Stamp := { year := 2024, mon := 1, mday := 8, hour := 10, min := 0, sec := 0 }

/-- The block of the lease of `host1`, on one line, that ends the file. -/
def block_host1 : Block :=
  { ip := bytes "10.0.0.5",
    body := [([32], Directive.starts 50 stamp_start), ([32], Directive.ends 50 stamp_end),
             ([32], Directive.hardware_ethernet (bytes "aa:bb:cc:dd:ee:ff")),
             ([32], Directive.client_hostname (bytes "host1"))],
    close := [32], after := [] }

/-- The file that holds the block of the lease of `host1`. -/
def file_host1 : List Nat :=
  bytes "lease 10.0.0.5 \x7b starts 2 2024/01/01 10:00:00; ends 2 2024/01/08 10:00:00; hardware ethernet aa:bb:cc:dd:ee:ff; client-hostname \"host1\"; \x7d"

/-- A block of several lines, with a newline after it. -/
def block_lines : Block :=
  { ip := bytes "10.0.0.6",
    body := [([10, 32, 32], Directive.ends 51 stamp_end),
             ([10, 32, 32], Directive.hardware_ethernet (bytes "aa:bb:cc:dd:ee:00")),
             ([10, 32, 32], Directive.abandoned)],
    close := [10], after := [10] }

/-- An abandoned lease without directives but `abandoned`, on one line. -/
def block_abandoned : Block :=
  { ip := bytes "10.0.0.7", body := [([32], Directive.abandoned)], close := [32], after := [10] }

/-- Only `-d`. -/
def opts_d : Opts := { opts_none with dflag := true }

/-- A file of two blocks with the same MAC address and the same end time. -/
def file_tie : List Nat :=
  bytes "lease 10.0.0.5 \x7b\n  ends 2 2024/01/08 10:00:00;\n  hardware ethernet aa:bb:cc:dd:ee:ff;\n\x7d\nlease 10.0.0.6 \x7b\n  ends 2 2024/01/08 10:00:00;\n  hardware ethernet aa:bb:cc:dd:ee:ff;\n\x7d\n"

/-! ## States of a well-formed run -/

/-- The parser is outside a block and the lease list is `recs`. -/
def Outside (recs : List Lease) (st : Parser) : Prop :=
  st.eof = false ∧ st.inblock = false ∧
    ∃ S, Linked st.heap S ∧ S.map st.heap.lease = recs

/-- The parser is inside a block whose record so far is `cur`, not yet in the
lease list `recs`. -/
def Inside (recs : List Lease) (cur : Lease) (st : Parser) : Prop :=
  st.eof = false ∧ st.inblock = true ∧ 1 ≤ st.count ∧
    ∃ S l, Linked st.heap S ∧ S.map st.heap.lease = recs ∧ st.lbuf = some l ∧ l ∉ S ∧
      l < st.heap.nodes.length ∧ st.heap.lease l = cur

/-- The states `st` and `st1` differ at most in the read position, the token
buffer, `token` and `hastoken`. -/
def Agree (st st1 : Parser) : Prop :=
  st1.eof = st.eof ∧ st1.inblock = st.inblock ∧ st1.heap = st.heap ∧ st1.lbuf = st.lbuf ∧
    st1.count = st.count

/-- The run from `st` ends without error, at the end of the file, with the
lease list `recs`. -/
def Finishes (env : Env) (st : Parser) (recs : List Lease) : Prop :=
  ∃ st1 st2 S, Reach env st st1 ∧ lease_step env st1 = Except.ok st2 ∧ st2.eof = true ∧
    Linked st2.heap S ∧ S.map st2.heap.lease = recs

/-! ## The invariant of the parser -/

/-- The lease `lbuf` points to is allocated and is not in the queue, which is
a well-formed `TAILQ`. -/
def Fresh (st : Parser) : Prop :=
  ∃ S l, Linked st.heap S ∧ st.lbuf = some l ∧ l < st.heap.nodes.length ∧ l ∉ S

/-- The invariant of the parser: the queue is a well-formed `TAILQ`, and while
a block is open `lbuf` points to an allocated lease that is not in the queue. -/
def Sound (st : Parser) : Prop :=
  (∃ S, Linked st.heap S) ∧ (st.inblock = true → Fresh st)

/-- An environment in which the bytes of an earlier date lie where `datebuf`
is put, as an earlier call of `parse_date_string` leaves them. -/
def env_stale : Env := { mktime := mktime_utc, stack := bytes "1999/12/31 23:59:59" }

/-- A record without its two times. The times are what `mktime` returns, and
that depends on memory the program does not initialise, so two runs are
compared on the other fields. -/
def Lease.timeless (r : Lease) : Lease := { r with start := 0, end_ := 0 }

/-! ## Blocks with more text, and blocks without an end -/

/-- A word for `get_token`: bytes without white space, `;`, `#` and closing
brace, few enough for `buffer` to hold them with a NUL. -/
def word (w : List Nat) : Prop :=
  w.length < BUFFER_SIZE ∧ ∀ c ∈ w, isspace c = false ∧ c ≠ CHAR_SEMICOLON ∧ c ≠ 35 ∧ c ≠ CHAR_CURLY_BRACE_END

instance (w : List Nat) : Decidable (word w) := by
  unfold word; infer_instance

/-- The string `w` equals no keyword of the table for `strcasecmp`. -/
def no_keyword (w : List Nat) : Prop := ∀ k ∈ keywords, strcasecmp w k.1 ≠ 0

instance (w : List Nat) : Decidable (no_keyword w) := by
  unfold no_keyword; infer_instance

/-- A byte that ends a word in `get_token`: white space or `;`. -/
def delimiter (d : Nat) : Prop := isspace d = true ∨ d = CHAR_SEMICOLON

instance (d : Nat) : Decidable (delimiter d) := by
  unfold delimiter; infer_instance

/-- The text of words, each with the delimiter that follows it. -/
def render_words : List (List Nat × Nat) → List Nat
  | [] => []
  | (w, d) :: ws => w ++ d :: render_words ws

/-- The text of a block with the bytes `x` put in after its first `n`
directives. -/
def Block.render_with (b : Block) (n : Nat) (x : List Nat) : List Nat :=
  bytes "lease " ++ (b.ip ++ (32 :: 123 :: (render_body (b.body.take n) ++
    (x ++ (render_body (b.body.drop n) ++ (b.close ++ (125 :: b.after)))))))

/-- The text of a block without its closing brace and what follows it: the
header, the directives, and the white space `close`. -/
def Block.render_open (b : Block) : List Nat :=
  bytes "lease " ++ (b.ip ++ (32 :: 123 :: (render_body b.body ++ b.close)))

/-! ## Options that differ before the last active filter -/

/-- Some filter among `-m`, `-c`, `-i`, `-a`, `-x` is active. -/
def any_filter (o : Opts) : Prop :=
  o.mflag = true ∨ o.cflag = true ∨ o.iflag = true ∨ o.aflag = true ∨ o.xflag = true

instance (o : Opts) : Decidable (any_filter o) := by
  unfold any_filter; infer_instance

/-- The options `o1` agree with `o` on the filter that is last among the
active ones of `o` in the order `-m`, `-c`, `-i`, `-a`, `-x`, with its search
string, and on the filters after it, which are off; the filters before it are
free. -/
def same_last_filter (o o1 : Opts) : Prop :=
  o1.xflag = o.xflag ∧ (o.xflag = false →
    o1.aflag = o.aflag ∧ (o.aflag = false →
      o1.iflag = o.iflag ∧ (o.iflag = true → o1.ival = o.ival) ∧ (o.iflag = false →
        o1.cflag = o.cflag ∧ (o.cflag = true → o1.cval = o.cval) ∧ (o.cflag = false →
          o1.mflag = o.mflag ∧ (o.mflag = true → o1.mval = o.mval)))))

instance (o o1 : Opts) : Decidable (same_last_filter o o1) := by
  unfold same_last_filter; infer_instance

/-- The options `-m zz -c host -x`. -/
def opts_mcx : Opts := { opts_mc with xflag := true }

/-! # Theorems -/

/-! ## The queue: segments and frames -/

theorem set_getElem?_self {α : Type} (l : List α) (i : Nat) (e : α)
    (h : l[i]? = some e) : l.set i e = l := by
  apply List.ext_getElem?
  intro j
  by_cases hij : i = j
  · subst hij
    rw [List.getElem?_set_self']
    simp [h]
  · rw [List.getElem?_set_ne hij]

theorem getElem?_set_same {α : Type} (l : List α) (i : Nat) (e e1 : α)
    (h : l[i]? = some e) : (l.set i e1)[i]? = some e1 := by
  have hlt : i < l.length := by
    rcases Nat.lt_or_ge i l.length with h1 | h1
    · exact h1
    · rw [List.getElem?_eq_none h1] at h; cases h
  rw [List.getElem?_set_self']
  simp [hlt]

theorem seg_append (h : Heap) (A B : List Nat) :
    ∀ (r : Slot) (p : Option Nat) (r1 : Slot) (p1 : Option Nat),
      Seg h r p (A ++ B) r1 p1 ↔ ∃ rm pm, Seg h r p A rm pm ∧ Seg h rm pm B r1 p1 := by
  induction A with
  | nil =>
    intro r p r1 p1
    constructor
    · intro hs
      exact ⟨r, p, ⟨rfl, rfl⟩, hs⟩
    · rintro ⟨rm, pm, ⟨h1, h2⟩, hs⟩
      subst h1; subst h2
      exact hs
  | cons a A ih =>
    intro r p r1 p1
    constructor
    · rintro ⟨hp, e, he, hprev, hs⟩
      obtain ⟨rm, pm, h1, h2⟩ := (ih _ _ _ _).1 hs
      exact ⟨rm, pm, ⟨hp, e, he, hprev, h1⟩, h2⟩
    · rintro ⟨rm, pm, ⟨hp, e, he, hprev, h1⟩, h2⟩
      exact ⟨hp, e, he, hprev, (ih _ _ _ _).2 ⟨rm, pm, h1, h2⟩⟩

theorem seg_frame (h h1 : Heap) (S : List Nat)
    (hf : ∀ k ∈ S, ∀ e, h.nodes[k]? = some e →
      ∃ e1, h1.nodes[k]? = some e1 ∧ e1.tqe_prev = e.tqe_prev ∧ e1.tqe_next = e.tqe_next) :
    ∀ (r : Slot) (p : Option Nat) (r1 : Slot) (p1 : Option Nat),
      Seg h r p S r1 p1 → Seg h1 r p S r1 p1 := by
  induction S with
  | nil => intro r p r1 p1 hs; exact hs
  | cons a S ih =>
    rintro r p r1 p1 ⟨hp, e, he, hprev, hs⟩
    obtain ⟨e1, he1, hp1, hn1⟩ := hf a (List.mem_cons_self _ _) e he
    refine ⟨hp, e1, he1, hp1.trans hprev, ?_⟩
    rw [hn1]
    exact ih (fun k hk => hf k (List.mem_cons_of_mem _ hk)) _ _ _ _ hs

theorem seg_load (h : Heap) (S : List Nat) :
    ∀ (r : Slot) (p : Option Nat) (r1 : Slot) (p1 : Option Nat),
      Seg h r p S r1 p1 → ∀ k ∈ S, ∃ e, h.nodes[k]? = some e := by
  induction S with
  | nil => intro r p r1 p1 _ k hk; cases hk
  | cons a S ih =>
    rintro r p r1 p1 ⟨_, e, he, _, hs⟩ k hk
    rcases List.mem_cons.1 hk with rfl | hk
    · exact ⟨e, he⟩
    · exact ih _ _ _ _ hs k hk

theorem seg_lt (h : Heap) (S : List Nat) (r : Slot) (p : Option Nat) (r1 : Slot)
    (p1 : Option Nat) (hs : Seg h r p S r1 p1) : ∀ k ∈ S, k < h.nodes.length := by
  intro k hk
  obtain ⟨e, he⟩ := seg_load h S r p r1 p1 hs k hk
  rcases Nat.lt_or_ge k h.nodes.length with h1 | h1
  · exact h1
  · rw [List.getElem?_eq_none h1] at he; cases he

theorem nodup_length_le (S : List Nat) (n : Nat) (hn : S.Nodup) (hlt : ∀ k ∈ S, k < n) :
    S.length ≤ n := by
  have h1 : S.toFinset ⊆ Finset.range n := by
    intro k hk
    rw [List.mem_toFinset] at hk
    exact Finset.mem_range.2 (hlt k hk)
  have h2 := Finset.card_le_card h1
  rw [List.toFinset_card_of_nodup hn, Finset.card_range] at h2
  exact h2

theorem linked_length_le (h : Heap) (S : List Nat) (hl : Linked h S) :
    S.length ≤ h.nodes.length :=
  nodup_length_le S _ hl.2 (seg_lt h S _ _ _ _ hl.1)

theorem foreach_nodes_seg (h : Heap) (S : List Nat) :
    ∀ (fuel : Nat) (r : Slot) (p : Option Nat) (r1 : Slot),
      Seg h r p S r1 none → S.length ≤ fuel → foreach_nodes fuel h p = Except.ok S := by
  induction S with
  | nil =>
    rintro fuel r p r1 ⟨_, hp⟩ _
    subst hp
    cases fuel <;> rfl
  | cons a S ih =>
    rintro fuel r p r1 ⟨hp, e, he, _, hs⟩ hfuel
    subst hp
    cases fuel with
    | zero => simp at hfuel
    | succ n =>
      have hn : S.length ≤ n := by simpa using hfuel
      simp only [foreach_nodes, he, ih n _ _ _ hs hn]

theorem lease_list_linked (h : Heap) (S : List Nat) (hl : Linked h S) :
    lease_list h = Except.ok (S.map h.lease) := by
  unfold lease_list
  rw [foreach_nodes_seg h S _ _ _ _ hl.1 (Nat.le_succ_of_le (linked_length_le h S hl))]

theorem seg_holds (h : Heap) (S : List Nat) :
    ∀ (r : Slot) (p : Option Nat) (r1 : Slot) (p1 : Option Nat),
      Holds h r p → Seg h r p S r1 p1 → Holds h r1 p1 := by
  induction S with
  | nil =>
    rintro r p r1 p1 hh ⟨h1, h2⟩
    subst h1; subst h2; exact hh
  | cons a S ih =>
    rintro r p r1 p1 _ ⟨_, e, he, _, hs⟩
    exact ih (Slot.next a) e.tqe_next _ _ (show Holds h (Slot.next a) e.tqe_next from ⟨e, he, rfl⟩) hs

theorem store_holds (h : Heap) (s : Slot) (v : Option Nat) (hh : Holds h s v) :
    h.store s v = Except.ok h := by
  cases s with
  | null => exact hh.elim
  | head =>
    have h1 : h.tqh_first = v := hh
    subst h1
    rfl
  | next a =>
    obtain ⟨e, he, hv⟩ := hh
    subst hv
    simp only [Heap.store, he]
    rw [set_getElem?_self _ _ _ he]

/-- Unlinking a lease that the queue already bypasses changes nothing. -/
theorem remove_bypassed (h : Heap) (i : Nat) (e : lease_t) (he : h.nodes[i]? = some e)
    (hh : Holds h e.tqe_prev e.tqe_next)
    (hn : match e.tqe_next with
      | some k => ∃ nk, h.nodes[k]? = some nk ∧ nk.tqe_prev = e.tqe_prev
      | none => h.tqh_last = e.tqe_prev) :
    TAILQ_REMOVE h i = Except.ok h := by
  unfold TAILQ_REMOVE Heap.store_prev
  simp only [he]
  cases hnx : e.tqe_next with
  | none =>
    rw [hnx] at hn hh
    simp only at hn
    have : ({ h with tqh_last := e.tqe_prev } : Heap) = h := by rw [← hn]
    simp only [this, he, hnx]
    exact store_holds h _ _ hh
  | some k =>
    rw [hnx] at hn hh
    obtain ⟨nk, hk, hp⟩ := hn
    have h1 : ({ nk with tqe_prev := e.tqe_prev } : lease_t) = nk := by rw [← hp]
    simp only [hk, h1, set_getElem?_self _ _ _ hk, he, hnx]
    exact store_holds h _ _ hh

theorem getElem?_some_lt {α : Type} (l : List α) (i : Nat) (e : α) (h : l[i]? = some e) :
    i < l.length := by
  rcases Nat.lt_or_ge i l.length with h1 | h1
  · exact h1
  · rw [List.getElem?_eq_none h1] at h; cases h

theorem sameData_of (h h1 : Heap) (hlen : h1.nodes.length = h.nodes.length)
    (hd : ∀ (a : Nat) (ea : lease_t), h.nodes[a]? = some ea → ∃ ea1, h1.nodes[a]? = some ea1 ∧
      ea1.toLease = ea.toLease) : SameData h h1 := by
  refine ⟨hlen, fun p => ?_⟩
  unfold Heap.lease
  cases hp : h.nodes[p]? with
  | none =>
    have h2 : h1.nodes[p]? = none := by
      rw [List.getElem?_eq_none_iff] at hp ⊢
      omega
    rw [h2]
  | some ea =>
    obtain ⟨ea1, h2, h3⟩ := hd p ea hp
    rw [h2]
    exact h3

theorem sameData_refl (h : Heap) : SameData h h := ⟨rfl, fun _ => rfl⟩

theorem sameData_trans (h h1 h2 : Heap) (h12 : SameData h h1) (h23 : SameData h1 h2) :
    SameData h h2 :=
  ⟨h23.1.trans h12.1, fun p => (h23.2 p).trans (h12.2 p)⟩

/-- The first statement of `TAILQ_REMOVE` on the part of the queue after `elm`. -/
theorem store_prev_seg (h : Heap) (B : List Nat) (i : Nat) (p : Option Nat) (rm : Slot)
    (hB : Seg h (Slot.next i) p B h.tqh_last none) (hnd : B.Nodup) :
    ∃ h1, h.store_prev p rm = Except.ok h1 ∧ h1.tqh_first = h.tqh_first ∧
      Seg h1 rm p B h1.tqh_last none ∧
      (∀ a, a ∉ B → h1.nodes[a]? = h.nodes[a]?) ∧
      h1.nodes.length = h.nodes.length ∧
      (∀ (a : Nat) (ea : lease_t), h.nodes[a]? = some ea → ∃ ea1, h1.nodes[a]? = some ea1 ∧
        ea1.tqe_next = ea.tqe_next ∧ ea1.toLease = ea.toLease) := by
  cases B with
  | nil =>
    obtain ⟨_, hp⟩ := hB
    subst hp
    exact ⟨{ h with tqh_last := rm }, rfl, rfl, ⟨rfl, rfl⟩, fun _ _ => rfl, rfl,
      fun a ea hea => ⟨ea, hea, rfl, rfl⟩⟩
  | cons k B =>
    obtain ⟨hp, nk, hk, _, hs⟩ := hB
    subst hp
    have hkB : k ∉ B := (List.nodup_cons.1 hnd).1
    refine ⟨{ h with nodes := h.nodes.set k { nk with tqe_prev := rm } }, ?_, rfl, ?_, ?_, ?_, ?_⟩
    · simp only [Heap.store_prev, hk]
    · refine ⟨rfl, { nk with tqe_prev := rm }, getElem?_set_same _ _ _ _ hk, rfl, ?_⟩
      refine seg_frame h _ B ?_ _ _ _ _ hs
      intro a ha ea hea
      have hne : k ≠ a := fun hka => hkB (hka ▸ ha)
      exact ⟨ea, by simp only [List.getElem?_set_ne hne, hea], rfl, rfl⟩
    · intro a ha
      have hne : k ≠ a := fun hka => ha (hka ▸ List.mem_cons_self _ _)
      simp only [List.getElem?_set_ne hne]
    · simp only [List.length_set]
    · intro a ea hea
      by_cases hka : k = a
      · subst hka
        rw [hk] at hea
        cases hea
        exact ⟨_, getElem?_set_same _ _ _ _ hk, rfl, rfl⟩
      · exact ⟨ea, by simp only [List.getElem?_set_ne hka, hea], rfl, rfl⟩

/-- The second statement of `TAILQ_REMOVE` on the part of the queue before `elm`. -/
theorem store_seg (h : Heap) (A : List Nat) (rm : Slot) (p v : Option Nat)
    (hA : Seg h Slot.head h.tqh_first A rm p) (hnd : A.Nodup) :
    ∃ hr, h.store rm v = Except.ok hr ∧ Seg hr Slot.head hr.tqh_first A rm v ∧
      hr.tqh_last = h.tqh_last ∧
      (∀ a, a ∉ A → hr.nodes[a]? = h.nodes[a]?) ∧
      hr.nodes.length = h.nodes.length ∧
      (∀ (a : Nat) (ea : lease_t), h.nodes[a]? = some ea → ∃ ea1, hr.nodes[a]? = some ea1 ∧
        ea1.tqe_prev = ea.tqe_prev ∧ ea1.toLease = ea.toLease) := by
  rcases List.eq_nil_or_concat A with rfl | ⟨A1, a, hAeq⟩
  swap
  rw [List.concat_eq_append] at hAeq
  subst hAeq
  swap
  · obtain ⟨hr, _⟩ := hA
    subst hr
    exact ⟨{ h with tqh_first := v }, rfl, ⟨rfl, rfl⟩, rfl, fun _ _ => rfl, rfl,
      fun a ea hea => ⟨ea, hea, rfl, rfl⟩⟩
  · obtain ⟨r2, p2, hA1, hp2, ea, hea, hprev, hrm, _⟩ := (seg_append h A1 [a] _ _ _ _).1 hA
    subst hp2
    subst hrm
    have haA1 : a ∉ A1 := by
      have := List.nodup_append.1 hnd
      intro ha
      exact this.2.2 ha (List.mem_singleton_self a)
    refine ⟨{ h with nodes := h.nodes.set a { ea with tqe_next := v } }, ?_, ?_, rfl, ?_, ?_, ?_⟩
    · simp only [Heap.store, hea]
    · refine (seg_append _ A1 [a] _ _ _ _).2 ⟨r2, some a, ?_, rfl,
        { ea with tqe_next := v }, getElem?_set_same _ _ _ _ hea, hprev, rfl, rfl⟩
      refine seg_frame h _ A1 ?_ _ _ _ _ hA1
      intro b hb eb heb
      have hne : a ≠ b := fun hab => haA1 (hab ▸ hb)
      exact ⟨eb, by simp only [List.getElem?_set_ne hne, heb], rfl, rfl⟩
    · intro b hb
      have hne : a ≠ b := fun hab => hb (hab ▸ by simp)
      simp only [List.getElem?_set_ne hne]
    · simp only [List.length_set]
    · intro b eb heb
      by_cases hab : a = b
      · subst hab
        rw [hea] at heb
        cases heb
        exact ⟨_, getElem?_set_same _ _ _ _ hea, rfl, rfl⟩
      · exact ⟨eb, by simp only [List.getElem?_set_ne hab, heb], rfl, rfl⟩

/-- The macro `TAILQ_REMOVE` of a lease of a well-formed queue: the queue is again
well-formed, without that lease; the lease itself keeps its links, and
removing it a second time changes nothing. -/
theorem remove_spec (h : Heap) (A B : List Nat) (i : Nat) (hl : Linked h (A ++ i :: B)) :
    ∃ hr, TAILQ_REMOVE h i = Except.ok hr ∧ Linked hr (A ++ B) ∧
      hr.nodes[i]? = h.nodes[i]? ∧ TAILQ_REMOVE hr i = Except.ok hr ∧ SameData h hr := by
  obtain ⟨hseg, hnd⟩ := hl
  obtain ⟨rm, pm, hA, hpm, e, he, hprev, hB⟩ := (seg_append h A (i :: B) _ _ _ _).1 hseg
  subst hpm
  have hnd1 := List.nodup_append.1 hnd
  have hAnd : A.Nodup := hnd1.1
  have hiB : i ∉ B := (List.nodup_cons.1 hnd1.2.1).1
  have hBnd : B.Nodup := (List.nodup_cons.1 hnd1.2.1).2
  have hiA : i ∉ A := fun hi => hnd1.2.2 hi (List.mem_cons_self _ _)
  have hAB : ∀ a ∈ A, a ∉ B := fun a ha hb => hnd1.2.2 ha (List.mem_cons_of_mem _ hb)
  obtain ⟨h1, hs1, hfirst1, hB1, hout1, hlen1, hkeep1⟩ :=
    store_prev_seg h B i e.tqe_next rm hB hBnd
  have hA1 : Seg h1 Slot.head h1.tqh_first A rm (some i) := by
    rw [hfirst1]
    refine seg_frame h h1 A ?_ _ _ _ _ hA
    intro a ha ea hea
    exact ⟨ea, by rw [hout1 a (hAB a ha), hea], rfl, rfl⟩
  have hi1 : h1.nodes[i]? = some e := by rw [hout1 i hiB, he]
  obtain ⟨hr, hs2, hA2, hlast2, hout2, hlen2, hkeep2⟩ :=
    store_seg h1 A rm (some i) e.tqe_next hA1 hAnd
  have hB2 : Seg hr rm e.tqe_next B hr.tqh_last none := by
    rw [hlast2]
    refine seg_frame h1 hr B ?_ _ _ _ _ hB1
    intro b hb eb heb
    have hbA : b ∉ A := fun hbA => hAB b hbA hb
    exact ⟨eb, by rw [hout2 b hbA, heb], rfl, rfl⟩
  have hi2 : hr.nodes[i]? = some e := by rw [hout2 i hiA, hi1]
  refine ⟨hr, ?_, ⟨(seg_append hr A B _ _ _ _).2 ⟨rm, e.tqe_next, hA2, hB2⟩, ?_⟩, ?_, ?_, ?_⟩
  · unfold TAILQ_REMOVE
    simp only [he, hprev, hs1, hi1, hs2]
  · exact List.nodup_append.2 ⟨hAnd, hBnd, fun a ha hb => hAB a ha hb⟩
  · rw [hi2, he]
  · refine remove_bypassed hr i e hi2 ?_ ?_
    · rw [hprev]
      exact seg_holds hr A _ _ _ _ (show Holds hr Slot.head hr.tqh_first from rfl) hA2
    · cases B with
      | nil =>
        obtain ⟨h3, h4⟩ := hB2
        rw [h4]
        simp only
        rw [hprev]
        exact h3.symm
      | cons k B =>
        obtain ⟨h3, nk, h4, h5, _⟩ := hB2
        rw [h3]
        exact ⟨nk, h4, h5.trans hprev.symm⟩
  · refine sameData_of h hr (hlen2.trans hlen1) ?_
    intro a ea hea
    obtain ⟨ea1, h3, _, h4⟩ := hkeep1 a ea hea
    obtain ⟨ea2, h5, _, h6⟩ := hkeep2 a ea1 h3
    exact ⟨ea2, h5, h6.trans h4⟩

/-! ## Case-insensitive comparison -/

theorem tolower_ne_zero (c : Nat) (hc : c ≠ 0) : tolower c ≠ 0 := by
  unfold tolower
  split <;> omega

theorem casecmp_eq_zero (a : List Nat) :
    ∀ b : List Nat, (∀ c ∈ a, c ≠ 0) → (∀ c ∈ b, c ≠ 0) →
      (casecmp a b = 0 ↔ a.map tolower = b.map tolower) := by
  induction a with
  | nil =>
    intro b _ hb
    cases b with
    | nil => simp [casecmp]
    | cons b bs =>
      have := tolower_ne_zero b (hb b (List.mem_cons_self _ _))
      simp only [casecmp, List.map_nil, List.map_cons]
      constructor
      · intro h; omega
      · intro h; cases h
  | cons a as ih =>
    intro b ha hb
    cases b with
    | nil =>
      have := tolower_ne_zero a (ha a (List.mem_cons_self _ _))
      simp only [casecmp, List.map_nil, List.map_cons]
      constructor
      · intro h; omega
      · intro h; cases h
    | cons b bs =>
      simp only [casecmp, List.map_cons, List.cons.injEq]
      split
      · rename_i heq
        rw [ih bs (fun c hc => ha c (List.mem_cons_of_mem _ hc))
          (fun c hc => hb c (List.mem_cons_of_mem _ hc))]
        simp [heq]
      · rename_i hne
        constructor
        · intro h; exact absurd (by omega) hne
        · intro h; exact absurd h.1 hne

theorem cstr_ne_zero (s : List Nat) : ∀ c ∈ cstr s, c ≠ 0 := by
  intro c hc
  have := List.mem_takeWhile_imp hc
  simpa using this

theorem strcasecmp_eq_zero (s1 s2 : List Nat) :
    strcasecmp s1 s2 = 0 ↔ (cstr s1).map tolower = (cstr s2).map tolower :=
  casecmp_eq_zero _ _ (cstr_ne_zero s1) (cstr_ne_zero s2)

theorem strcasecmp_trans (a b c : List Nat) (h1 : strcasecmp a b = 0)
    (h2 : strcasecmp b c = 0) : strcasecmp a c = 0 := by
  rw [strcasecmp_eq_zero] at *
  exact h1.trans h2

theorem strcasecmp_symm (a b : List Nat) (h1 : strcasecmp a b = 0) : strcasecmp b a = 0 := by
  rw [strcasecmp_eq_zero] at *
  exact h1.symm

theorem strcasecmp_self (a : List Nat) : strcasecmp a a = 0 := by
  rw [strcasecmp_eq_zero]

theorem compare_time_lt (t1 t2 : Int) : compare_time t1 t2 = -1 ↔ t1 < t2 := by
  unfold compare_time difftime
  constructor
  · intro h
    by_contra hc
    have h1 : ¬ (t1 - t2 < 0) := by omega
    simp only [h1, if_false] at h
    split at h <;> omega
  · intro h
    have h1 : t1 - t2 < 0 := by omega
    simp only [h1, if_true]

theorem newer_trans (r s t : Lease) (h1 : newer r s) (h2 : newer s t) : newer r t := by
  obtain ⟨m, n, hm, hn, hc, he⟩ := h1
  obtain ⟨n1, k, hn1, hk, hc1, he1⟩ := h2
  rw [hn] at hn1
  cases hn1
  exact ⟨m, k, hm, hk, strcasecmp_trans _ _ _ hc hc1, lt_trans he he1⟩

theorem newer_irrefl (r : Lease) : ¬ newer r r := by
  rintro ⟨_, _, _, _, _, he⟩
  exact lt_irrefl _ he

/-- The body of the inner loop unlinks `p_cur` exactly when the record of
`p_cur_sub` is `newer`. -/
theorem remove_duplicates_body_eq (h : Heap) (i : Nat) (cur sub : lease_t) (cmac : List Nat)
    (hmac : cur.macaddr = some cmac) :
    remove_duplicates_body h i cur sub =
      if newer cur.toLease sub.toLease then TAILQ_REMOVE h i else Except.ok h := by
  unfold remove_duplicates_body
  cases hs : sub.macaddr with
  | none =>
    have : ¬ newer cur.toLease sub.toLease := by
      rintro ⟨_, _, _, h2, _, _⟩
      rw [hs] at h2; cases h2
    simp only [this, if_false]
  | some smac =>
    simp only [hmac]
    by_cases hc : strcasecmp cmac smac = 0
    · by_cases ht : cur.end_ < sub.end_
      · have : newer cur.toLease sub.toLease := ⟨cmac, smac, hmac, hs, hc, ht⟩
        simp only [hc, (compare_time_lt _ _).2 ht, this, if_true]
      · have : ¬ newer cur.toLease sub.toLease := by
          rintro ⟨_, _, _, _, _, h4⟩
          exact ht h4
        have h5 : ¬ compare_time cur.end_ sub.end_ = -1 := fun h6 => ht ((compare_time_lt _ _).1 h6)
        simp only [hc, h5, this, if_true, if_false]
    · have : ¬ newer cur.toLease sub.toLease := by
        rintro ⟨m, n, h1, h2, h3, _⟩
        rw [hmac] at h1; rw [hs] at h2
        cases h1; cases h2
        exact hc h3
      simp only [hc, this, if_false]

/-! ## The loops of `remove_duplicates` -/

theorem lease_of_load (h : Heap) (k : Nat) (e : lease_t) (he : h.nodes[k]? = some e) :
    h.lease k = e.toLease := by
  unfold Heap.lease
  rw [he]

theorem filter_ne_split (A B : List Nat) (i : Nat) (hnd : (A ++ i :: B).Nodup) :
    (A ++ i :: B).filter (fun k => decide (k ≠ i)) = A ++ B := by
  have hnd1 := List.nodup_append.1 hnd
  have hiB : i ∉ B := (List.nodup_cons.1 hnd1.2.1).1
  have hiA : i ∉ A := fun hi => hnd1.2.2 hi (List.mem_cons_self _ _)
  have h1 : A.filter (fun k => decide (k ≠ i)) = A := by
    rw [List.filter_eq_self]
    intro a ha
    simpa using fun hai : a = i => hiA (hai ▸ ha)
  have h2 : B.filter (fun k => decide (k ≠ i)) = B := by
    rw [List.filter_eq_self]
    intro a ha
    simpa using fun hai : a = i => hiB (hai ▸ ha)
  rw [List.filter_append, List.filter_cons, h1, h2]
  simp

/-- The form of `remove_spec` for a lease given by membership. -/
theorem remove_mem (h : Heap) (S : List Nat) (i : Nat) (hl : Linked h S) (hi : i ∈ S) :
    ∃ hr, TAILQ_REMOVE h i = Except.ok hr ∧ Linked hr (S.filter (fun k => decide (k ≠ i))) ∧
      hr.nodes[i]? = h.nodes[i]? ∧ TAILQ_REMOVE hr i = Except.ok hr ∧ SameData h hr := by
  obtain ⟨A, B, rfl⟩ := List.append_of_mem hi
  rw [filter_ne_split A B i hl.2]
  exact remove_spec h A B i hl

/-- Once `p_cur` is unlinked, the rest of the inner loop leaves the heap as it
is: a second `TAILQ_REMOVE` of `p_cur` writes what is there already. -/
theorem inner_stable (h : Heap) (i : Nat) (cur : lease_t) (cmac : List Nat)
    (hcur : h.nodes[i]? = some cur) (hmac : cur.macaddr = some cmac)
    (hrem : TAILQ_REMOVE h i = Except.ok h) (T : List Nat) :
    ∀ (fuel : Nat) (r : Slot) (p : Option Nat), Seg h r p T h.tqh_last none →
      T.length ≤ fuel → remove_duplicates_inner fuel h i p = Except.ok h := by
  induction T with
  | nil =>
    rintro fuel r p ⟨_, hp⟩ _
    subst hp
    cases fuel <;> rfl
  | cons k T ih =>
    rintro fuel r p ⟨hp, sub, hsub, _, hs⟩ hfuel
    subst hp
    cases fuel with
    | zero => simp at hfuel
    | succ n =>
      have hn : T.length ≤ n := by simpa using hfuel
      have hbody : remove_duplicates_body h i cur sub = Except.ok h := by
        rw [remove_duplicates_body_eq h i cur sub cmac hmac]
        split
        · exact hrem
        · rfl
      simp only [remove_duplicates_inner, hcur, hsub, hbody]
      exact ih n _ _ hs hn

/-- The inner loop on a well-formed queue, from any point of it: `p_cur` is
unlinked when a record from that point on is `newer`, and the heap is
untouched otherwise. -/
theorem inner_spec (h hr : Heap) (S : List Nat) (i : Nat) (cur : lease_t) (cmac : List Nat)
    (hcur : h.nodes[i]? = some cur) (hmac : cur.macaddr = some cmac)
    (hrem : TAILQ_REMOVE h i = Except.ok hr)
    (hlr : Linked hr (S.filter (fun k => decide (k ≠ i))))
    (hcur1 : hr.nodes[i]? = h.nodes[i]?)
    (hrem1 : TAILQ_REMOVE hr i = Except.ok hr) (T : List Nat) :
    ∀ (P : List Nat) (fuel : Nat) (r : Slot) (p : Option Nat), S = P ++ T →
      Seg h r p T h.tqh_last none → T.length ≤ fuel →
      remove_duplicates_inner fuel h i p =
        Except.ok (if ∃ k ∈ T, newer (h.lease i) (h.lease k) then hr else h) := by
  induction T with
  | nil =>
    rintro P fuel r p _ ⟨_, hp⟩ _
    subst hp
    have : ¬ ∃ k ∈ ([] : List Nat), newer (h.lease i) (h.lease k) := by simp
    simp only [this, if_false]
    cases fuel <;> rfl
  | cons k T ih =>
    rintro P fuel r p hS ⟨hp, sub, hsub, _, hs⟩ hfuel
    subst hp
    cases fuel with
    | zero => simp at hfuel
    | succ n =>
      have hn : T.length ≤ n := by simpa using hfuel
      have hli : h.lease i = cur.toLease := lease_of_load h i cur hcur
      have hlk : h.lease k = sub.toLease := lease_of_load h k sub hsub
      by_cases hnew : newer cur.toLease sub.toLease
      · -- `p_cur` is unlinked here; the rest of the loop runs on `hr`
        have hex : ∃ j ∈ k :: T, newer (h.lease i) (h.lease j) :=
          ⟨k, List.mem_cons_self _ _, by rw [hli, hlk]; exact hnew⟩
        have hki : k ≠ i := by
          rintro rfl
          rw [hcur] at hsub
          cases hsub
          exact newer_irrefl _ hnew
        have hbody : remove_duplicates_body h i cur sub = Except.ok hr := by
          rw [remove_duplicates_body_eq h i cur sub cmac hmac, if_pos hnew, hrem]
        have hfil : S.filter (fun j => decide (j ≠ i)) =
            P.filter (fun j => decide (j ≠ i)) ++ k :: T.filter (fun j => decide (j ≠ i)) := by
          rw [hS, List.filter_append, List.filter_cons]
          simp [hki]
        obtain ⟨hseg, _⟩ := hlr
        rw [hfil] at hseg
        obtain ⟨rm, pm, _, _, sub1, hsub1, _, hs1⟩ := (seg_append hr _ _ _ _ _ _).1 hseg
        simp only [remove_duplicates_inner, hcur, hsub, hbody, hsub1, if_pos hex]
        refine inner_stable hr i cur cmac (hcur1.trans hcur) hmac hrem1 _ n _ _ hs1 ?_
        exact le_trans (List.length_filter_le _ _) hn
      · have hbody : remove_duplicates_body h i cur sub = Except.ok h := by
          rw [remove_duplicates_body_eq h i cur sub cmac hmac, if_neg hnew]
        simp only [remove_duplicates_inner, hcur, hsub, hbody]
        rw [ih (P ++ [k]) n _ _ (by simp [hS]) hs hn]
        have hiff : (∃ j ∈ k :: T, newer (h.lease i) (h.lease j)) ↔
            ∃ j ∈ T, newer (h.lease i) (h.lease j) := by
          constructor
          · rintro ⟨j, hj, hnj⟩
            rcases List.mem_cons.1 hj with rfl | hj
            · rw [hli, hlk] at hnj
              exact absurd hnj hnew
            · exact ⟨j, hj, hnj⟩
          · rintro ⟨j, hj, hnj⟩
            exact ⟨j, List.mem_cons_of_mem _ hj, hnj⟩
        simp only [hiff]

theorem seg_head (h : Heap) (T : List Nat) (r : Slot) (p : Option Nat) (r1 : Slot)
    (hs : Seg h r p T r1 none) : p = T.head? := by
  cases T with
  | nil => exact hs.2
  | cons k T => exact hs.1

/-- Among the records that are `newer` than `r` there is one that is kept. -/
theorem exists_newer_kept (ls : List Lease) (r : Lease) (hex : ∃ s ∈ ls, newer r s) :
    ∃ s ∈ ls, newer r s ∧ kept ls s := by
  classical
  obtain ⟨s0, hs0, hn0⟩ := hex
  have hne : (ls.toFinset.filter (fun s => newer r s)).Nonempty :=
    ⟨s0, Finset.mem_filter.2 ⟨List.mem_toFinset.2 hs0, hn0⟩⟩
  obtain ⟨s, hs, hmax⟩ := Finset.exists_max_image _ (fun s : Lease => s.end_) hne
  obtain ⟨hs1, hs2⟩ := Finset.mem_filter.1 hs
  refine ⟨s, List.mem_toFinset.1 hs1, hs2, ?_, ?_⟩
  · obtain ⟨_, n, _, hn, _, _⟩ := hs2
    rw [hn]
    exact fun hc => by cases hc
  · intro t ht hnt
    have h1 : newer r t := newer_trans r s t hs2 hnt
    have h2 := hmax t (Finset.mem_filter.2 ⟨List.mem_toFinset.2 ht, h1⟩)
    obtain ⟨_, _, _, _, _, h3⟩ := hnt
    exact absurd h2 (not_le.2 h3)

/-- Whether a record newer than the one at `c` is still in the queue when the
outer loop reaches `c` does not depend on the records unlinked before. -/
theorem newer_in_current (h0 : Heap) (S P T : List Nat) (c : Nat) (hS : S = P ++ c :: T)
    (hmac : (h0.lease c).macaddr ≠ none) :
    (∃ k ∈ P.filter (fun k => decide (kept (S.map h0.lease) (h0.lease k))) ++ c :: T,
        newer (h0.lease c) (h0.lease k)) ↔
      ¬ kept (S.map h0.lease) (h0.lease c) := by
  constructor
  · rintro ⟨k, hk, hn⟩ hkept
    have hkS : k ∈ S := by
      rw [hS]
      rcases List.mem_append.1 hk with h1 | h1
      · exact List.mem_append_left _ (List.mem_filter.1 h1).1
      · exact List.mem_append_right _ h1
    exact hkept.2 _ (List.mem_map_of_mem _ hkS) hn
  · intro hnk
    have hex : ∃ s ∈ S.map h0.lease, newer (h0.lease c) s := by
      by_contra hc
      exact hnk ⟨hmac, fun s hs hn => hc ⟨s, hs, hn⟩⟩
    obtain ⟨s, hs, hn, hkept⟩ := exists_newer_kept _ _ hex
    obtain ⟨k, hkS, rfl⟩ := List.mem_map.1 hs
    refine ⟨k, ?_, hn⟩
    rw [hS] at hkS
    rcases List.mem_append.1 hkS with h1 | h1
    · exact List.mem_append_left _ (List.mem_filter.2 ⟨h1, by simpa using hkept⟩)
    · exact List.mem_append_right _ h1

/-- The outer loop of `remove_duplicates`, started in the middle of a
well-formed queue of which the part before has been processed. -/
theorem outer_spec (h0 : Heap) (S : List Nat) (T : List Nat) :
    ∀ (P : List Nat) (h : Heap) (fuel : Nat), S = P ++ T →
      Linked h (P.filter (fun k => decide (kept (S.map h0.lease) (h0.lease k))) ++ T) →
      SameData h0 h → T.length ≤ fuel →
      ∃ h1, remove_duplicates_outer fuel h T.head? = Except.ok h1 ∧
        Linked h1 (S.filter (fun k => decide (kept (S.map h0.lease) (h0.lease k)))) ∧
        SameData h0 h1 := by
  induction T with
  | nil =>
    intro P h fuel hS hl hd _
    obtain rfl : P = S := by simp [hS]
    refine ⟨h, ?_, ?_, hd⟩
    · cases fuel <;> rfl
    · simpa using hl
  | cons c T ih =>
    intro P h fuel hS hl hd hfuel
    cases fuel with
    | zero => simp at hfuel
    | succ n =>
      have hn : T.length ≤ n := by simpa using hfuel
      obtain ⟨rm, pm, _, _, cur, hcur, _, hsT⟩ := (seg_append h _ _ _ _ _ _).1 hl.1
      have hnext : cur.tqe_next = T.head? := seg_head h T _ _ _ hsT
      have hlc : h0.lease c = cur.toLease := by
        rw [← hd.2 c]
        exact lease_of_load h c cur hcur
      have hS1 : S = (P ++ [c]) ++ T := by simp [hS]
      -- the two ways the body ends
      have hgo : ∀ h1 : Heap, h1.nodes[c]? = some cur → SameData h0 h1 →
          Linked h1 ((P ++ [c]).filter
            (fun k => decide (kept (S.map h0.lease) (h0.lease k))) ++ T) →
          ∃ h2, (match h1.nodes[c]? with
              | none => Except.error Abort.badPointer
              | some cur1 => remove_duplicates_outer n h1 cur1.tqe_next) = Except.ok h2 ∧
            Linked h2 (S.filter (fun k => decide (kept (S.map h0.lease) (h0.lease k)))) ∧
            SameData h0 h2 := by
        intro h1 hc1 hd1 hl1
        simp only [hc1, hnext]
        exact ih (P ++ [c]) h1 n hS1 hl1 hd1 hn
      have hmem : c ∈ P.filter (fun k => decide (kept (S.map h0.lease) (h0.lease k))) ++ c :: T :=
        List.mem_append_right _ (List.mem_cons_self _ _)
      obtain ⟨hr, hrem, hlr, hcr, hrem1, hdr⟩ := remove_mem h _ c hl hmem
      have hlr1 : Linked hr (P.filter (fun k => decide (kept (S.map h0.lease) (h0.lease k))) ++ T) := by
        rw [filter_ne_split _ _ c hl.2] at hlr
        exact hlr
      have hskip : ¬ kept (S.map h0.lease) (h0.lease c) →
          (P ++ [c]).filter (fun k => decide (kept (S.map h0.lease) (h0.lease k))) =
            P.filter (fun k => decide (kept (S.map h0.lease) (h0.lease k))) := by
        intro hk
        simp [List.filter_append, List.filter_cons, hk]
      have hstay : kept (S.map h0.lease) (h0.lease c) →
          (P ++ [c]).filter (fun k => decide (kept (S.map h0.lease) (h0.lease k))) ++ T =
            P.filter (fun k => decide (kept (S.map h0.lease) (h0.lease k))) ++ c :: T := by
        intro hk
        simp [List.filter_append, List.filter_cons, hk]
      cases hm : cur.macaddr with
      | none =>
        have hnk : ¬ kept (S.map h0.lease) (h0.lease c) := by
          rintro ⟨h1, _⟩
          rw [hlc] at h1
          exact h1 hm
        simp only [remove_duplicates_outer, hcur, hm, hrem]
        exact hgo hr (hcr.trans hcur) (sameData_trans _ _ _ hd hdr) (by rw [hskip hnk]; exact hlr1)
      | some cmac =>
        have hinner := inner_spec h hr
          (P.filter (fun k => decide (kept (S.map h0.lease) (h0.lease k))) ++ c :: T)
          c cur cmac hcur hm hrem hlr hcr hrem1
          (P.filter (fun k => decide (kept (S.map h0.lease) (h0.lease k))) ++ c :: T) []
          (h.nodes.length + 1) Slot.head h.tqh_first (List.nil_append _).symm hl.1
          (Nat.le_succ_of_le (linked_length_le h _ hl))
        have hmac : (h0.lease c).macaddr ≠ none := by
          rw [hlc]
          intro hc
          rw [hm] at hc
          cases hc
        have hiff := newer_in_current h0 S P T c hS hmac
        have hsame : ∀ k, h.lease k = h0.lease k := hd.2
        simp only [hsame] at hinner
        simp only [remove_duplicates_outer, hcur, hm, hinner]
        by_cases hk : kept (S.map h0.lease) (h0.lease c)
        · have hno : ¬ ∃ k ∈ P.filter (fun k => decide (kept (S.map h0.lease) (h0.lease k))) ++ c :: T,
              newer (h0.lease c) (h0.lease k) := fun hex => hiff.1 hex hk
          simp only [hno, if_false]
          exact hgo h hcur hd (by rw [hstay hk]; exact hl)
        · have hyes := hiff.2 hk
          simp only [hyes, if_true]
          exact hgo hr (hcr.trans hcur) (sameData_trans _ _ _ hd hdr) (by rw [hskip hk]; exact hlr1)

/-- The function `remove_duplicates` on a well-formed queue returns, and the queue is then
well-formed and holds the leases that are `kept`, in their order. -/
theorem remove_duplicates_spec (h : Heap) (S : List Nat) (hl : Linked h S) :
    ∃ h1, remove_duplicates h = Except.ok h1 ∧
      Linked h1 (S.filter (fun k => decide (kept (S.map h.lease) (h.lease k)))) ∧
      SameData h h1 := by
  unfold remove_duplicates
  have hfirst : h.tqh_first = S.head? := seg_head h S _ _ _ hl.1
  cases S with
  | nil =>
    have : TAILQ_EMPTY h = true := by
      unfold TAILQ_EMPTY
      rw [hfirst]
      rfl
    simp only [this, if_true]
    exact ⟨h, rfl, by simpa using hl, sameData_refl h⟩
  | cons c T =>
    have : TAILQ_EMPTY h = false := by
      unfold TAILQ_EMPTY
      rw [hfirst]
      rfl
    simp only [this, Bool.false_eq_true, if_false]
    rw [hfirst]
    exact outer_spec h (c :: T) (c :: T) [] h (h.nodes.length + 1) rfl (by simpa using hl)
      (sameData_refl h) (Nat.le_succ_of_le (linked_length_le h _ hl))

/-! ## Building the queue -/

/-- The macro `TAILQ_INSERT_TAIL` of a lease that is not in the well-formed queue. -/
theorem insert_spec (h : Heap) (S : List Nat) (i : Nat) (e : lease_t) (hl : Linked h S)
    (hi : i ∉ S) (he : h.nodes[i]? = some e) :
    ∃ h1, TAILQ_INSERT_TAIL h i = Except.ok h1 ∧ Linked h1 (S ++ [i]) ∧ SameData h h1 ∧
      (∀ k, k ∉ S → k ≠ i → h1.nodes[k]? = h.nodes[k]?) := by
  obtain ⟨hseg, hnd⟩ := hl
  -- the heap after the two assignments to the links of `elm`
  have hA0 : Seg { h with nodes := h.nodes.set i { e with tqe_next := none, tqe_prev := h.tqh_last } }
      Slot.head h.tqh_first S h.tqh_last none := by
    refine seg_frame h _ S ?_ _ _ _ _ hseg
    intro k hk ek hek
    have hne : i ≠ k := fun hik => hi (hik ▸ hk)
    exact ⟨ek, by simp only [List.getElem?_set_ne hne, hek], rfl, rfl⟩
  obtain ⟨hr, hs, hA, hlast, hout, hlen, hkeep⟩ := store_seg _ S h.tqh_last none (some i) hA0 hnd
  have hir : hr.nodes[i]? = some { e with tqe_next := none, tqe_prev := h.tqh_last } := by
    rw [hout i hi]
    exact getElem?_set_same _ _ _ _ he
  refine ⟨{ hr with tqh_last := Slot.next i }, ?_, ⟨?_, ?_⟩, ?_, ?_⟩
  · unfold TAILQ_INSERT_TAIL
    simp only [he]
    rw [hs]
  · refine (seg_append _ S [i] _ _ _ _).2 ⟨h.tqh_last, some i, ?_, rfl, _, hir, rfl, rfl, rfl⟩
    exact seg_frame hr { hr with tqh_last := Slot.next i } S
      (fun k _ ek hek => ⟨ek, hek, rfl, rfl⟩) _ _ _ _ hA
  · exact List.nodup_append.2 ⟨hnd, List.nodup_singleton i, by
      intro a ha hb
      rw [List.mem_singleton] at hb
      exact hi (hb ▸ ha)⟩
  · refine sameData_of h _ ?_ ?_
    · show hr.nodes.length = h.nodes.length
      rw [hlen]
      simp only [List.length_set]
    · intro a ea hea
      show ∃ ea1, hr.nodes[a]? = some ea1 ∧ ea1.toLease = ea.toLease
      by_cases hia : i = a
      · subst hia
        rw [he] at hea
        cases hea
        exact ⟨_, hir, rfl⟩
      · have h0 : (h.nodes.set i { e with tqe_next := none, tqe_prev := h.tqh_last })[a]? =
            some ea := by
          simp only [List.getElem?_set_ne hia, hea]
        obtain ⟨ea1, h1, _, h2⟩ := hkeep a ea h0
        exact ⟨ea1, h1, h2⟩
  · intro k hk hki
    show hr.nodes[k]? = h.nodes[k]?
    rw [hout k hk]
    simp only [List.getElem?_set_ne (Ne.symm hki)]

theorem alloc_linked (h : Heap) (S : List Nat) (r : Lease) (hl : Linked h S) :
    Linked (h.alloc r).1 S ∧ (h.alloc r).2 ∉ S ∧
      (h.alloc r).1.nodes[(h.alloc r).2]? =
        some { toLease := r, tqe_next := none, tqe_prev := Slot.null } ∧
      (∀ k ∈ S, (h.alloc r).1.lease k = h.lease k) := by
  have hlt := seg_lt h S _ _ _ _ hl.1
  have hsame : ∀ k ∈ S, (h.alloc r).1.nodes[k]? = h.nodes[k]? := by
    intro k hk
    simp only [Heap.alloc]
    exact List.getElem?_append_left (hlt k hk)
  refine ⟨⟨?_, hl.2⟩, ?_, ?_, ?_⟩
  · refine seg_frame h _ S ?_ _ _ _ _ hl.1
    intro k hk ek hek
    exact ⟨ek, by rw [hsame k hk, hek], rfl, rfl⟩
  · intro hmem
    exact lt_irrefl _ (hlt _ hmem)
  · simp [Heap.alloc]
  · intro k hk
    unfold Heap.lease
    rw [hsame k hk]

/-- The queue built from a list of records is well-formed and its lease list
is that list. -/
theorem queue_of_spec (rs : List Lease) :
    ∀ (h : Heap) (S : List Nat), Linked h S →
      ∃ h1 S1, queue_of rs h = Except.ok h1 ∧ Linked h1 S1 ∧
        S1.map h1.lease = S.map h.lease ++ rs := by
  induction rs with
  | nil =>
    intro h S hl
    exact ⟨h, S, rfl, hl, by simp⟩
  | cons r rs ih =>
    intro h S hl
    obtain ⟨hl1, hnew, hload, hsame⟩ := alloc_linked h S r hl
    obtain ⟨h1, hins, hl2, hd, _⟩ := insert_spec _ S _ _ hl1 hnew hload
    obtain ⟨h2, S2, hq, hl3, hmap⟩ := ih h1 _ hl2
    refine ⟨h2, S2, ?_, hl3, ?_⟩
    · simp only [queue_of, hins, hq]
    · rw [hmap, List.map_append, List.map_singleton, List.append_assoc, List.singleton_append]
      congr 1
      · apply List.map_congr_left
        intro k hk
        rw [hd.2 k, hsame k hk]
      · rw [hd.2, lease_of_load _ _ _ hload]

theorem linked_init : Linked TAILQ_INIT [] := ⟨⟨rfl, rfl⟩, List.nodup_nil⟩

/-- The queue built from `ls` by the parser's insertions exists and is
well-formed, and its lease list is `ls`. -/
theorem queue_of_init (ls : List Lease) :
    ∃ h S, queue_of ls TAILQ_INIT = Except.ok h ∧ Linked h S ∧ S.map h.lease = ls ∧
      lease_list h = Except.ok ls := by
  obtain ⟨h, S, hq, hl, hmap⟩ := queue_of_spec ls TAILQ_INIT [] linked_init
  have hmap1 : S.map h.lease = ls := by simpa using hmap
  exact ⟨h, S, hq, hl, hmap1, by rw [lease_list_linked h S hl, hmap1]⟩

/-- The lease list after `remove_duplicates` on a well-formed queue, in terms
of the lease list before. -/
theorem remove_duplicates_list (h : Heap) (S : List Nat) (hl : Linked h S) :
    ∃ h1 S1, remove_duplicates h = Except.ok h1 ∧ Linked h1 S1 ∧
      S1.map h1.lease = (S.map h.lease).filter (fun r => decide (kept (S.map h.lease) r)) := by
  obtain ⟨h1, hrd, hl1, hd⟩ := remove_duplicates_spec h S hl
  refine ⟨h1, _, hrd, hl1, ?_⟩
  rw [List.filter_map]
  apply List.map_congr_left
  intro k _
  exact hd.2 k

theorem filter_kept_idem (ls : List Lease) :
    (ls.filter (fun r => decide (kept ls r))).filter
      (fun r => decide (kept (ls.filter (fun r => decide (kept ls r))) r)) =
    ls.filter (fun r => decide (kept ls r)) := by
  rw [List.filter_eq_self]
  intro r hr
  have hk : kept ls r := by simpa using (List.mem_filter.1 hr).2
  have : kept (ls.filter (fun r => decide (kept ls r))) r :=
    ⟨hk.1, fun s hs => hk.2 s (List.mem_filter.1 hs).1⟩
  simpa using this

/-- C2: for every lease list `ls`, `remove_duplicates` on the queue built from
`ls` returns, and the lease list is then `ls` in its order without the records
that have no MAC address and without those for which some record of `ls` has
the same MAC address (ignoring case) and a strictly later end time; all other
records stay. -/
theorem remove_duplicates_filter (ls : List Lease) :
    ∃ h h1, queue_of ls TAILQ_INIT = Except.ok h ∧ lease_list h = Except.ok ls ∧
      remove_duplicates h = Except.ok h1 ∧
      lease_list h1 = Except.ok (ls.filter (fun r =>
        decide (r.macaddr ≠ none ∧ ∀ s ∈ ls, ¬ newer r s))) := by
  obtain ⟨h, S, hq, hl, hmap, hlist⟩ := queue_of_init ls
  obtain ⟨h1, S1, hrd, hl1, hmap1⟩ := remove_duplicates_list h S hl
  refine ⟨h, h1, hq, hlist, hrd, ?_⟩
  rw [lease_list_linked h1 S1 hl1, hmap1, hmap]
  rfl

/-- C3: for every lease list `ls`, running `remove_duplicates` a second time
on the queue left by the first run returns and leaves the lease list as the
first run left it. -/
theorem remove_duplicates_idempotent (ls : List Lease) :
    ∃ h h1 h2 l1, queue_of ls TAILQ_INIT = Except.ok h ∧ remove_duplicates h = Except.ok h1 ∧
      remove_duplicates h1 = Except.ok h2 ∧ lease_list h1 = Except.ok l1 ∧
      lease_list h2 = Except.ok l1 := by
  obtain ⟨h, S, hq, hl, _, _⟩ := queue_of_init ls
  obtain ⟨h1, S1, hrd, hl1, hmap1⟩ := remove_duplicates_list h S hl
  obtain ⟨h2, S2, hrd2, hl2, hmap2⟩ := remove_duplicates_list h1 S1 hl1
  refine ⟨h, h1, h2, S1.map h1.lease, hq, hrd, hrd2, lease_list_linked h1 S1 hl1, ?_⟩
  rw [lease_list_linked h2 S2 hl2, hmap2, hmap1, filter_kept_idem]

set_option maxRecDepth 100000 in
/-- C1 (the code at the failing input): two records with the MAC address
`aa:bb:cc:dd:ee:ff` and the same end time are both in the lease list after
`remove_duplicates`; and for the file of two such blocks `parse_lease_file`
with `-d` prints two rows. -/
theorem remove_duplicates_keeps_tie :
    (match queue_of [lease_mac_end "aa:bb:cc:dd:ee:ff" 100, lease_mac_end "aa:bb:cc:dd:ee:ff" 100]
        TAILQ_INIT with
      | Except.ok h =>
        match remove_duplicates h with
        | Except.ok h1 => lease_list h1
        | Except.error a => Except.error a
      | Except.error a => Except.error a) =
      Except.ok [lease_mac_end "aa:bb:cc:dd:ee:ff" 100, lease_mac_end "aa:bb:cc:dd:ee:ff" 100] ∧
    parse_lease_file env_utc opts_d 0 file_tie = Except.ok
      [{ lease_zero with ipaddr := some (bytes "10.0.0.5"), end_ := 1704708000,
                         macaddr := some (bytes "aa:bb:cc:dd:ee:ff") },
       { lease_zero with ipaddr := some (bytes "10.0.0.6"), end_ := 1704708000,
                         macaddr := some (bytes "aa:bb:cc:dd:ee:ff") }] :=
  ⟨rfl, rfl⟩

/-! ## Reading only moves forward -/

theorem adv_refl (st : Parser) : Adv st st := ⟨le_refl _, fun h => h⟩

theorem adv_trans (a b c : Parser) (h1 : Adv a b) (h2 : Adv b c) : Adv a c :=
  ⟨le_trans h2.1 h1.1, fun h => h2.2 (h1.2 h)⟩

theorem adv_of_eq (st st1 : Parser) (h1 : st1.input = st.input) (h2 : st1.eof = st.eof) :
    Adv st st1 := by
  refine ⟨by rw [h1], fun h => by rw [h2, h]⟩

theorem getc_spec (st : Parser) :
    (∃ c rest, st.eof = false ∧ st.input = c :: rest ∧
        getc st = (some c, { st with input := rest })) ∨
      ((st.eof = true ∨ st.input = []) ∧ getc st = (none, { st with eof := true })) := by
  unfold getc
  cases he : st.eof with
  | true =>
    right
    refine ⟨Or.inl rfl, ?_⟩
    simp only [if_true]
    cases st
    simp only at he
    subst he
    rfl
  | false =>
    cases hi : st.input with
    | nil =>
      right
      exact ⟨Or.inr rfl, by simp⟩
    | cons c rest =>
      left
      exact ⟨c, rest, rfl, rfl, by simp⟩

/-- What `get_char` does: at end of file it returns -1 and sets the
indicator, otherwise it takes one byte and, when that is the closing brace of
an open block, closes the block and appends `lbuf`. -/
theorem get_char_cases (st : Parser) (r : Option Nat × Parser)
    (h : get_char st = Except.ok r) :
    (r = (none, { st with eof := true }) ∧ (st.eof = true ∨ st.input = [])) ∨
    (∃ c rest, st.eof = false ∧ st.input = c :: rest ∧ c ≠ CHAR_CURLY_BRACE_END ∧
        r = (some c, { st with input := rest })) ∨
    (∃ rest l hp, st.eof = false ∧ st.input = CHAR_CURLY_BRACE_END :: rest ∧
        st.inblock = true ∧ st.lbuf = some l ∧ TAILQ_INSERT_TAIL st.heap l = Except.ok hp ∧
        r = (some CHAR_CURLY_BRACE_END, { st with input := rest, inblock := false, heap := hp })) := by
  unfold get_char at h
  rcases getc_spec st with ⟨c, rest, he, hi, hg⟩ | ⟨hor, hg⟩
  · rw [hg] at h
    simp only at h
    by_cases hc : c = CHAR_CURLY_BRACE_END
    · subst hc
      right; right
      cases hb : st.inblock with
      | false => simp [hb] at h
      | true =>
        simp only [hb, ne_eq, not_true_eq_false, and_false, if_false, if_true] at h
        cases hl : st.lbuf with
        | none => simp [hl] at h
        | some l =>
          simp only [hl] at h
          cases hins : TAILQ_INSERT_TAIL st.heap l with
          | error a => simp [hins] at h
          | ok hp =>
            simp only [hins, Except.ok.injEq] at h
            exact ⟨rest, l, hp, he, hi, rfl, rfl, hins, h.symm⟩
    · right; left
      simp only [hc, false_and, if_false, Except.ok.injEq] at h
      exact ⟨c, rest, he, hi, hc, h.symm⟩
  · rw [hg] at h
    simp only [Except.ok.injEq] at h
    left
    exact ⟨h.symm, hor⟩

theorem get_char_adv (st : Parser) (c : Option Nat) (st1 : Parser)
    (h : get_char st = Except.ok (c, st1)) :
    Adv st st1 ∧ (c = none → st1.eof = true) ∧
      (c ≠ none → st1.input.length < st.input.length) := by
  rcases get_char_cases st _ h with ⟨hr, _⟩ | ⟨c1, rest, _, hi, _, hr⟩ |
    ⟨rest, l, hp, _, hi, _, _, _, hr⟩
  · cases hr
    exact ⟨⟨le_refl _, fun _ => rfl⟩, fun _ => rfl, fun hc => absurd rfl hc⟩
  · cases hr
    exact ⟨⟨by simp [hi], fun he => he⟩, fun hc => (by cases hc), fun _ => (by simp [hi])⟩
  · cases hr
    exact ⟨⟨by simp [hi], fun he => he⟩, fun hc => (by cases hc), fun _ => (by simp [hi])⟩

theorem seek_char_loop_adv (chr : Nat) :
    ∀ (fuel : Nat) (st st' : Parser), seek_char_loop chr fuel st = Except.ok st' → Adv st st' := by
  intro fuel
  induction fuel with
  | zero => intro st st' h; simp [seek_char_loop] at h
  | succ n ih =>
    intro st st' h
    unfold seek_char_loop at h
    cases hg : get_char st with
    | error a => simp [hg] at h
    | ok r =>
      obtain ⟨c, st1⟩ := r
      have hadv := (get_char_adv st c st1 hg).1
      cases c with
      | none => simp [hg] at h
      | some c =>
        simp only [hg] at h
        split at h
        · cases h; exact hadv
        · split at h
          · cases h
          · exact adv_trans _ _ _ hadv (ih _ _ h)

theorem read_string_to_semicolon_loop_adv :
    ∀ (fuel : Nat) (st st' : Parser),
      read_string_to_semicolon_loop fuel st = Except.ok st' → Adv st st' := by
  intro fuel
  induction fuel with
  | zero => intro st st' h; simp [read_string_to_semicolon_loop] at h
  | succ n ih =>
    intro st st' h
    unfold read_string_to_semicolon_loop at h
    cases hg : get_char st with
    | error a => simp [hg] at h
    | ok r =>
      obtain ⟨c, st1⟩ := r
      have hadv := (get_char_adv st c st1 hg).1
      cases c with
      | none => simp [hg] at h
      | some c =>
        simp only [hg] at h
        split at h
        · cases h
        · split at h
          · cases h; exact hadv
          · split at h
            · cases h
            · exact adv_trans _ _ _ hadv (adv_trans _ _ _ (adv_of_eq st1 { st1 with buffer := st1.buffer ++ [c] } rfl rfl) (ih _ _ h))

theorem parse_address_loop_adv :
    ∀ (fuel : Nat) (st st' : Parser), parse_address_loop fuel st = Except.ok st' → Adv st st' := by
  intro fuel
  induction fuel with
  | zero => intro st st' h; simp [parse_address_loop] at h
  | succ n ih =>
    intro st st' h
    unfold parse_address_loop at h
    cases hg : get_char st with
    | error a => simp [hg] at h
    | ok r =>
      obtain ⟨c, st1⟩ := r
      have hadv := (get_char_adv st c st1 hg).1
      cases c with
      | none => simp [hg] at h
      | some c =>
        simp only [hg] at h
        split at h
        · cases h
        · split at h
          · cases h; exact hadv
          · split at h
            · split at h
              · cases h
              · exact adv_trans _ _ _ hadv (adv_trans _ _ _ (adv_of_eq st1 { st1 with buffer := st1.buffer ++ [c] } rfl rfl) (ih _ _ h))
            · exact adv_trans _ _ _ hadv (ih _ _ h)

theorem parse_client_hostname_loop_adv :
    ∀ (fuel : Nat) (st st' : Parser),
      parse_client_hostname_loop fuel st = Except.ok st' → Adv st st' := by
  intro fuel
  induction fuel with
  | zero => intro st st' h; simp [parse_client_hostname_loop] at h
  | succ n ih =>
    intro st st' h
    unfold parse_client_hostname_loop at h
    cases hg : get_char st with
    | error a => simp [hg] at h
    | ok r =>
      obtain ⟨c, st1⟩ := r
      have hadv := (get_char_adv st c st1 hg).1
      cases c with
      | none => simp [hg] at h
      | some c =>
        simp only [hg] at h
        split at h
        · cases h
        · split at h
          · exact adv_trans _ _ _ hadv (ih _ _ h)
          · split at h
            · cases h; exact hadv
            · split at h
              · split at h
                · cases h
                · exact adv_trans _ _ _ hadv (adv_trans _ _ _ (adv_of_eq st1 { st1 with buffer := st1.buffer ++ [c] } rfl rfl) (ih _ _ h))
              · exact adv_trans _ _ _ hadv (ih _ _ h)

theorem get_char_vars (st : Parser) (c : Option Nat) (st1 : Parser)
    (h : get_char st = Except.ok (c, st1)) :
    st1.hastoken = st.hastoken ∧ st1.count = st.count ∧ st1.lbuf = st.lbuf ∧
      st1.token = st.token ∧ st1.buffer = st.buffer := by
  rcases get_char_cases st _ h with ⟨hr, _⟩ | ⟨c1, rest, _, _, _, hr⟩ |
    ⟨rest, l, hp, _, _, _, _, _, hr⟩ <;>
  · cases hr
    exact ⟨rfl, rfl, rfl, rfl, rfl⟩

theorem skip_comment_loop_adv :
    ∀ (fuel : Nat) (st st' : Parser), skip_comment_loop fuel st = Except.ok st' →
      Adv st st' ∧ st'.hastoken = st.hastoken ∧ st'.count = st.count ∧ st'.lbuf = st.lbuf ∧
        st'.token = st.token := by
  intro fuel
  induction fuel with
  | zero => intro st st' h; simp [skip_comment_loop] at h
  | succ n ih =>
    intro st st' h
    unfold skip_comment_loop at h
    cases hg : get_char st with
    | error a => simp [hg] at h
    | ok r =>
      obtain ⟨c, st1⟩ := r
      have hadv := (get_char_adv st c st1 hg).1
      obtain ⟨v1, v2, v3, v4, _⟩ := get_char_vars st c st1 hg
      cases c with
      | none => simp [hg] at h
      | some c =>
        simp only [hg] at h
        split at h
        · cases h; exact ⟨hadv, v1, v2, v3, v4⟩
        · obtain ⟨h1, w1, w2, w3, w4⟩ := ih _ _ h
          exact ⟨adv_trans _ _ _ hadv h1, w1.trans v1, w2.trans v2, w3.trans v3, w4.trans v4⟩

theorem get_token_loop_adv :
    ∀ (fuel : Nat) (st : Parser) (b : Bool) (st' : Parser),
      get_token_loop fuel st = Except.ok (b, st') →
      Adv st st' ∧ (st'.eof = false → st'.input.length < st.input.length) ∧
        st'.hastoken = st.hastoken ∧ st'.count = st.count ∧ st'.lbuf = st.lbuf ∧
        st'.token = st.token := by
  intro fuel
  induction fuel with
  | zero => intro st b st' h; simp [get_token_loop] at h
  | succ n ih =>
    intro st b st' h
    unfold get_token_loop at h
    cases hg : get_char st with
    | error a => simp [hg] at h
    | ok r =>
      obtain ⟨c, st1⟩ := r
      obtain ⟨hadv, hnone, hsome⟩ := get_char_adv st c st1 hg
      have hsame : st1.hastoken = st.hastoken ∧ st1.count = st.count ∧ st1.lbuf = st.lbuf ∧
          st1.token = st.token := by
        obtain ⟨v1, v2, v3, v4, _⟩ := get_char_vars st c st1 hg
        exact ⟨v1, v2, v3, v4⟩
      cases c with
      | none =>
        simp only [hg, Except.ok.injEq, Prod.mk.injEq] at h
        obtain ⟨_, rfl⟩ := h
        refine ⟨hadv, fun he => ?_, hsame⟩
        rw [hnone rfl] at he
        cases he
      | some c =>
        have hlt := hsome (by simp)
        simp only [hg] at h
        split at h
        · simp only [Except.ok.injEq, Prod.mk.injEq] at h
          obtain ⟨_, rfl⟩ := h
          exact ⟨hadv, fun _ => hlt, hsame⟩
        · split at h
          · cases h
          · split at h
            · cases hs : skip_comment_loop n { st1 with buffer := st1.buffer ++ [c] } with
              | error a => simp [hs] at h
              | ok st3 =>
                simp only [hs] at h
                obtain ⟨h3, u1, u2, u3, u4⟩ := skip_comment_loop_adv n _ _ hs
                obtain ⟨h4, _, h51, h52, h53, h54⟩ := ih _ _ _ h
                obtain ⟨h61, h62, h63, h64⟩ := hsame
                have h7 : Adv st1 st' :=
                  adv_trans _ _ _ (adv_of_eq st1 { st1 with buffer := st1.buffer ++ [c] } rfl rfl) (adv_trans _ _ _ h3 h4)
                exact ⟨adv_trans _ _ _ hadv h7, fun _ => lt_of_le_of_lt h7.1 hlt,
                  (h51.trans u1).trans h61, (h52.trans u2).trans h62, (h53.trans u3).trans h63,
                  (h54.trans u4).trans h64⟩
            · obtain ⟨h4, _, h5⟩ := ih _ _ _ h
              refine ⟨adv_trans _ _ _ hadv (adv_trans _ _ _ (adv_of_eq st1 { st1 with buffer := st1.buffer ++ [c] } rfl rfl) h4),
                fun _ => lt_of_le_of_lt h4.1 hlt, ?_⟩
              obtain ⟨h51, h52, h53, h54⟩ := h5
              obtain ⟨h61, h62, h63, h64⟩ := hsame
              exact ⟨h51.trans h61, h52.trans h62, h53.trans h63, h54.trans h64⟩

/-- What `get_token` returns: 0 with `hastoken` clear, or the value of a
keyword that `lookup` finds for the buffer, with `hastoken` set and `count`
one higher. -/
theorem get_token_cases (st : Parser) (tok : Nat) (st' : Parser)
    (h : get_token st = Except.ok (tok, st')) :
    Adv st st' ∧ (st'.eof = false → st'.input.length < st.input.length) ∧
      st'.token = st.token ∧
      ((tok = 0 ∧ st'.hastoken = false ∧ st'.count = st.count ∧ st'.lbuf = st.lbuf) ∨
       (tok ≠ 0 ∧ tok = lookup st'.buffer ∧ st'.hastoken = true ∧ st'.count = st.count + 1)) := by
  unfold get_token at h
  cases hl : get_token_loop (st.input.length + 1) { st with buffer := [], hastoken := false } with
  | error a => simp [hl] at h
  | ok r =>
    obtain ⟨b, st1⟩ := r
    obtain ⟨hadv, hlt, h1, h2, h3, h4⟩ := get_token_loop_adv _ _ _ _ hl
    have hadv1 : Adv st st1 := adv_trans _ _ _
      (adv_of_eq st { st with buffer := [], hastoken := false } rfl rfl) hadv
    cases b with
    | false =>
      simp only [hl, Except.ok.injEq, Prod.mk.injEq] at h
      obtain ⟨rfl, rfl⟩ := h
      exact ⟨hadv1, hlt, h4, Or.inl ⟨rfl, h1, h2, h3⟩⟩
    | true =>
      simp only [hl] at h
      split at h
      · rename_i hk
        simp only [Except.ok.injEq, Prod.mk.injEq] at h
        obtain ⟨rfl, rfl⟩ := h
        exact ⟨hadv1, hlt, h4, Or.inl ⟨rfl, h1, h2, h3⟩⟩
      · rename_i hk
        have hk0 : lookup st1.buffer ≠ 0 := by
          unfold TOK_INVALID_TOKEN at hk
          omega
        simp only [Except.ok.injEq, Prod.mk.injEq] at h
        obtain ⟨rfl, rfl⟩ := h
        split
        · exact ⟨hadv1, hlt, h4, Or.inr ⟨hk0, rfl, rfl, by simp [h2]⟩⟩
        · exact ⟨hadv1, hlt, h4, Or.inr ⟨hk0, rfl, rfl, by simp [h2]⟩⟩

theorem set_lbuf_adv (st st' : Parser) (f : Lease → Lease)
    (h : set_lbuf st f = Except.ok st') : Adv st st' := by
  unfold set_lbuf at h
  split at h
  · cases h
  · split at h
    · cases h
    · cases h
      exact adv_of_eq _ _ rfl rfl

theorem peek_char_adv (st : Parser) (c : Option Nat) (st' : Parser)
    (h : peek_char st = Except.ok (c, st')) : Adv st st' := by
  unfold peek_char at h
  rcases getc_spec st with ⟨c1, rest, _, hi, hg⟩ | ⟨_, hg⟩
  · rw [hg] at h
    simp only [Except.ok.injEq, Prod.mk.injEq] at h
    obtain ⟨_, rfl⟩ := h
    exact adv_of_eq _ _ hi.symm rfl
  · rw [hg] at h
    simp only [Except.ok.injEq, Prod.mk.injEq] at h
    obtain ⟨_, rfl⟩ := h
    exact ⟨le_refl _, fun _ => rfl⟩

theorem lease_switch_adv (env : Env) (st st' : Parser)
    (h : lease_switch env st = Except.ok st') : Adv st st' := by
  unfold lease_switch at h
  split at h
  · split at h
    · cases h
    · cases h1 : parse_ip_address { st with inblock := true } with
      | error a => simp [h1] at h
      | ok st1 =>
        simp only [h1] at h
        by_cases hfull : buffer_full st1
        · simp [hfull] at h
        rw [if_neg hfull] at h
        cases h2 : seek_char CHAR_CURLY_BRACE_START st1 with
        | error a => simp [h2] at h
        | ok st2 =>
          simp only [h2] at h
          have a1 := parse_address_loop_adv _ _ _ h1
          have a2 := seek_char_loop_adv _ _ _ _ h2
          have a3 := set_lbuf_adv _ _ _ h
          exact adv_trans _ _ _ (adv_of_eq st { st with inblock := true } rfl rfl)
            (adv_trans _ _ _ (adv_trans _ _ _ (adv_of_eq _ _ rfl rfl) a1) (adv_trans _ _ _ a2 a3))
  · split at h
    · cases hc : check_block_scope st with
      | error a => simp [hc] at h
      | ok u =>
        simp only [hc] at h
        cases h1 : read_string_to_semicolon st with
        | error a => simp [h1] at h
        | ok st1 =>
          simp only [h1] at h
          by_cases hfull : buffer_full st1
          · simp [hfull] at h
          rw [if_neg hfull] at h
          cases h2 : parse_date_string env st1 with
          | error a => simp [h2] at h
          | ok t =>
            simp only [h2] at h
            have a1 := read_string_to_semicolon_loop_adv _ _ _ h1
            have a3 := set_lbuf_adv _ _ _ h
            exact adv_trans _ _ _ (adv_trans _ _ _
              (adv_of_eq st { st with buffer := [] } rfl rfl) a1) a3
    · split at h
      · cases hc : check_block_scope st with
        | error a => simp [hc] at h
        | ok u =>
          simp only [hc] at h
          cases h1 : read_string_to_semicolon st with
          | error a => simp [h1] at h
          | ok st1 =>
            simp only [h1] at h
            by_cases hfull : buffer_full st1
            · simp [hfull] at h
            rw [if_neg hfull] at h
            cases h2 : parse_date_string env st1 with
            | error a => simp [h2] at h
            | ok t =>
              simp only [h2] at h
              have a1 := read_string_to_semicolon_loop_adv _ _ _ h1
              have a3 := set_lbuf_adv _ _ _ h
              exact adv_trans _ _ _ (adv_trans _ _ _
                (adv_of_eq st { st with buffer := [] } rfl rfl) a1) a3
      · split at h
        · cases hc : check_block_scope st with
          | error a => simp [hc] at h
          | ok u =>
            simp only [hc] at h
            cases h1 : get_token st with
            | error a => simp [h1] at h
            | ok r =>
              obtain ⟨tmp, st1⟩ := r
              simp only [h1] at h
              have a1 := (get_token_cases _ _ _ h1).1
              split at h
              · cases h; exact a1
              · cases h2 : parse_ethernet_address st1 with
                | error a => simp [h2] at h
                | ok st2 =>
                  simp only [h2] at h
                  by_cases hfull : buffer_full st2
                  · simp [hfull] at h
                  rw [if_neg hfull] at h
                  have a2 := parse_address_loop_adv _ _ _ h2
                  have a3 := set_lbuf_adv _ _ _ h
                  exact adv_trans _ _ _ a1 (adv_trans _ _ _ (adv_trans _ _ _
                    (adv_of_eq st1 { st1 with buffer := [] } rfl rfl) a2) a3)
        · split at h
          · cases hc : check_block_scope st with
            | error a => simp [hc] at h
            | ok u =>
              simp only [hc] at h
              cases h1 : parse_client_hostname st with
              | error a => simp [h1] at h
              | ok st1 =>
                simp only [h1] at h
                by_cases hfull : buffer_full st1
                · simp [hfull] at h
                rw [if_neg hfull] at h
                have a1 := parse_client_hostname_loop_adv _ _ _ h1
                have a3 := set_lbuf_adv _ _ _ h
                exact adv_trans _ _ _ (adv_trans _ _ _
                  (adv_of_eq st { st with buffer := [] } rfl rfl) a1) a3
          · split at h
            · cases h1 : peek_char st with
              | error a => simp [h1] at h
              | ok r =>
                obtain ⟨c, st1⟩ := r
                simp only [h1] at h
                exact adv_trans _ _ _ (peek_char_adv _ _ _ h1) (set_lbuf_adv _ _ _ h)
            · cases h
              exact adv_refl _

/-- An iteration of the loop that returns has read at least one byte or has
met the end of the file. -/
theorem lease_step_adv (env : Env) (st st' : Parser) (h : lease_step env st = Except.ok st') :
    Adv st st' ∧ (st'.eof = false → st'.input.length < st.input.length) := by
  unfold lease_step at h
  cases hg : get_token st with
  | error a => simp [hg] at h
  | ok r =>
    obtain ⟨tok, st0⟩ := r
    obtain ⟨a0, hlt, _⟩ := get_token_cases _ _ _ hg
    simp only [hg] at h
    have hkey : ∀ st2 : Parser, Adv { st0 with token := tok } st2 →
        Adv st st2 ∧ (st2.eof = false → st2.input.length < st.input.length) := by
      intro st2 a2
      have a3 : Adv st0 st2 := adv_trans _ _ _ (adv_of_eq st0 { st0 with token := tok } rfl rfl) a2
      refine ⟨adv_trans _ _ _ a0 a3, fun he => ?_⟩
      have he0 : st0.eof = false := by
        cases h0 : st0.eof with
        | false => rfl
        | true => rw [a3.2 h0] at he; cases he
      exact lt_of_le_of_lt a3.1 (hlt he0)
    split at h
    · cases h
      exact hkey _ (adv_refl _)
    · split at h
      · cases h
      · split at h
        · cases h
        · exact hkey _ (lease_switch_adv _ _ _ h)

/-! ## The loop -/

theorem lease_loop_mono (env : Env) :
    ∀ (fuel : Nat) (st : Parser), lease_loop env fuel st ≠ Except.error Abort.outOfFuel →
      lease_loop env (fuel + 1) st = lease_loop env fuel st := by
  intro fuel
  induction fuel with
  | zero => intro st h; exact absurd rfl h
  | succ n ih =>
    intro st h
    rw [lease_loop] at h
    conv_lhs => rw [lease_loop]
    conv_rhs => rw [lease_loop]
    cases hs : lease_step env st with
    | error a => rfl
    | ok st1 =>
      simp only [hs] at h ⊢
      split
      · rfl
      · rename_i he
        simp only [he] at h
        exact ih st1 h

theorem lease_loop_mono_le (env : Env) (fuel fuel' : Nat) (st : Parser)
    (h : lease_loop env fuel st ≠ Except.error Abort.outOfFuel) (hle : fuel ≤ fuel') :
    lease_loop env fuel' st = lease_loop env fuel st := by
  induction hle with
  | refl => rfl
  | step _ ih =>
    rw [lease_loop_mono env _ st (by rw [ih]; exact h), ih]

theorem lease_loop_next (env : Env) (n : Nat) (st st1 : Parser)
    (hs : lease_step env st = Except.ok st1) (he : st1.eof = false) :
    lease_loop env (n + 1) st = lease_loop env n st1 := by
  rw [lease_loop]
  simp only [hs, he, Bool.false_eq_true, if_false]

/-- A state reached after some iterations: the loop from the start does what
the loop from that state does, with the fuel the iterations have used. -/
theorem reach_loop (env : Env) (s0 st : Parser) (hr : Reach env s0 st) :
    ∃ k, k + st.input.length ≤ s0.input.length ∧
      ∀ n, lease_loop env (n + k) s0 = lease_loop env n st := by
  induction hr with
  | start => exact ⟨0, by simp, fun n => rfl⟩
  | next st st1 _ hs he ih =>
    obtain ⟨k, hk, hloop⟩ := ih
    have hlt := (lease_step_adv env st st1 hs).2 he
    refine ⟨k + 1, by omega, fun n => ?_⟩
    rw [← Nat.add_assoc, Nat.add_right_comm, hloop (n + 1), lease_loop_next env n st st1 hs he]

theorem parse_of_reach_error (env : Env) (input : List Nat) (st : Parser) (a : Abort)
    (hr : Reach env (parser_init input) st) (hs : lease_step env st = Except.error a) :
    parse_leases env input = Except.error a := by
  obtain ⟨k, hk, hloop⟩ := reach_loop env _ st hr
  have hk1 : k ≤ input.length := by
    have : (parser_init input).input.length = input.length := rfl
    omega
  unfold parse_leases
  have : input.length + 1 = (input.length - k) + 1 + k := by omega
  rw [this, hloop, lease_loop]
  simp only [hs]

theorem parse_of_reach_ok (env : Env) (input : List Nat) (st st1 : Parser)
    (hr : Reach env (parser_init input) st) (hs : lease_step env st = Except.ok st1)
    (he : st1.eof = true) :
    parse_leases env input = Except.ok st1 := by
  obtain ⟨k, hk, hloop⟩ := reach_loop env _ st hr
  have hk1 : k ≤ input.length := by
    have : (parser_init input).input.length = input.length := rfl
    omega
  unfold parse_leases
  have : input.length + 1 = (input.length - k) + 1 + k := by omega
  rw [this, hloop, lease_loop]
  simp only [hs, he, if_true]

theorem reach_trans (env : Env) (s0 s1 s2 : Parser) (h1 : Reach env s0 s1)
    (h2 : Reach env s1 s2) : Reach env s0 s2 := by
  induction h2 with
  | start => exact h1
  | next st st1 _ hs he ih => exact Reach.next st st1 ih hs he

theorem reach_one (env : Env) (st st1 : Parser) (hs : lease_step env st = Except.ok st1)
    (he : st1.eof = false) : Reach env st st1 :=
  Reach.next st st1 Reach.start hs he

/-! ## Keyword lookup -/

theorem bsearch_loop_sound (key : List Nat) :
    ∀ (fuel : Nat) (base : List (List Nat × Nat)) (lim : Nat) (p : List Nat × Nat),
      bsearch_loop key fuel base lim = some p → p ∈ base ∧ keyword_cmp key p = 0 := by
  intro fuel
  induction fuel with
  | zero => intro base lim p h; simp [bsearch_loop] at h
  | succ n ih =>
    intro base lim p h
    unfold bsearch_loop at h
    split at h
    · cases h
    · cases hq : base[lim / 2]? with
      | none => simp [hq] at h
      | some q =>
        simp only [hq] at h
        split at h
        · rename_i hc
          cases h
          exact ⟨List.getElem?_mem hq, hc⟩
        · split at h
          · obtain ⟨h1, h2⟩ := ih _ _ _ h
            exact ⟨List.mem_of_mem_drop h1, h2⟩
          · exact ih _ _ _ h

/-- A value other than `TOK_INVALID_TOKEN` is the value of a keyword that
equals the word, ignoring case. -/
theorem lookup_sound (w : List Nat) (h : lookup w ≠ TOK_INVALID_TOKEN) :
    ∃ k ∈ keywords, strcasecmp w k.1 = 0 ∧ lookup w = k.2 := by
  unfold lookup at h ⊢
  cases hb : bsearch w keywords with
  | none => simp [hb] at h
  | some p =>
    obtain ⟨h1, h2⟩ := bsearch_loop_sound w _ _ _ _ hb
    exact ⟨p, h1, h2, rfl⟩

/-- A word that equals no keyword, ignoring case, is not a token. -/
theorem lookup_invalid (w : List Nat) (h : ∀ k ∈ keywords, strcasecmp w k.1 ≠ 0) :
    lookup w = TOK_INVALID_TOKEN := by
  by_contra hc
  obtain ⟨k, hk, h0, _⟩ := lookup_sound w hc
  exact h k hk h0

theorem has_lease_expired_iff (tnow t : Int) : has_lease_expired tnow t = 1 ↔ t < tnow := by
  unfold has_lease_expired difftime
  constructor
  · intro h
    by_contra hc
    have : ¬ (t - tnow < 0) := by omega
    simp [this] at h
  · intro h
    have : t - tnow < 0 := by omega
    simp [this]

theorem has_lease_expired_ne (tnow t : Int) : has_lease_expired tnow t ≠ 0 ↔ t < tnow := by
  unfold has_lease_expired difftime
  constructor
  · intro h
    by_contra hc
    have : ¬ (t - tnow < 0) := by omega
    simp [this] at h
  · intro h
    have : t - tnow < 0 := by omega
    simp [this]

/-- The value of `display` after the assignments for a record: 1 when the
last active filter accepts the record, 0 when it rejects it, and the value
from before when no filter is active. -/
theorem output_display_eq (o : Opts) (tnow : Int) (r : Lease) (d : Int) :
    output_display o tnow r d =
      if o.mflag = true ∨ o.cflag = true ∨ o.iflag = true ∨ o.aflag = true ∨ o.xflag = true then
        (if last_filter o tnow r = true then 1 else 0)
      else d := by
  unfold output_display last_filter
  simp only [has_lease_expired_ne]
  rcases lt_or_le r.end_ tnow with he | he
  · have he1 : ¬ tnow ≤ r.end_ := not_le.2 he
    cases o.xflag <;> cases o.aflag <;> cases o.iflag <;> cases o.cflag <;> cases o.mflag <;>
      simp [he, he1]
  · have he1 : ¬ r.end_ < tnow := not_lt.2 he
    cases o.xflag <;> cases o.aflag <;> cases o.iflag <;> cases o.cflag <;> cases o.mflag <;>
      simp [he, he1]

theorem last_filter_none (o : Opts) (tnow : Int) (r : Lease)
    (h : ¬ (o.mflag = true ∨ o.cflag = true ∨ o.iflag = true ∨ o.aflag = true ∨ o.xflag = true)) :
    last_filter o tnow r = true := by
  unfold last_filter
  simp only [not_or, Bool.not_eq_true] at h
  obtain ⟨h1, h2, h3, h4, h5⟩ := h
  simp [h1, h2, h3, h4, h5]

/-- The loop of `output_leases` from a point of a well-formed queue on: the
rows are those of the records the last active filter accepts, whatever
`display` was left at by the record before. -/
theorem output_leases_loop_spec (o : Opts) (tnow : Int) (h : Heap) (T : List Nat) :
    ∀ (fuel : Nat) (r : Slot) (p : Option Nat) (display : Int),
      Seg h r p T h.tqh_last none → T.length ≤ fuel →
      (display = 1 ∨ (o.mflag = true ∨ o.cflag = true ∨ o.iflag = true ∨ o.aflag = true ∨
        o.xflag = true)) →
      output_leases_loop fuel o tnow h p display =
        Except.ok ((T.map h.lease).filter (last_filter o tnow)) := by
  induction T with
  | nil =>
    rintro fuel r p display ⟨_, hp⟩ _ _
    subst hp
    cases fuel <;> rfl
  | cons k T ih =>
    rintro fuel r p display ⟨hp, e, he, _, hs⟩ hfuel hd
    subst hp
    cases fuel with
    | zero => simp at hfuel
    | succ n =>
      have hn : T.length ≤ n := by simpa using hfuel
      have hlk : h.lease k = e.toLease := lease_of_load h k e he
      have hd1 : output_display o tnow e.toLease display = 1 ∨
          (o.mflag = true ∨ o.cflag = true ∨ o.iflag = true ∨ o.aflag = true ∨
            o.xflag = true) := by
        by_cases hf : o.mflag = true ∨ o.cflag = true ∨ o.iflag = true ∨ o.aflag = true ∨
            o.xflag = true
        · exact Or.inr hf
        · left
          rw [output_display_eq, if_neg hf]
          rcases hd with hd | hd
          · exact hd
          · exact absurd hd hf
      have hshow : (output_display o tnow e.toLease display = 1) ↔
          last_filter o tnow e.toLease = true := by
        rw [output_display_eq]
        by_cases hf : o.mflag = true ∨ o.cflag = true ∨ o.iflag = true ∨ o.aflag = true ∨
            o.xflag = true
        · rw [if_pos hf]
          cases last_filter o tnow e.toLease <;> simp
        · rw [if_neg hf, last_filter_none o tnow _ hf]
          rcases hd with hd | hd
          · simp [hd]
          · exact absurd hd hf
      simp only [output_leases_loop, he, ih n _ _ _ hs hn hd1, List.map_cons, hlk,
        List.filter_cons]
      by_cases hl : last_filter o tnow e.toLease = true
      · simp only [hshow.2 hl, hl, if_true]
      · have : ¬ output_display o tnow e.toLease display = 1 := fun hc => hl (hshow.1 hc)
        simp only [this, hl, if_false]
        rfl

theorem output_leases_linked (o : Opts) (tnow : Int) (h : Heap) (S : List Nat)
    (hl : Linked h S) :
    output_leases o tnow h = Except.ok ((S.map h.lease).filter (last_filter o tnow)) := by
  unfold output_leases
  have hfirst : h.tqh_first = S.head? := seg_head h S _ _ _ hl.1
  cases S with
  | nil =>
    have : TAILQ_EMPTY h = true := by
      unfold TAILQ_EMPTY
      rw [hfirst]
      rfl
    simp [this]
  | cons c T =>
    have : TAILQ_EMPTY h = false := by
      unfold TAILQ_EMPTY
      rw [hfirst]
      rfl
    simp only [this, Bool.false_eq_true, if_false]
    exact output_leases_loop_spec o tnow h (c :: T) _ _ _ 1 hl.1
      (Nat.le_succ_of_le (linked_length_le h _ hl)) (Or.inl rfl)

/-! ## Reading bytes and words -/

theorem get_char_plain (st : Parser) (c : Nat) (rest : List Nat) (he : st.eof = false)
    (hi : st.input = c :: rest) (hc : c ≠ CHAR_CURLY_BRACE_END) :
    get_char st = Except.ok (some c, { st with input := rest }) := by
  unfold get_char getc
  simp [he, hi, hc]

theorem get_char_close (st : Parser) (rest : List Nat) (l : Nat) (hp : Heap)
    (he : st.eof = false) (hi : st.input = CHAR_CURLY_BRACE_END :: rest)
    (hb : st.inblock = true) (hl : st.lbuf = some l)
    (hins : TAILQ_INSERT_TAIL st.heap l = Except.ok hp) :
    get_char st = Except.ok (some CHAR_CURLY_BRACE_END,
      { st with input := rest, inblock := false, heap := hp }) := by
  unfold get_char getc
  simp [he, hi, hb, hl, hins]

theorem get_char_eof (st : Parser) (hi : st.input = []) :
    get_char st = Except.ok (none, { st with eof := true }) := by
  unfold get_char getc
  cases he : st.eof with
  | true =>
    simp only [if_true]
    cases st
    simp only at he
    subst he
    rfl
  | false => simp [hi]

/-- The scanning loop of `get_token` on a word followed by a delimiter: the
word goes to the buffer and the delimiter is consumed. -/
theorem get_token_loop_word (w : List Nat) (d : Nat) (rest : List Nat)
    (hd : isspace d = true ∨ d = CHAR_SEMICOLON) :
    ∀ (fuel : Nat) (st : Parser), st.eof = false → st.input = w ++ d :: rest →
      (∀ c ∈ w, isspace c = false ∧ c ≠ CHAR_SEMICOLON ∧ c ≠ 35 ∧ c ≠ CHAR_CURLY_BRACE_END) →
      w.length < fuel → st.buffer.length + w.length ≤ BUFFER_SIZE →
      get_token_loop fuel st =
        Except.ok (true, { st with input := rest, buffer := st.buffer ++ w }) := by
  induction w with
  | nil =>
    intro fuel st he hi _ hfuel _
    cases fuel with
    | zero => simp at hfuel
    | succ n =>
      have hd1 : d ≠ CHAR_CURLY_BRACE_END := by
        rcases hd with hd | hd
        · intro hc; subst hc; simp [isspace, CHAR_CURLY_BRACE_END] at hd
        · subst hd; simp [CHAR_SEMICOLON, CHAR_CURLY_BRACE_END]
      have hdel : d = 9 ∨ d = 10 ∨ d = CHAR_SEMICOLON ∨ isspace d = true := by
        rcases hd with hd | hd
        · exact Or.inr (Or.inr (Or.inr hd))
        · exact Or.inr (Or.inr (Or.inl hd))
      simp only [get_token_loop, get_char_plain st d rest he hi hd1, hdel, if_true,
        List.append_nil]
  | cons c w ih =>
    intro fuel st he hi hw hfuel hb
    cases fuel with
    | zero => simp at hfuel
    | succ n =>
      obtain ⟨h1, h2, h3, h4⟩ := hw c (List.mem_cons_self _ _)
      have hdel : ¬ (c = 9 ∨ c = 10 ∨ c = CHAR_SEMICOLON ∨ isspace c = true) := by
        rintro (hc | hc | hc | hc)
        · subst hc; simp [isspace] at h1
        · subst hc; simp [isspace] at h1
        · exact h2 hc
        · rw [h1] at hc; cases hc
      have hn : w.length < n := by simpa using hfuel
      have hroom : ¬ BUFFER_SIZE ≤ st.buffer.length := by
        simp only [List.length_cons] at hb
        omega
      simp only [get_token_loop, get_char_plain st c (w ++ d :: rest) he hi h4, hdel, if_false, h3,
        hroom]
      rw [ih n { st with input := w ++ d :: rest, buffer := st.buffer ++ [c] } he rfl
        (fun x hx => hw x (List.mem_cons_of_mem _ hx)) hn
        (by simp only [List.length_append, List.length_cons, List.length_nil] at hb ⊢; omega)]
      simp

/-- The effect of `get_token` on a word that `lookup` does not find. -/
theorem get_token_unknown (st : Parser) (w : List Nat) (d : Nat) (rest : List Nat)
    (he : st.eof = false) (hi : st.input = w ++ d :: rest)
    (hw : ∀ c ∈ w, isspace c = false ∧ c ≠ CHAR_SEMICOLON ∧ c ≠ 35 ∧ c ≠ CHAR_CURLY_BRACE_END)
    (hd : isspace d = true ∨ d = CHAR_SEMICOLON) (hk : lookup w = TOK_INVALID_TOKEN)
    (hlen : w.length ≤ BUFFER_SIZE) :
    get_token st = Except.ok (TOK_INVALID_TOKEN,
      { st with input := rest, buffer := w, hastoken := false }) := by
  unfold get_token
  rw [get_token_loop_word w d rest hd _ { st with buffer := [], hastoken := false } he hi hw
    (by simp only [hi, List.length_append, List.length_cons]; omega)
    (by simpa using hlen)]
  simp [hk]

/-- The effect of `get_token` on a keyword other than `lease`. -/
theorem get_token_keyword (st : Parser) (w : List Nat) (d : Nat) (rest : List Nat)
    (he : st.eof = false) (hi : st.input = w ++ d :: rest)
    (hw : ∀ c ∈ w, isspace c = false ∧ c ≠ CHAR_SEMICOLON ∧ c ≠ 35 ∧ c ≠ CHAR_CURLY_BRACE_END)
    (hd : isspace d = true ∨ d = CHAR_SEMICOLON) (hk : lookup w ≠ TOK_INVALID_TOKEN)
    (hl : lookup w ≠ TOK_LEASE) (hlen : w.length ≤ BUFFER_SIZE) :
    get_token st = Except.ok (lookup w,
      { st with input := rest, buffer := w, hastoken := true, count := st.count + 1 }) := by
  unfold get_token
  rw [get_token_loop_word w d rest hd _ { st with buffer := [], hastoken := false } he hi hw
    (by simp only [hi, List.length_append, List.length_cons]; omega)
    (by simpa using hlen)]
  have hk1 : ¬ lookup w ≤ TOK_INVALID_TOKEN := by
    unfold TOK_INVALID_TOKEN at hk ⊢
    omega
  simp [hk1, hl]

/-- The effect of `get_token` on the keyword `lease`: a lease is allocated. -/
theorem get_token_lease (st : Parser) (w : List Nat) (d : Nat) (rest : List Nat)
    (he : st.eof = false) (hi : st.input = w ++ d :: rest)
    (hw : ∀ c ∈ w, isspace c = false ∧ c ≠ CHAR_SEMICOLON ∧ c ≠ 35 ∧ c ≠ CHAR_CURLY_BRACE_END)
    (hd : isspace d = true ∨ d = CHAR_SEMICOLON) (hl : lookup w = TOK_LEASE)
    (hlen : w.length ≤ BUFFER_SIZE) :
    get_token st = Except.ok (TOK_LEASE,
      { st with input := rest, buffer := w, hastoken := true, count := st.count + 1,
                heap := (st.heap.alloc lease_zero).1,
                lbuf := some (st.heap.alloc lease_zero).2 }) := by
  unfold get_token
  rw [get_token_loop_word w d rest hd _ { st with buffer := [], hastoken := false } he hi hw
    (by simp only [hi, List.length_append, List.length_cons]; omega)
    (by simpa using hlen)]
  simp [hl, TOK_LEASE, TOK_INVALID_TOKEN]

/-- An iteration whose token is `TOK_INVALID_TOKEN` does nothing after
`get_token`. -/
theorem lease_step_invalid (env : Env) (st st0 : Parser)
    (hg : get_token st = Except.ok (TOK_INVALID_TOKEN, st0)) :
    lease_step env st = Except.ok { st0 with token := TOK_INVALID_TOKEN } := by
  obtain ⟨_, _, _, hc⟩ := get_token_cases _ _ _ hg
  have hh : st0.hastoken = false := by
    rcases hc with ⟨_, h, _⟩ | ⟨h, _⟩
    · exact h
    · exact absurd rfl h
  unfold lease_step
  simp only [hg, hh]
  split
  · rfl
  · simp [lease_switch, TOK_INVALID_TOKEN, TOK_LEASE, TOK_STARTS, TOK_ENDS, TOK_HARDWARE,
      TOK_CLIENT_HOSTNAME, TOK_ABANDONED]

theorem parse_lease_file_error (env : Env) (o : Opts) (tnow : Int) (input : List Nat) (a : Abort)
    (h : parse_leases env input = Except.error a) :
    parse_lease_file env o tnow input = Except.error a := by
  unfold parse_lease_file
  rw [h]

/-- C6 (what the code does): for every lease list, all options and every value
of now, `output_leases` prints exactly the records that pass the filter which
is last among the active ones in the order `-m`, `-c`, `-i`, `-a`, `-x`, in
the order of the list; with no filter active it prints every record. -/
theorem output_leases_last_filter (ls : List Lease) (o : Opts) (tnow : Int) :
    ∃ h, queue_of ls TAILQ_INIT = Except.ok h ∧ lease_list h = Except.ok ls ∧
      output_leases o tnow h = Except.ok (ls.filter (last_filter o tnow)) := by
  obtain ⟨h, S, hq, hl, hmap, hlist⟩ := queue_of_init ls
  exact ⟨h, hq, hlist, by rw [output_leases_linked o tnow h S hl, hmap]⟩

/-- C6 (counterexample): with `-m zz -c host` the record of `host1`, whose MAC
address `aa:bb:cc:dd:ee:ff` does not contain `zz`, is printed, although it
does not pass all active filters. -/
theorem output_leases_not_conjunction :
    (match queue_of [lease_host1] TAILQ_INIT with
      | Except.ok h => output_leases opts_mc 0 h
      | Except.error a => Except.error a) = Except.ok [lease_host1] ∧
    match_partial_string lease_host1.macaddr opts_mc.mval = -1 ∧
    all_filters opts_mc 0 lease_host1 = false := by
  refine ⟨rfl, by decide, by decide⟩

/-- C7: for every lease list and every value of now, the rows printed with
only `-a` are the records whose end time is not before now, the rows printed
with only `-x` are the records whose end time is before now, each in the
order of the list, so that every record is printed by exactly one of the two;
and `has_lease_expired` returns 1 when the end time is before now and 0
otherwise. -/
theorem active_expired_partition (ls : List Lease) (tnow : Int) :
    ∃ h, queue_of ls TAILQ_INIT = Except.ok h ∧ lease_list h = Except.ok ls ∧
      output_leases opts_a tnow h = Except.ok (ls.filter (fun r => decide (¬ r.end_ < tnow))) ∧
      output_leases opts_x tnow h = Except.ok (ls.filter (fun r => decide (r.end_ < tnow))) ∧
      ∀ t : Int, (has_lease_expired tnow t = 1 ↔ t < tnow) ∧
        (has_lease_expired tnow t = 0 ↔ ¬ t < tnow) := by
  obtain ⟨h, S, hq, hl, hmap, hlist⟩ := queue_of_init ls
  refine ⟨h, hq, hlist, ?_, ?_, fun t => ⟨has_lease_expired_iff tnow t, ?_⟩⟩
  · rw [output_leases_linked opts_a tnow h S hl, hmap]
    rfl
  · rw [output_leases_linked opts_x tnow h S hl, hmap]
    rfl
  · have := has_lease_expired_ne tnow t
    constructor
    · intro h0 hlt
      exact (this.2 hlt) h0
    · intro hlt
      by_contra h0
      exact hlt (this.1 h0)

/-- C8 (what the code does): a word of fewer than 2048 bytes (what `buffer`
holds with a NUL) that is no keyword, read while no block is open, is
ignored: the iteration of the loop returns without error, and only the read
position, the token buffer, `token` and `hastoken` may differ afterwards. -/
theorem unknown_word_ignored (env : Env) (st : Parser) (w : List Nat) (d : Nat)
    (rest : List Nat) (he : st.eof = false) (hb : st.inblock = false)
    (hi : st.input = w ++ d :: rest)
    (hw : ∀ c ∈ w, isspace c = false ∧ c ≠ CHAR_SEMICOLON ∧ c ≠ 35 ∧ c ≠ CHAR_CURLY_BRACE_END)
    (hd : isspace d = true ∨ d = CHAR_SEMICOLON)
    (hk : ∀ k ∈ keywords, strcasecmp w k.1 ≠ 0) (hlen : w.length < BUFFER_SIZE) :
    lease_step env st = Except.ok
      { st with input := rest, buffer := w, hastoken := false, token := TOK_INVALID_TOKEN,
                inblock := false } := by
  rw [lease_step_invalid env st _
    (get_token_unknown st w d rest he hi hw hd (lookup_invalid w hk) (le_of_lt hlen))]
  cases st
  simp only at hb
  subst hb
  rfl

/-- C8 (counterexample): the file that holds the word `foo` and a newline is
parsed without error: `get_token` returns `TOK_INVALID_TOKEN` for `foo`, read
as the first word while no block is open, and the lease list is empty. -/
theorem unknown_first_word_completes :
    get_token (parser_init (bytes "foo\n")) = Except.ok (TOK_INVALID_TOKEN,
      { parser_init [] with buffer := bytes "foo" }) ∧
    parsed_list env_utc (bytes "foo\n") = Except.ok [] ∧
    parse_lease_file env_utc opts_none 0 (bytes "foo\n") = Except.ok [] := by
  refine ⟨rfl, rfl, rfl⟩

/-- C10: for every input, when `get_token`, called by the loop of
`parse_lease_file`, returns `lease` and `inblock` is 1, that iteration calls
`error()` ("lease section began inside existing lease section") and
`parse_lease_file` aborts; so in a run that completes a block is opened only
when none is open. -/
theorem nested_lease_aborts (env : Env) (o : Opts) (tnow : Int) (input : List Nat)
    (st st0 : Parser) (hr : Reach env (parser_init input) st)
    (hg : get_token st = Except.ok (TOK_LEASE, st0)) (hb : st0.inblock = true) :
    lease_step env st = Except.error Abort.nestedLease ∧
      parse_lease_file env o tnow input = Except.error Abort.nestedLease := by
  have hs : lease_step env st = Except.error Abort.nestedLease := by
    unfold lease_step
    simp only [hg, hb]
    simp [lease_switch, hb]
  exact ⟨hs, parse_lease_file_error env o tnow input _
    (parse_of_reach_error env input st _ hr hs)⟩

/-- C10 (witness): in the file `lease 1.2.3.4 {lease ` the second `lease` is
read while the block of the first is open. -/
theorem nested_lease_aborts_witness :
    Reach env_utc (parser_init (bytes "lease 1.2.3.4 \x7blease "))
      (after_steps env_utc 1 (parser_init (bytes "lease 1.2.3.4 \x7blease "))) ∧
    (after_steps env_utc 1 (parser_init (bytes "lease 1.2.3.4 \x7blease "))).inblock = true ∧
    lease_step env_utc (after_steps env_utc 1 (parser_init (bytes "lease 1.2.3.4 \x7blease "))) =
      Except.error Abort.nestedLease ∧
    parse_lease_file env_utc opts_none 0 (bytes "lease 1.2.3.4 \x7blease ") =
      Except.error Abort.nestedLease :=
  ⟨Reach.next _ _ Reach.start rfl rfl, rfl,
    nested_lease_aborts env_utc opts_none 0 (bytes "lease 1.2.3.4 \x7blease ") _ _
      (Reach.next _ _ Reach.start rfl rfl) rfl rfl⟩

/-- C8 (witness): the word `foo` at the start of a file. -/
theorem unknown_word_ignored_witness :
    lease_step env_utc (parser_init (bytes "foo\n")) = Except.ok
      { parser_init (bytes "foo\n") with
        input := [], buffer := bytes "foo", hastoken := false, token := TOK_INVALID_TOKEN,
        inblock := false } :=
  unknown_word_ignored env_utc (parser_init (bytes "foo\n")) (bytes "foo") 10 [] rfl rfl rfl
    (by decide) (by decide) (by decide) (by decide)

/-! ## Time strings -/

theorem isdigit_digit (v : Nat) (h : v ≤ 9) : isdigit (48 + v) = true := by
  simp [isdigit]; omega

theorem isspace_digit (v : Nat) (h : v ≤ 9) : isspace (48 + v) = false := by
  simp [isspace]; omega

theorem conv_num_digits2 (n llim ulim : Nat) (rest : List Nat) (h1 : llim ≤ n) (h2 : n ≤ ulim)
    (h3 : 10 ≤ ulim) (h4 : ulim ≤ 99) :
    conv_num (digits2 n ++ rest) llim ulim = some (n, rest) := by
  have e1 : (0 * 10 + (48 + n / 10 - 48)) = n / 10 := by omega
  have e2 : (n / 10 * 10 + (48 + n % 10 - 48)) = n := by omega
  have c1 : n / 10 * 10 ≤ ulim := by omega
  have c2 : ulim / 10 ≠ 0 := by omega
  have c3 : ulim / 10 / 10 = 0 := by omega
  have g1 : isdigit (48 + n / 10) = true := isdigit_digit _ (by omega)
  have g2 : isdigit (48 + n % 10) = true := isdigit_digit _ (by omega)
  have hr : ¬ (n < llim ∨ n > ulim) := by omega
  show conv_num ((48 + n / 10) :: (48 + n % 10) :: rest) llim ulim = some (n, rest)
  unfold conv_num
  simp only [g1, if_true]
  have hl : conv_num_loop ((48 + n / 10) :: (48 + n % 10) :: rest) 0 ulim ulim = (n, rest) := by
    rw [conv_num_loop]
    simp only [e1, c1, c2, List.headD_cons, g2, ne_eq, not_false_eq_true, and_self, if_true]
    rw [conv_num_loop]
    simp only [e2, c3, ne_eq, not_true_eq_false, false_and, and_false, if_false]
  rw [hl]
  simp only [hr, if_false]

theorem conv_num_digits4 (n : Nat) (rest : List Nat) (h2 : n ≤ 9999) :
    conv_num (digits4 n ++ rest) 0 9999 = some (n, rest) := by
  have e1 : (0 * 10 + (48 + n / 1000 - 48)) = n / 1000 := by omega
  have e2 : (n / 1000 * 10 + (48 + n / 100 % 10 - 48)) = n / 100 := by omega
  have e3 : (n / 100 * 10 + (48 + n / 10 % 10 - 48)) = n / 10 := by omega
  have e4 : (n / 10 * 10 + (48 + n % 10 - 48)) = n := by omega
  have c1 : n / 1000 * 10 ≤ 9999 := by omega
  have c2 : n / 100 * 10 ≤ 9999 := by omega
  have c3 : n / 10 * 10 ≤ 9999 := by omega
  have g1 : isdigit (48 + n / 1000) = true := isdigit_digit _ (by omega)
  have g2 : isdigit (48 + n / 100 % 10) = true := isdigit_digit _ (by omega)
  have g3 : isdigit (48 + n / 10 % 10) = true := isdigit_digit _ (by omega)
  have g4 : isdigit (48 + n % 10) = true := isdigit_digit _ (by omega)
  have hr : ¬ (n < 0 ∨ n > 9999) := by omega
  show conv_num ((48 + n / 1000) :: (48 + n / 100 % 10) :: (48 + n / 10 % 10) ::
    (48 + n % 10) :: rest) 0 9999 = some (n, rest)
  unfold conv_num
  simp only [g1, if_true]
  have hl : conv_num_loop ((48 + n / 1000) :: (48 + n / 100 % 10) :: (48 + n / 10 % 10) ::
      (48 + n % 10) :: rest) 0 9999 9999 = (n, rest) := by
    rw [conv_num_loop]
    simp only [e1, c1, List.headD_cons, g2, ne_eq, not_false_eq_true, and_self, if_true,
      Nat.reduceDiv, OfNat.ofNat_ne_zero]
    rw [conv_num_loop]
    simp only [e2, c2, List.headD_cons, g3, ne_eq, not_false_eq_true, and_self, if_true,
      Nat.reduceDiv, OfNat.ofNat_ne_zero]
    rw [conv_num_loop]
    simp only [e3, c3, List.headD_cons, g4, ne_eq, not_false_eq_true, and_self, if_true,
      Nat.reduceDiv, OfNat.ofNat_ne_zero]
    rw [conv_num_loop]
    simp only [e4, Nat.reduceDiv, ne_eq, not_true_eq_false, false_and, and_false, if_false]
  rw [hl]
  simp only [hr, if_false]

/-- The conversion `strptime` makes of a well-formed time, whatever follows it. -/
theorem strptime_fmt_render (t : Stamp) (g : List Nat) (hv : t.valid) :
    strptime_fmt (t.render ++ g) = some t.tm := by
  obtain ⟨h1, h2, h3, h4, h5, h6, h7, h8⟩ := hv
  have hform : t.render ++ g = digits4 t.year ++ (47 :: (digits2 t.mon ++ (47 :: (digits2 t.mday ++
      (32 :: (digits2 t.hour ++ (58 :: (digits2 t.min ++ (58 :: (digits2 t.sec ++ g)))))))))) := by
    simp [Stamp.render, List.append_assoc]
  have hdrop : ∀ rest : List Nat,
      (32 :: (digits2 t.hour ++ rest)).dropWhile isspace = digits2 t.hour ++ rest := by
    intro rest
    have : isspace (48 + t.hour / 10) = false := isspace_digit _ (by omega)
    show List.dropWhile isspace (32 :: (48 + t.hour / 10) :: (48 + t.hour % 10) :: rest) = _
    rw [List.dropWhile_cons_of_pos (by decide), List.dropWhile_cons_of_neg (by simp [this])]
    rfl
  rw [hform]
  unfold strptime_fmt
  simp only [conv_num_digits4 _ _ (show t.year ≤ 9999 by omega), expect_char, if_true,
    conv_num_digits2 t.mon 1 12 _ h2 h3 (by omega) (by omega),
    conv_num_digits2 t.mday 1 31 _ h4 h5 (by omega) (by omega), hdrop,
    conv_num_digits2 t.hour 0 23 _ (by omega) h6 (by omega) (by omega),
    conv_num_digits2 t.min 0 59 _ (by omega) h7 (by omega) (by omega),
    conv_num_digits2 t.sec 0 60 _ (by omega) h8 (by omega) (by omega)]
  rfl

/-! ## The readers of literals -/

theorem parse_address_loop_lit (d : Nat) (rest : List Nat)
    (hd : d ≠ 10 ∧ d ≠ CHAR_CURLY_BRACE_END ∧ (isspace d = true ∨ d = 34 ∨ d = CHAR_SEMICOLON))
    (lit : List Nat) :
    ∀ (fuel : Nat) (st : Parser), st.eof = false → st.input = lit ++ d :: rest →
      (∀ c ∈ lit, c ≤ 127 ∧ isspace c = false ∧ c ≠ 34 ∧ c ≠ CHAR_SEMICOLON ∧
        c ≠ CHAR_CURLY_BRACE_END) →
      lit.length < fuel → st.buffer.length + lit.length ≤ BUFFER_SIZE →
      parse_address_loop fuel st =
        Except.ok { st with input := rest, buffer := st.buffer ++ lit } := by
  induction lit with
  | nil =>
    intro fuel st he hi _ hfuel _
    cases fuel with
    | zero => simp at hfuel
    | succ n =>
      simp only [parse_address_loop, get_char_plain st d rest he hi hd.2.1, hd.1, hd.2.2, if_false,
        if_true, List.append_nil]
  | cons c lit ih =>
    intro fuel st he hi hw hfuel hb
    cases fuel with
    | zero => simp at hfuel
    | succ n =>
      obtain ⟨h1, h2, h3, h4, h5⟩ := hw c (List.mem_cons_self _ _)
      have h10 : c ≠ 10 := by
        intro hc; subst hc; simp [isspace] at h2
      have hstop : ¬ (isspace c = true ∨ c = 34 ∨ c = CHAR_SEMICOLON) := by
        rintro (hc | hc | hc)
        · rw [h2] at hc; cases hc
        · exact h3 hc
        · exact h4 hc
      have hasc : isascii c = true ∨ isdigit c = true := Or.inl (by simp [isascii, h1])
      have hn : lit.length < n := by simpa using hfuel
      have hroom : ¬ BUFFER_SIZE ≤ st.buffer.length := by
        simp only [List.length_cons] at hb
        omega
      simp only [parse_address_loop, get_char_plain st c (lit ++ d :: rest) he hi h5, h10, hstop,
        hasc, hroom, if_false, if_true]
      rw [ih n { st with input := lit ++ d :: rest, buffer := st.buffer ++ [c] } he rfl
        (fun x hx => hw x (List.mem_cons_of_mem _ hx)) hn
        (by simp only [List.length_append, List.length_cons, List.length_nil] at hb ⊢; omega)]
      simp

theorem read_string_to_semicolon_loop_lit (rest : List Nat) (t : List Nat) :
    ∀ (fuel : Nat) (st : Parser), st.eof = false → st.input = t ++ CHAR_SEMICOLON :: rest →
      (∀ c ∈ t, c ≠ 10 ∧ c ≠ CHAR_SEMICOLON ∧ c ≠ CHAR_CURLY_BRACE_END) →
      t.length < fuel → st.buffer.length + t.length ≤ BUFFER_SIZE →
      read_string_to_semicolon_loop fuel st =
        Except.ok { st with input := rest, buffer := st.buffer ++ t } := by
  induction t with
  | nil =>
    intro fuel st he hi _ hfuel _
    cases fuel with
    | zero => simp at hfuel
    | succ n =>
      have h1 : CHAR_SEMICOLON ≠ CHAR_CURLY_BRACE_END := by decide
      have h2 : CHAR_SEMICOLON ≠ 10 := by decide
      simp only [read_string_to_semicolon_loop, get_char_plain st _ rest he hi h1, h2, if_false,
        if_true, List.append_nil]
  | cons c t ih =>
    intro fuel st he hi hw hfuel hb
    cases fuel with
    | zero => simp at hfuel
    | succ n =>
      obtain ⟨h1, h2, h3⟩ := hw c (List.mem_cons_self _ _)
      have hn : t.length < n := by simpa using hfuel
      have hroom : ¬ BUFFER_SIZE ≤ st.buffer.length := by
        simp only [List.length_cons] at hb
        omega
      simp only [read_string_to_semicolon_loop,
        get_char_plain st c (t ++ CHAR_SEMICOLON :: rest) he hi h3, h1, h2, hroom, if_false]
      rw [ih n { st with input := t ++ CHAR_SEMICOLON :: rest, buffer := st.buffer ++ [c] } he rfl
        (fun x hx => hw x (List.mem_cons_of_mem _ hx)) hn
        (by simp only [List.length_append, List.length_cons, List.length_nil] at hb ⊢; omega)]
      simp

theorem parse_client_hostname_loop_lit (d : Nat) (rest : List Nat)
    (hd : d ≠ 10 ∧ d ≠ CHAR_CURLY_BRACE_END ∧ d ≠ 34 ∧ (isspace d = true ∨ d = CHAR_SEMICOLON))
    (q : List Nat) :
    ∀ (fuel : Nat) (st : Parser), st.eof = false → st.input = q ++ d :: rest →
      (∀ c ∈ q, c ≤ 127 ∧ isspace c = false ∧ c ≠ CHAR_SEMICOLON ∧ c ≠ CHAR_CURLY_BRACE_END) →
      q.length < fuel →
      st.buffer.length + (q.filter (fun c => decide (c ≠ 34))).length ≤ BUFFER_SIZE →
      parse_client_hostname_loop fuel st =
        Except.ok { st with input := rest,
                            buffer := st.buffer ++ q.filter (fun c => decide (c ≠ 34)) } := by
  induction q with
  | nil =>
    intro fuel st he hi _ hfuel _
    cases fuel with
    | zero => simp at hfuel
    | succ n =>
      simp only [parse_client_hostname_loop, get_char_plain st d rest he hi hd.2.1, hd.1, hd.2.2.1,
        hd.2.2.2, if_false, if_true, List.filter_nil, List.append_nil]
  | cons c q ih =>
    intro fuel st he hi hw hfuel hb
    cases fuel with
    | zero => simp at hfuel
    | succ n =>
      obtain ⟨h1, h2, h4, h5⟩ := hw c (List.mem_cons_self _ _)
      have h10 : c ≠ 10 := by
        intro hc; subst hc; simp [isspace] at h2
      have hstop : ¬ (isspace c = true ∨ c = CHAR_SEMICOLON) := by
        rintro (hc | hc)
        · rw [h2] at hc; cases hc
        · exact h4 hc
      have hasc : isascii c = true ∨ isdigit c = true := Or.inl (by simp [isascii, h1])
      have hn : q.length < n := by simpa using hfuel
      simp only [parse_client_hostname_loop, get_char_plain st c (q ++ d :: rest) he hi h5, h10,
        if_false]
      by_cases hq : c = 34
      · simp only [hq, if_true]
        rw [ih n { st with input := q ++ d :: rest } he rfl
          (fun x hx => hw x (List.mem_cons_of_mem _ hx)) hn (by simpa [hq] using hb)]
        simp
      · have hb1 : st.buffer.length + ((q.filter (fun c => decide (c ≠ 34))).length + 1) ≤
            BUFFER_SIZE := by simpa [hq] using hb
        have hroom : ¬ BUFFER_SIZE ≤ st.buffer.length := by omega
        simp only [hq, hstop, hasc, hroom, if_false, if_true]
        rw [ih n { st with input := q ++ d :: rest, buffer := st.buffer ++ [c] } he rfl
          (fun x hx => hw x (List.mem_cons_of_mem _ hx)) hn
          (by simp only [List.length_append, List.length_cons, List.length_nil]; omega)]
        simp [hq]

theorem seek_char_found (st : Parser) (chr : Nat) (rest : List Nat) (he : st.eof = false)
    (hi : st.input = chr :: rest) (hc : chr ≠ CHAR_CURLY_BRACE_END) :
    seek_char chr st = Except.ok { st with input := rest } := by
  unfold seek_char
  simp only [seek_char_loop, get_char_plain st chr rest he hi hc, if_true]

theorem peek_char_some (st : Parser) (c : Nat) (rest : List Nat) (he : st.eof = false)
    (hi : st.input = c :: rest) : peek_char st = Except.ok (some c, st) := by
  cases st
  simp only at he hi
  subst he
  subst hi
  rfl

theorem cstr_of_nonzero (s : List Nat) (h : ∀ c ∈ s, c ≠ 0) : cstr s = s := by
  unfold cstr
  rw [List.takeWhile_eq_self_iff]
  intro c hc
  simpa using h c hc

theorem cstr_append_nonzero (s g : List Nat) (h : ∀ c ∈ s, c ≠ 0) :
    cstr (s ++ g) = s ++ cstr g := by
  unfold cstr
  induction s with
  | nil => rfl
  | cons c s ih =>
    have hc : c ≠ 0 := h c (List.mem_cons_self _ _)
    simp only [List.cons_append, List.takeWhile_cons, bne_iff_ne, ne_eq, hc, not_false_eq_true,
      if_true, decide_True]
    rw [ih (fun x hx => h x (List.mem_cons_of_mem _ hx))]

theorem digits2_range (n : Nat) (h : n ≤ 99) : ∀ c ∈ digits2 n, 48 ≤ c ∧ c ≤ 57 := by
  intro c hc
  simp only [digits2, List.mem_cons, List.mem_singleton, List.not_mem_nil, or_false] at hc
  rcases hc with rfl | rfl <;> omega

theorem digits4_range (n : Nat) (h : n ≤ 9999) : ∀ c ∈ digits4 n, 48 ≤ c ∧ c ≤ 57 := by
  intro c hc
  simp only [digits4, List.mem_cons, List.mem_singleton, List.not_mem_nil, or_false] at hc
  rcases hc with rfl | rfl | rfl | rfl <;> omega

/-- The bytes of a well-formed time are digits, `/`, `:` and the blank. -/
theorem render_range (t : Stamp) (hv : t.valid) : ∀ c ∈ t.render, c = 32 ∨ (47 ≤ c ∧ c ≤ 58) := by
  obtain ⟨h1, h2, h3, h4, h5, h6, h7, h8⟩ := hv
  intro c hc
  simp only [Stamp.render, List.mem_append, List.mem_cons] at hc
  rcases hc with hc | rfl | hc | rfl | hc | rfl | hc | rfl | hc | rfl | hc
  · have := digits4_range _ (show t.year ≤ 9999 by omega) c hc; omega
  · omega
  · have := digits2_range _ (by omega) c hc; omega
  · omega
  · have := digits2_range _ (by omega) c hc; omega
  · omega
  · have := digits2_range _ (by omega) c hc; omega
  · omega
  · have := digits2_range _ (by omega) c hc; omega
  · omega
  · have := digits2_range _ (by omega) c hc; omega

/-- The function `parse_date_string` on the text of a time directive: weekday digit, blank
and a well-formed time. -/
theorem parse_date_string_render (env : Env) (st : Parser) (w : Nat) (t : Stamp)
    (hw : isdigit w = true) (hv : t.valid) (hb : st.buffer = w :: 32 :: t.render) :
    parse_date_string env st = Except.ok (env.mktime t.tm) := by
  have hr := render_range t hv
  have hw0 : w ≠ 0 := by
    intro hc; subst hc; simp [isdigit] at hw
  have hnz : ∀ c ∈ w :: 32 :: t.render, c ≠ 0 := by
    intro c hc
    rcases List.mem_cons.1 hc with rfl | hc
    · exact hw0
    · rcases List.mem_cons.1 hc with rfl | hc
      · decide
      · have := hr c hc
        omega
  have hlen : t.render.length = 19 := by
    simp [Stamp.render, digits4, digits2]
  unfold parse_date_string
  rw [hb, cstr_of_nonzero _ hnz]
  have h3 : ¬ (w :: 32 :: t.render).length < 3 := by
    simp only [List.length_cons]
    omega
  simp only [h3, if_false, List.getD_cons_zero, List.getD_cons_succ, hw, Bool.true_and]
  have hsp : isspace 32 = true := by decide
  simp only [hsp, if_true, List.drop_succ_cons, List.drop_zero]
  unfold string_to_time strncpy_over
  rw [cstr_append_nonzero _ _ (fun c hc => hnz c (List.mem_cons_of_mem _ (List.mem_cons_of_mem _ hc))),
    strptime_fmt_render t _ hv]
  have hfit : ¬ (True ∧ DATEBUF_SIZE < (w :: 32 :: t.render).length - 2) := by
    simp only [List.length_cons, hlen, DATEBUF_SIZE]
    omega
  simp only [if_neg hfit]

/-! ## The iterations of a well-formed run -/

/-- An assignment to a data field of a lease leaves the queue as it is. -/
theorem setdata_linked (h : Heap) (S : List Nat) (l : Nat) (e : lease_t) (r : Lease)
    (hl : Linked h S) (he : h.nodes[l]? = some e) :
    Linked { h with nodes := h.nodes.set l { e with toLease := r } } S ∧
      (∀ k, k ≠ l →
        Heap.lease { h with nodes := h.nodes.set l { e with toLease := r } } k = h.lease k) ∧
      Heap.lease { h with nodes := h.nodes.set l { e with toLease := r } } l = r := by
  refine ⟨⟨?_, hl.2⟩, ?_, ?_⟩
  · refine seg_frame h _ S ?_ _ _ _ _ hl.1
    intro k _ ek hek
    by_cases hkl : l = k
    · subst hkl
      rw [he] at hek
      cases hek
      exact ⟨_, getElem?_set_same _ _ _ _ he, rfl, rfl⟩
    · exact ⟨ek, by simp only [List.getElem?_set_ne hkl, hek], rfl, rfl⟩
  · intro k hk
    unfold Heap.lease
    simp only [List.getElem?_set_ne (Ne.symm hk)]
  · unfold Heap.lease
    simp only [getElem?_set_same _ _ _ _ he]

theorem set_lbuf_eq (st : Parser) (f : Lease → Lease) (l : Nat) (e : lease_t)
    (hl : st.lbuf = some l) (he : st.heap.nodes[l]? = some e) :
    set_lbuf st f = Except.ok { st with heap :=
      { st.heap with nodes := st.heap.nodes.set l { e with toLease := f e.toLease } } } := by
  unfold set_lbuf
  simp only [hl, he]

theorem lookup_empty : lookup [] = TOK_INVALID_TOKEN := by decide

/-- An iteration that starts at a white space byte reads it and does
nothing else. -/
theorem lease_step_blank (env : Env) (st : Parser) (c : Nat) (rest : List Nat)
    (he : st.eof = false) (hi : st.input = c :: rest) (hc : isspace c = true) :
    lease_step env st = Except.ok
      { st with input := rest, buffer := [], hastoken := false, token := TOK_INVALID_TOKEN } := by
  rw [lease_step_invalid env st _
    (get_token_unknown st [] c rest he hi (fun _ h => by cases h) (Or.inl hc) lookup_empty
      (Nat.zero_le _))]

theorem outside_agree (recs : List Lease) (st st1 : Parser) (ha : Agree st st1)
    (h : Outside recs st) : Outside recs st1 := by
  obtain ⟨a1, a2, a3, _, _⟩ := ha
  obtain ⟨h1, h2, h3⟩ := h
  exact ⟨a1.trans h1, a2.trans h2, by rw [a3]; exact h3⟩

theorem inside_agree (recs : List Lease) (cur : Lease) (st st1 : Parser) (ha : Agree st st1)
    (h : Inside recs cur st) : Inside recs cur st1 := by
  obtain ⟨a1, a2, a3, a4, a5⟩ := ha
  obtain ⟨h1, h2, h3, h4⟩ := h
  exact ⟨a1.trans h1, a2.trans h2, by rw [a5]; exact h3, by rw [a3, a4]; exact h4⟩

theorem agree_refl (st : Parser) : Agree st st := ⟨rfl, rfl, rfl, rfl, rfl⟩

theorem agree_trans (a b c : Parser) (h1 : Agree a b) (h2 : Agree b c) : Agree a c :=
  ⟨h2.1.trans h1.1, h2.2.1.trans h1.2.1, h2.2.2.1.trans h1.2.2.1,
    h2.2.2.2.1.trans h1.2.2.2.1, h2.2.2.2.2.trans h1.2.2.2.2⟩

/-- A run of white space is read, one byte an iteration, and nothing else
happens. -/
theorem reach_blank (env : Env) (ws : List Nat) :
    ∀ (st : Parser) (rest : List Nat), st.eof = false → st.input = ws ++ rest → blank ws →
      ∃ st1, Reach env st st1 ∧ st1.input = rest ∧ Agree st st1 := by
  induction ws with
  | nil =>
    intro st rest _ hi _
    exact ⟨st, Reach.start, hi, agree_refl st⟩
  | cons c ws ih =>
    intro st rest he hi hb
    have hstep := lease_step_blank env st c (ws ++ rest) he hi (hb c (List.mem_cons_self _ _))
    obtain ⟨st1, hr, hi1, ha⟩ := ih
      { st with input := ws ++ rest, buffer := [], hastoken := false, token := TOK_INVALID_TOKEN }
      rest he rfl (fun x hx => hb x (List.mem_cons_of_mem _ hx))
    refine ⟨st1, reach_trans env _ _ _ (reach_one env _ _ hstep he) hr, hi1, ?_⟩
    exact agree_trans _ _ _ ⟨rfl, rfl, rfl, rfl, rfl⟩ ha

theorem lease_step_of_token (env : Env) (st st0 : Parser) (tok : Nat)
    (hg : get_token st = Except.ok (tok, st0))
    (h1 : ¬ (st0.inblock = false ∧ st0.buffer.getD 0 0 = CHAR_CURLY_BRACE_END))
    (h2 : ¬ (st0.count = 1 ∧ st0.hastoken = true ∧ tok ≠ TOK_LEASE))
    (h3 : ¬ (st0.hastoken = true ∧ tok ≠ TOK_LEASE ∧ st0.inblock = false)) :
    lease_step env st = lease_switch env { st0 with token := tok } := by
  unfold lease_step
  simp only [hg, h1, h2, h3, if_false]

theorem kw_chars :
    ∀ k ∈ keywords, ∀ c ∈ k.1, isspace c = false ∧ c ≠ CHAR_SEMICOLON ∧ c ≠ 35 ∧
      c ≠ CHAR_CURLY_BRACE_END := by
  decide

theorem kw_lookup : ∀ k ∈ keywords, lookup k.1 = k.2 ∧ k.1.getD 0 0 ≠ CHAR_CURLY_BRACE_END := by
  decide

theorem literal_chars (s : List Nat) (h : literal s) :
    ∀ c ∈ s, c ≤ 127 ∧ isspace c = false ∧ c ≠ 34 ∧ c ≠ CHAR_SEMICOLON ∧
      c ≠ CHAR_CURLY_BRACE_END := by
  intro c hc
  obtain ⟨_, h2, h3, h4, h5, _, h7, _⟩ := h.2.2 c hc
  exact ⟨h2, h3, h4, h5, h7⟩

theorem literal_cstr (s : List Nat) (h : literal s) : cstr s = s :=
  cstr_of_nonzero s (fun c hc => (h.2.2 c hc).1)

/-- A state whose buffer holds at most 2047 bytes is read as a string within
the array. -/
theorem not_buffer_full (st : Parser) (h : st.buffer.length < BUFFER_SIZE) :
    ¬ buffer_full st := by
  unfold buffer_full cstr
  have := (List.takeWhile_sublist (fun c => c != 0) (l := st.buffer)).length_le
  omega

theorem literal_fits (st : Parser) (s : List Nat) (h : literal s) (hb : st.buffer = s) :
    ¬ buffer_full st :=
  not_buffer_full st (by rw [hb]; exact h.2.1)

theorem parse_ip_address_lit (st : Parser) (ip : List Nat) (d : Nat) (rest : List Nat)
    (he : st.eof = false) (hi : st.input = ip ++ d :: rest) (hip : literal ip)
    (hd : d ≠ 10 ∧ d ≠ CHAR_CURLY_BRACE_END ∧ (isspace d = true ∨ d = 34 ∨ d = CHAR_SEMICOLON)) :
    parse_ip_address st = Except.ok { st with input := rest, buffer := ip } := by
  unfold parse_ip_address
  rw [parse_address_loop_lit d rest hd ip _ { st with buffer := [] } he hi (literal_chars ip hip)
    (by simp only [hi, List.length_append, List.length_cons]; omega)
    (by simpa using le_of_lt hip.2.1)]
  simp

theorem parse_ethernet_address_lit (st : Parser) (mac : List Nat) (d : Nat) (rest : List Nat)
    (he : st.eof = false) (hi : st.input = mac ++ d :: rest) (hmac : literal mac)
    (hd : d ≠ 10 ∧ d ≠ CHAR_CURLY_BRACE_END ∧ (isspace d = true ∨ d = 34 ∨ d = CHAR_SEMICOLON)) :
    parse_ethernet_address st = Except.ok { st with input := rest, buffer := mac } := by
  unfold parse_ethernet_address
  rw [parse_address_loop_lit d rest hd mac _ { st with buffer := [] } he hi
    (literal_chars mac hmac) (by simp only [hi, List.length_append, List.length_cons]; omega)
    (by simpa using le_of_lt hmac.2.1)]
  simp

theorem read_string_to_semicolon_lit (st : Parser) (t rest : List Nat) (he : st.eof = false)
    (hi : st.input = t ++ CHAR_SEMICOLON :: rest)
    (ht : ∀ c ∈ t, c ≠ 10 ∧ c ≠ CHAR_SEMICOLON ∧ c ≠ CHAR_CURLY_BRACE_END)
    (hlen : t.length ≤ BUFFER_SIZE) :
    read_string_to_semicolon st = Except.ok { st with input := rest, buffer := t } := by
  unfold read_string_to_semicolon
  rw [read_string_to_semicolon_loop_lit rest t _ { st with buffer := [] } he hi ht
    (by simp only [hi, List.length_append, List.length_cons]; omega) (by simpa using hlen)]
  simp

theorem parse_client_hostname_lit (st : Parser) (name rest : List Nat) (he : st.eof = false)
    (hi : st.input = 34 :: (name ++ 34 :: CHAR_SEMICOLON :: rest)) (hn : literal name) :
    parse_client_hostname st = Except.ok { st with input := rest, buffer := name } := by
  have hi1 : st.input = (34 :: (name ++ [34])) ++ CHAR_SEMICOLON :: rest := by
    rw [hi]; simp
  have hq : ∀ c ∈ 34 :: (name ++ [34]), c ≤ 127 ∧ isspace c = false ∧ c ≠ CHAR_SEMICOLON ∧
      c ≠ CHAR_CURLY_BRACE_END := by
    intro c hc
    simp only [List.mem_cons, List.mem_append, List.mem_singleton, List.not_mem_nil,
      or_false] at hc
    rcases hc with rfl | hc | rfl
    · decide
    · obtain ⟨h1, h2, _, h4, h5⟩ := literal_chars name hn c hc
      exact ⟨h1, h2, h4, h5⟩
    · decide
  have hf : (34 :: (name ++ [34])).filter (fun c => decide (c ≠ 34)) = name := by
    have h1 : name.filter (fun c => decide (c ≠ 34)) = name := by
      rw [List.filter_eq_self]
      intro c hc
      simpa using (literal_chars name hn c hc).2.2.1
    have h34 : ∀ a ∈ name, ¬ a = 34 := fun a ha => (literal_chars name hn a ha).2.2.1
    simp [List.filter_cons, List.filter_append]
    exact h34
  unfold parse_client_hostname
  rw [parse_client_hostname_loop_lit CHAR_SEMICOLON rest (by decide) _ _ { st with buffer := [] }
    he hi1 hq (by simp only [hi1, List.length_append, List.length_cons]; omega)
    (by rw [hf]; simpa using le_of_lt hn.2.1), hf]
  simp

/-- Storing a field in the lease of the open block. -/
theorem inside_set_lbuf (recs : List Lease) (cur : Lease) (st st0 : Parser) (f : Lease → Lease)
    (hin : Inside recs cur st) (h1 : st0.eof = st.eof) (h2 : st0.inblock = st.inblock)
    (h3 : st0.heap = st.heap) (h4 : st0.lbuf = st.lbuf) (h5 : st.count ≤ st0.count) :
    ∃ st1, set_lbuf st0 f = Except.ok st1 ∧ st1.input = st0.input ∧ Inside recs (f cur) st1 := by
  obtain ⟨he, hb, hc, S, l, hl, hmap, hlb, hlS, hlt, hcur⟩ := hin
  have hload : st.heap.nodes[l]? = some (st.heap.nodes[l]) := List.getElem?_eq_getElem hlt
  have hcur1 : (st.heap.nodes[l]).toLease = cur := by
    rw [← hcur]
    exact (lease_of_load _ _ _ hload).symm
  obtain ⟨hl1, hother, hself⟩ := setdata_linked st.heap S l _ (f (st.heap.nodes[l]).toLease) hl hload
  refine ⟨_, set_lbuf_eq st0 f l _ (h4.trans hlb) (by rw [h3]; exact hload), rfl, ?_⟩
  refine ⟨h1.trans he, h2.trans hb, le_trans hc h5, S, l, ?_, ?_, h4.trans hlb, hlS, ?_, ?_⟩
  · rw [h3]; exact hl1
  · rw [← hmap, h3]
    apply List.map_congr_left
    intro k hk
    exact hother k (fun hkl => hlS (hkl ▸ hk))
  · rw [h3]
    simp only [List.length_set]
    exact hlt
  · rw [h3, hself, hcur1]

/-- The case `TOK_LEASE` of the switch on a header. -/
theorem lease_switch_lease (env : Env) (s : Parser) (ip rest : List Nat)
    (ht : s.token = TOK_LEASE) (hb : s.inblock = false) (he : s.eof = false)
    (hi : s.input = ip ++ 32 :: 123 :: rest) (hip : literal ip) :
    lease_switch env s =
      set_lbuf { s with inblock := true, input := rest, buffer := ip }
        (fun r => { r with ipaddr := some ip }) := by
  obtain ⟨input, eof, token, inblock, buffer, lbuf, heap, count, hastoken⟩ := s
  simp only at ht hb he hi
  subst ht hb he hi
  unfold lease_switch
  simp only [Bool.false_eq_true, if_true, if_false]
  rw [parse_ip_address_lit _ ip 32 (123 :: rest) rfl rfl hip (by decide)]
  simp only
  rw [if_neg (literal_fits _ ip hip rfl)]
  rw [seek_char_found _ CHAR_CURLY_BRACE_START rest rfl rfl (by decide)]
  simp only [literal_cstr ip hip]

/-- The iteration for a header `lease IP {`. -/
theorem lease_step_header (env : Env) (recs : List Lease) (st : Parser) (ip rest : List Nat)
    (ho : Outside recs st) (hi : st.input = bytes "lease " ++ (ip ++ (32 :: 123 :: rest)))
    (hip : literal ip) :
    ∃ st1, lease_step env st = Except.ok st1 ∧ st1.input = rest ∧
      Inside recs { lease_zero with ipaddr := some ip } st1 := by
  obtain ⟨he, hb, S, hl, hmap⟩ := ho
  have hi1 : st.input = bytes "lease" ++ 32 :: (ip ++ (32 :: 123 :: rest)) := by
    rw [hi]; rfl
  have hmem : (bytes "lease", TOK_LEASE) ∈ keywords := by decide
  have hg := get_token_lease st (bytes "lease") 32 _ he hi1 (kw_chars _ hmem) (Or.inl (by decide))
    (kw_lookup _ hmem).1 (by decide)
  rw [lease_step_of_token env st _ _ hg (fun h => (kw_lookup _ hmem).2 h.2)
    (by simp) (by simp)]
  rw [lease_switch_lease env _ ip rest ?_ ?_ ?_ ?_ hip]
  rotate_left
  · rfl
  · exact hb
  · exact he
  · rfl
  obtain ⟨hl1, hnew, hload, hsame⟩ := alloc_linked st.heap S lease_zero hl
  rw [set_lbuf_eq _ _ _ _ rfl hload]
  refine ⟨_, rfl, rfl, he, rfl, by simp, S, _, ?_, ?_, rfl, hnew, ?_, ?_⟩
  · exact (setdata_linked _ S _ _ _ hl1 hload).1
  · rw [← hmap]
    apply List.map_congr_left
    intro k hk
    rw [(setdata_linked _ S _ _ _ hl1 hload).2.1 k (fun hkl => hnew (hkl ▸ hk))]
    exact hsame k hk
  · simp [Heap.alloc]
  · rw [(setdata_linked _ S _ _ _ hl1 hload).2.2]

theorem time_text_chars (w : Nat) (t : Stamp) (hw : isdigit w = true) (hv : t.valid) :
    ∀ c ∈ w :: 32 :: t.render, c ≠ 10 ∧ c ≠ CHAR_SEMICOLON ∧ c ≠ CHAR_CURLY_BRACE_END := by
  intro c hc
  have hr := render_range t hv
  simp only [CHAR_SEMICOLON, CHAR_CURLY_BRACE_END]
  rcases List.mem_cons.1 hc with rfl | hc
  · simp only [isdigit, Bool.and_eq_true, decide_eq_true_eq] at hw
    omega
  · rcases List.mem_cons.1 hc with rfl | hc
    · omega
    · have := hr c hc
      omega

theorem time_text_length (w : Nat) (t : Stamp) : (w :: 32 :: t.render).length = 21 := by
  simp [Stamp.render, digits4, digits2]

theorem time_text_fits (st : Parser) (w : Nat) (t : Stamp)
    (hb : st.buffer = w :: 32 :: t.render) : ¬ buffer_full st :=
  not_buffer_full st (by rw [hb, time_text_length]; decide)

theorem kw_length : ∀ k ∈ keywords, k.1.length ≤ BUFFER_SIZE := by
  decide

/-- The case `TOK_STARTS` of the switch on a well-formed time. -/
theorem lease_switch_starts (env : Env) (s : Parser) (w : Nat) (t : Stamp) (rest : List Nat)
    (ht : s.token = TOK_STARTS) (hb : s.inblock = true) (he : s.eof = false)
    (hi : s.input = w :: 32 :: (t.render ++ CHAR_SEMICOLON :: rest))
    (hw : isdigit w = true) (hv : t.valid) :
    lease_switch env s =
      set_lbuf { s with input := rest, buffer := w :: 32 :: t.render }
        (fun r => { r with start := env.mktime t.tm }) := by
  obtain ⟨input, eof, token, inblock, buffer, lbuf, heap, count, hastoken⟩ := s
  simp only at ht hb he hi
  subst ht hb he hi
  have h1 : ¬ TOK_STARTS = TOK_LEASE := by decide
  unfold lease_switch check_block_scope
  simp only [h1, Bool.true_eq_false, if_true, if_false]
  rw [read_string_to_semicolon_lit _ (w :: 32 :: t.render) rest rfl rfl (time_text_chars w t hw hv)
    (by rw [time_text_length]; decide)]
  simp only
  rw [if_neg (time_text_fits _ w t rfl)]
  rw [parse_date_string_render env _ w t hw hv rfl]

/-- The case `TOK_ENDS` of the switch on a well-formed time. -/
theorem lease_switch_ends (env : Env) (s : Parser) (w : Nat) (t : Stamp) (rest : List Nat)
    (ht : s.token = TOK_ENDS) (hb : s.inblock = true) (he : s.eof = false)
    (hi : s.input = w :: 32 :: (t.render ++ CHAR_SEMICOLON :: rest))
    (hw : isdigit w = true) (hv : t.valid) :
    lease_switch env s =
      set_lbuf { s with input := rest, buffer := w :: 32 :: t.render }
        (fun r => { r with end_ := env.mktime t.tm }) := by
  obtain ⟨input, eof, token, inblock, buffer, lbuf, heap, count, hastoken⟩ := s
  simp only at ht hb he hi
  subst ht hb he hi
  have h1 : ¬ TOK_ENDS = TOK_LEASE := by decide
  have h2 : ¬ TOK_ENDS = TOK_STARTS := by decide
  unfold lease_switch check_block_scope
  simp only [h1, h2, Bool.true_eq_false, if_true, if_false]
  rw [read_string_to_semicolon_lit _ (w :: 32 :: t.render) rest rfl rfl (time_text_chars w t hw hv)
    (by rw [time_text_length]; decide)]
  simp only
  rw [if_neg (time_text_fits _ w t rfl)]
  rw [parse_date_string_render env _ w t hw hv rfl]

/-- The case `TOK_HARDWARE` of the switch on `ethernet` and an address. -/
theorem lease_switch_hardware (env : Env) (s : Parser) (mac rest : List Nat)
    (ht : s.token = TOK_HARDWARE) (hb : s.inblock = true) (he : s.eof = false)
    (hi : s.input = bytes "ethernet" ++ 32 :: (mac ++ CHAR_SEMICOLON :: rest))
    (hm : literal mac) :
    lease_switch env s =
      set_lbuf { s with input := rest, buffer := mac, hastoken := true, count := s.count + 1 }
        (fun r => { r with macaddr := some mac }) := by
  obtain ⟨input, eof, token, inblock, buffer, lbuf, heap, count, hastoken⟩ := s
  simp only at ht hb he hi
  subst ht hb he hi
  have h1 : ¬ TOK_HARDWARE = TOK_LEASE := by decide
  have h2 : ¬ TOK_HARDWARE = TOK_STARTS := by decide
  have h3 : ¬ TOK_HARDWARE = TOK_ENDS := by decide
  have hmem : (bytes "ethernet", TOK_ETHERNET) ∈ keywords := by decide
  unfold lease_switch check_block_scope
  simp only [h1, h2, h3, Bool.true_eq_false, if_true, if_false]
  rw [get_token_keyword _ (bytes "ethernet") 32 (mac ++ CHAR_SEMICOLON :: rest) rfl rfl
    (kw_chars _ hmem) (Or.inl (by decide)) (by rw [(kw_lookup _ hmem).1]; decide)
    (by rw [(kw_lookup _ hmem).1]; decide) (by decide)]
  simp only [(kw_lookup _ hmem).1, ne_eq, not_true_eq_false, if_false]
  rw [parse_ethernet_address_lit _ mac CHAR_SEMICOLON rest rfl rfl hm (by decide)]
  simp only
  rw [if_neg (literal_fits _ mac hm rfl)]
  simp only [literal_cstr mac hm]

/-- The case `TOK_CLIENT_HOSTNAME` of the switch on a quoted name. -/
theorem lease_switch_client (env : Env) (s : Parser) (name rest : List Nat)
    (ht : s.token = TOK_CLIENT_HOSTNAME) (hb : s.inblock = true) (he : s.eof = false)
    (hi : s.input = 34 :: (name ++ 34 :: CHAR_SEMICOLON :: rest)) (hn : literal name) :
    lease_switch env s =
      set_lbuf { s with input := rest, buffer := name }
        (fun r => { r with client := some name }) := by
  obtain ⟨input, eof, token, inblock, buffer, lbuf, heap, count, hastoken⟩ := s
  simp only at ht hb he hi
  subst ht hb he hi
  have h1 : ¬ TOK_CLIENT_HOSTNAME = TOK_LEASE := by decide
  have h2 : ¬ TOK_CLIENT_HOSTNAME = TOK_STARTS := by decide
  have h3 : ¬ TOK_CLIENT_HOSTNAME = TOK_ENDS := by decide
  have h4 : ¬ TOK_CLIENT_HOSTNAME = TOK_HARDWARE := by decide
  unfold lease_switch check_block_scope
  simp only [h1, h2, h3, h4, Bool.true_eq_false, if_true, if_false]
  rw [parse_client_hostname_lit _ name rest rfl rfl hn]
  simp only
  rw [if_neg (literal_fits _ name hn rfl)]
  simp only [literal_cstr name hn]

/-- The case `TOK_ABANDONED` of the switch when the file goes on. -/
theorem lease_switch_abandoned (env : Env) (s : Parser) (c : Nat) (rest : List Nat)
    (ht : s.token = TOK_ABANDONED) (he : s.eof = false) (hi : s.input = c :: rest) :
    lease_switch env s = set_lbuf s (fun r => { r with abandoned := 1 }) := by
  have h1 : ¬ TOK_ABANDONED = TOK_LEASE := by decide
  have h2 : ¬ TOK_ABANDONED = TOK_STARTS := by decide
  have h3 : ¬ TOK_ABANDONED = TOK_ENDS := by decide
  have h4 : ¬ TOK_ABANDONED = TOK_HARDWARE := by decide
  have h5 : ¬ TOK_ABANDONED = TOK_CLIENT_HOSTNAME := by decide
  unfold lease_switch
  simp only [ht, h1, h2, h3, h4, h5, if_true, if_false, peek_char_some s c rest he hi]

/-- The step from `get_token` to the switch for a directive keyword read
inside a block. -/
theorem lease_step_keyword (env : Env) (recs : List Lease) (cur : Lease) (st : Parser)
    (k : List Nat × Nat) (d : Nat) (rest : List Nat) (hin : Inside recs cur st)
    (hk : k ∈ keywords) (hkl : k.2 ≠ TOK_LEASE) (hi : st.input = k.1 ++ d :: rest)
    (hd : isspace d = true ∨ d = CHAR_SEMICOLON) :
    lease_step env st = lease_switch env
      { st with input := rest, buffer := k.1, hastoken := true, count := st.count + 1,
                token := k.2 } := by
  obtain ⟨he, hb, hc, _⟩ := hin
  have hl := (kw_lookup k hk).1
  have hall : ∀ k ∈ keywords, k.2 ≠ TOK_INVALID_TOKEN := by decide
  have h0 : k.2 ≠ TOK_INVALID_TOKEN := hall k hk
  have hg := get_token_keyword st k.1 d rest he hi (kw_chars k hk) hd (by rw [hl]; exact h0)
    (by rw [hl]; exact hkl) (kw_length k hk)
  rw [hl] at hg
  rw [lease_step_of_token env st _ _ hg (by simp [hb]) (by simp; omega) (by simp [hb])]

/-- The iteration for a well-formed directive inside a block: the field of
the directive is stored in the lease of the block. -/
theorem lease_step_directive (env : Env) (recs : List Lease) (cur : Lease) (st : Parser)
    (d : Directive) (rest : List Nat) (hin : Inside recs cur st)
    (hi : st.input = d.render ++ rest) (hwf : d.wf) (hrest : rest ≠ []) :
    ∃ st1, lease_step env st = Except.ok st1 ∧ st1.input = rest ∧
      Inside recs (d.apply env cur) st1 := by
  have hin0 := hin
  obtain ⟨he, hb, hc, _⟩ := hin
  cases d with
  | starts w t =>
    have hi1 : st.input = bytes "starts" ++ 32 :: (w :: 32 :: (t.render ++ CHAR_SEMICOLON :: rest)) := by
      rw [hi]
      simp [Directive.render, CHAR_SEMICOLON]
      rfl
    rw [lease_step_keyword env recs cur st (bytes "starts", TOK_STARTS) 32 _ hin0 (by decide)
      (by decide) hi1 (Or.inl (by decide))]
    rw [lease_switch_starts env _ w t rest ?_ ?_ ?_ ?_ hwf.1 hwf.2]
    · exact inside_set_lbuf recs cur st _ _ hin0 rfl rfl rfl rfl (Nat.le_succ _)
    · rfl
    · exact hb
    · exact he
    · rfl
  | ends w t =>
    have hi1 : st.input = bytes "ends" ++ 32 :: (w :: 32 :: (t.render ++ CHAR_SEMICOLON :: rest)) := by
      rw [hi]
      simp [Directive.render, CHAR_SEMICOLON]
      rfl
    rw [lease_step_keyword env recs cur st (bytes "ends", TOK_ENDS) 32 _ hin0 (by decide)
      (by decide) hi1 (Or.inl (by decide))]
    rw [lease_switch_ends env _ w t rest ?_ ?_ ?_ ?_ hwf.1 hwf.2]
    · exact inside_set_lbuf recs cur st _ _ hin0 rfl rfl rfl rfl (Nat.le_succ _)
    · rfl
    · exact hb
    · exact he
    · rfl
  | hardware_ethernet mac =>
    have hi1 : st.input = bytes "hardware" ++ 32 ::
        (bytes "ethernet" ++ 32 :: (mac ++ CHAR_SEMICOLON :: rest)) := by
      rw [hi]
      simp [Directive.render, CHAR_SEMICOLON]
      rfl
    rw [lease_step_keyword env recs cur st (bytes "hardware", TOK_HARDWARE) 32 _ hin0 (by decide)
      (by decide) hi1 (Or.inl (by decide))]
    rw [lease_switch_hardware env _ mac rest ?_ ?_ ?_ ?_ hwf]
    · exact inside_set_lbuf recs cur st _ _ hin0 rfl rfl rfl rfl
        (le_trans (Nat.le_succ _) (Nat.le_succ _))
    · rfl
    · exact hb
    · exact he
    · rfl
  | client_hostname name =>
    have hi1 : st.input = bytes "client-hostname" ++ 32 ::
        (34 :: (name ++ 34 :: CHAR_SEMICOLON :: rest)) := by
      rw [hi]
      simp [Directive.render, CHAR_SEMICOLON]
      rfl
    rw [lease_step_keyword env recs cur st (bytes "client-hostname", TOK_CLIENT_HOSTNAME) 32 _
      hin0 (by decide) (by decide) hi1 (Or.inl (by decide))]
    rw [lease_switch_client env _ name rest ?_ ?_ ?_ ?_ hwf]
    · exact inside_set_lbuf recs cur st _ _ hin0 rfl rfl rfl rfl (Nat.le_succ _)
    · rfl
    · exact hb
    · exact he
    · rfl
  | abandoned =>
    have hi1 : st.input = bytes "abandoned" ++ CHAR_SEMICOLON :: rest := by
      rw [hi]
      rfl
    obtain ⟨c, rest1, hrest1⟩ := List.exists_cons_of_ne_nil hrest
    rw [lease_step_keyword env recs cur st (bytes "abandoned", TOK_ABANDONED) CHAR_SEMICOLON _
      hin0 (by decide) (by decide) hi1 (Or.inr rfl)]
    rw [lease_switch_abandoned env _ c rest1 ?_ ?_ ?_]
    · exact inside_set_lbuf recs cur st _ _ hin0 rfl rfl rfl rfl (Nat.le_succ _)
    · rfl
    · exact he
    · exact hrest1

/-- The function `get_token` at the closing brace of the open block, followed by white
space: the block is closed, the lease appended, and the token is invalid. -/
theorem get_token_close (st : Parser) (d : Nat) (rest : List Nat) (l : Nat) (hp : Heap)
    (he : st.eof = false) (hb : st.inblock = true) (hl : st.lbuf = some l)
    (hins : TAILQ_INSERT_TAIL st.heap l = Except.ok hp)
    (hi : st.input = CHAR_CURLY_BRACE_END :: d :: rest) (hd : isspace d = true) :
    get_token st = Except.ok (TOK_INVALID_TOKEN,
      { st with input := rest, buffer := [CHAR_CURLY_BRACE_END], hastoken := false,
                inblock := false, heap := hp }) := by
  have hdel : ¬ (CHAR_CURLY_BRACE_END = 9 ∨ CHAR_CURLY_BRACE_END = 10 ∨
      CHAR_CURLY_BRACE_END = CHAR_SEMICOLON ∨ isspace CHAR_CURLY_BRACE_END = true) := by decide
  have h35 : ¬ CHAR_CURLY_BRACE_END = 35 := by decide
  have hroom : ¬ BUFFER_SIZE ≤ 0 := by decide
  unfold get_token
  have hlen : st.input.length + 1 = (rest.length + 2) + 1 := by
    simp only [hi, List.length_cons]
  rw [hlen, get_token_loop]
  rw [get_char_close { st with buffer := [], hastoken := false } (d :: rest) l hp he hi hb hl hins]
  simp only [hdel, h35, hroom, List.length_nil, if_false, List.nil_append]
  rw [get_token_loop_word [] d rest (Or.inl hd) _ _ ?_ ?_ (fun _ h => by cases h) ?_ ?_]
  · have hk : lookup [CHAR_CURLY_BRACE_END] ≤ TOK_INVALID_TOKEN := by decide
    simp only [List.append_nil, hk, if_true]
  · exact he
  · rfl
  · simp
  · simp [BUFFER_SIZE]

/-- The function `get_token` at the closing brace of the open block, at the end of the
file. -/
theorem get_token_close_eof (st : Parser) (l : Nat) (hp : Heap)
    (he : st.eof = false) (hb : st.inblock = true) (hl : st.lbuf = some l)
    (hins : TAILQ_INSERT_TAIL st.heap l = Except.ok hp)
    (hi : st.input = [CHAR_CURLY_BRACE_END]) :
    get_token st = Except.ok (TOK_INVALID_TOKEN,
      { st with input := [], buffer := [CHAR_CURLY_BRACE_END], hastoken := false,
                inblock := false, heap := hp, eof := true }) := by
  have hdel : ¬ (CHAR_CURLY_BRACE_END = 9 ∨ CHAR_CURLY_BRACE_END = 10 ∨
      CHAR_CURLY_BRACE_END = CHAR_SEMICOLON ∨ isspace CHAR_CURLY_BRACE_END = true) := by decide
  have h35 : ¬ CHAR_CURLY_BRACE_END = 35 := by decide
  have hroom : ¬ BUFFER_SIZE ≤ 0 := by decide
  unfold get_token
  have hlen : st.input.length + 1 = 1 + 1 := by
    simp only [hi, List.length_cons, List.length_nil]
  rw [hlen, get_token_loop]
  rw [get_char_close { st with buffer := [], hastoken := false } [] l hp he hi hb hl hins]
  simp only [hdel, h35, hroom, List.length_nil, if_false, List.nil_append]
  rw [get_token_loop, get_char_eof _ ?_]
  all_goals rfl

/-- The function `get_token` at the end of the file. -/
theorem get_token_eof (st : Parser) (hi : st.input = []) :
    get_token st = Except.ok (TOK_INVALID_TOKEN,
      { st with buffer := [], hastoken := false, eof := true }) := by
  unfold get_token
  have hlen : st.input.length + 1 = 0 + 1 := by simp only [hi, List.length_nil]
  rw [hlen, get_token_loop, get_char_eof _ ?_]
  all_goals first | rfl | exact hi

/-- The insertion of the lease of the open block at the closing brace. -/
theorem inside_insert (recs : List Lease) (cur : Lease) (st : Parser)
    (hin : Inside recs cur st) :
    ∃ l hp S, st.lbuf = some l ∧ TAILQ_INSERT_TAIL st.heap l = Except.ok hp ∧ Linked hp S ∧
      S.map hp.lease = recs ++ [cur] := by
  obtain ⟨_, _, _, S, l, hl, hmap, hlb, hlS, hlt, hcur⟩ := hin
  have hload : st.heap.nodes[l]? = some (st.heap.nodes[l]) := List.getElem?_eq_getElem hlt
  obtain ⟨hp, hins, hl1, hd, _⟩ := insert_spec st.heap S l _ hl hlS hload
  refine ⟨l, hp, S ++ [l], hlb, hins, hl1, ?_⟩
  rw [List.map_append, List.map_singleton, hd.2 l, hcur, ← hmap]
  congr 1
  apply List.map_congr_left
  intro k _
  exact hd.2 k

/-- The iteration at a closing brace that white space follows. -/
theorem lease_step_close (env : Env) (recs : List Lease) (cur : Lease) (st : Parser) (d : Nat)
    (rest : List Nat) (hin : Inside recs cur st)
    (hi : st.input = CHAR_CURLY_BRACE_END :: d :: rest) (hd : isspace d = true) :
    ∃ st1, lease_step env st = Except.ok st1 ∧ st1.input = rest ∧
      Outside (recs ++ [cur]) st1 := by
  obtain ⟨l, hp, S, hlb, hins, hl1, hmap⟩ := inside_insert recs cur st hin
  obtain ⟨he, hb, _⟩ := hin
  rw [lease_step_invalid env st _ (get_token_close st d rest l hp he hb hlb hins hi hd)]
  exact ⟨_, rfl, rfl, he, rfl, S, hl1, hmap⟩

/-- The iteration at a closing brace that ends the file. -/
theorem lease_step_close_eof (env : Env) (recs : List Lease) (cur : Lease) (st : Parser)
    (hin : Inside recs cur st) (hi : st.input = [CHAR_CURLY_BRACE_END]) :
    ∃ st1 S, lease_step env st = Except.ok st1 ∧ st1.eof = true ∧
      Linked st1.heap S ∧ S.map st1.heap.lease = recs ++ [cur] := by
  obtain ⟨l, hp, S, hlb, hins, hl1, hmap⟩ := inside_insert recs cur st hin
  obtain ⟨he, hb, _⟩ := hin
  rw [lease_step_invalid env st _ (get_token_close_eof st l hp he hb hlb hins hi)]
  exact ⟨_, S, rfl, rfl, hl1, hmap⟩

/-- The iteration at the end of the file, outside a block. -/
theorem lease_step_eof (env : Env) (recs : List Lease) (st : Parser)
    (ho : Outside recs st) (hi : st.input = []) :
    ∃ st1 S, lease_step env st = Except.ok st1 ∧ st1.eof = true ∧
      Linked st1.heap S ∧ S.map st1.heap.lease = recs := by
  obtain ⟨_, _, S, hl, hmap⟩ := ho
  rw [lease_step_invalid env st _ (get_token_eof st hi)]
  exact ⟨_, S, rfl, rfl, hl, hmap⟩

/-- The directives of a block are read one after the other. -/
theorem reach_body (env : Env) (recs : List Lease) (ds : List (List Nat × Directive)) :
    ∀ (cur : Lease) (st : Parser) (rest : List Nat), Inside recs cur st →
      st.input = render_body ds ++ rest → rest ≠ [] → (∀ gd ∈ ds, blank gd.1 ∧ gd.2.wf) →
      ∃ st1, Reach env st st1 ∧ st1.input = rest ∧
        Inside recs ((ds.map Prod.snd).foldl (Directive.apply env) cur) st1 := by
  induction ds with
  | nil =>
    intro cur st rest hin hi _ _
    exact ⟨st, Reach.start, hi, hin⟩
  | cons gd ds ih =>
    intro cur st rest hin hi hrest hwf
    obtain ⟨gap, d⟩ := gd
    obtain ⟨hgap, hd⟩ := hwf (gap, d) (List.mem_cons_self _ _)
    have hi1 : st.input = gap ++ (d.render ++ (render_body ds ++ rest)) := by
      rw [hi]
      simp [render_body, List.append_assoc]
    obtain ⟨st1, hr1, hi2, ha1⟩ := reach_blank env gap st _ hin.1 hi1 hgap
    have hin1 := inside_agree recs cur st st1 ha1 hin
    have hne : render_body ds ++ rest ≠ [] := by
      intro hc
      exact hrest (List.append_eq_nil.1 hc).2
    obtain ⟨st2, hs2, hi3, hin2⟩ := lease_step_directive env recs cur st1 d _ hin1 hi2 hd hne
    obtain ⟨st3, hr3, hi4, hin3⟩ := ih _ st2 rest hin2 hi3 hrest
      (fun x hx => hwf x (List.mem_cons_of_mem _ hx))
    refine ⟨st3, ?_, hi4, hin3⟩
    exact reach_trans env _ _ _ hr1 (reach_trans env _ _ _ (reach_one env _ _ hs2 hin2.1) hr3)

/-- A well-formed block is read up to its closing brace, and the lease of the
block then holds the record of the block. -/
theorem reach_block (env : Env) (recs : List Lease) (b : Block) (st : Parser) (rest : List Nat)
    (ho : Outside recs st) (hi : st.input = b.render ++ rest) (hwf : b.wf) :
    ∃ st1, Reach env st st1 ∧ st1.input = CHAR_CURLY_BRACE_END :: (b.after ++ rest) ∧
      Inside recs (b.record env) st1 := by
  obtain ⟨hip, hbody, hclose, _⟩ := hwf
  have hi1 : st.input = bytes "lease " ++ (b.ip ++ (32 :: 123 ::
      (render_body b.body ++ (b.close ++ (CHAR_CURLY_BRACE_END :: (b.after ++ rest)))))) := by
    rw [hi]
    simp [Block.render, List.append_assoc, CHAR_CURLY_BRACE_END]
  obtain ⟨st1, hs1, hi2, hin1⟩ := lease_step_header env recs st b.ip _ ho hi1 hip
  obtain ⟨st2, hr2, hi3, hin2⟩ := reach_body env recs b.body _ st1 _ hin1 hi2 (by simp) hbody
  obtain ⟨st3, hr3, hi4, ha3⟩ := reach_blank env b.close st2 _ hin2.1 hi3 hclose
  refine ⟨st3, ?_, hi4, inside_agree recs _ st2 st3 ha3 hin2⟩
  exact reach_trans env _ _ _ (reach_one env _ _ hs1 hin1.1) (reach_trans env _ _ _ hr2 hr3)

theorem finishes_of_reach (env : Env) (st st1 : Parser) (recs : List Lease)
    (hr : Reach env st st1) (hf : Finishes env st1 recs) : Finishes env st recs := by
  obtain ⟨s1, s2, S, h1, h2, h3, h4⟩ := hf
  exact ⟨s1, s2, S, reach_trans env _ _ _ hr h1, h2, h3, h4⟩

/-- A well-formed sequence of blocks is read to the end of the file, and the
lease list gets the record of each block, in their order. -/
theorem finishes_blocks (env : Env) (blocks : List Block) :
    ∀ (recs : List Lease) (st : Parser), Outside recs st → st.input = render_blocks blocks →
      wf_blocks blocks → Finishes env st (recs ++ blocks.map (Block.record env)) := by
  induction blocks with
  | nil =>
    intro recs st ho hi _
    obtain ⟨st1, S, hs, he, hl, hmap⟩ := lease_step_eof env recs st ho hi
    exact ⟨st, st1, S, Reach.start, hs, he, hl, by simpa using hmap⟩
  | cons b bs ih =>
    intro recs st ho hi hwf
    have hbwf : b.wf := by
      cases bs with
      | nil => exact hwf
      | cons b1 bs => exact hwf.1
    obtain ⟨st1, hr1, hi1, hin1⟩ := reach_block env recs b st (render_blocks bs) ho hi hbwf
    cases hafter : b.after with
    | nil =>
      cases bs with
      | nil =>
        rw [hafter] at hi1
        obtain ⟨st2, S, hs, he, hl, hmap⟩ := lease_step_close_eof env recs _ st1 hin1 hi1
        exact ⟨st1, st2, S, hr1, hs, he, hl, by simpa using hmap⟩
      | cons b1 bs => exact absurd hafter hwf.2.1
    | cons c ws =>
      rw [hafter] at hi1
      have hblank : blank (c :: ws) := by
        rw [← hafter]
        exact hbwf.2.2.2
      obtain ⟨st2, hs2, hi2, ho2⟩ := lease_step_close env recs _ st1 c (ws ++ render_blocks bs)
        hin1 hi1 (hblank c (List.mem_cons_self _ _))
      obtain ⟨st3, hr3, hi3, ha3⟩ := reach_blank env ws st2 _ ho2.1 hi2
        (fun x hx => hblank x (List.mem_cons_of_mem _ hx))
      have ho3 := outside_agree _ st2 st3 ha3 ho2
      have hwf1 : wf_blocks bs := by
        cases bs with
        | nil => trivial
        | cons b1 bs => exact hwf.2.2
      have hfin := ih _ st3 ho3 hi3 hwf1
      have heq : recs ++ (b :: bs).map (Block.record env) =
          recs ++ [Block.record env b] ++ bs.map (Block.record env) := by simp
      rw [heq]
      refine finishes_of_reach env st st3 _ ?_ hfin
      exact reach_trans env _ _ _ hr1 (reach_trans env _ _ _ (reach_one env _ _ hs2 ho2.1) hr3)

theorem outside_init (input : List Nat) : Outside [] (parser_init input) :=
  ⟨rfl, rfl, [], linked_init, rfl⟩

theorem parse_of_finishes (env : Env) (input : List Nat) (recs : List Lease)
    (hf : Finishes env (parser_init input) recs) :
    ∃ st S, parse_leases env input = Except.ok st ∧ Linked st.heap S ∧
      S.map st.heap.lease = recs := by
  obtain ⟨s1, s2, S, h1, h2, h3, h4, h5⟩ := hf
  exact ⟨s2, S, parse_of_reach_ok env input s1 s2 h1 h2 h3, h4, h5⟩

/-- The run on a well-formed file ends at the end of the file, with the
records of its blocks as the lease list. -/
theorem parse_blocks (env : Env) (lead : List Nat) (blocks : List Block)
    (hlead : blank lead) (hwf : wf_blocks blocks) :
    ∃ st S, parse_leases env (lead ++ render_blocks blocks) = Except.ok st ∧
      Linked st.heap S ∧ S.map st.heap.lease = blocks.map (Block.record env) := by
  apply parse_of_finishes
  obtain ⟨st1, hr, hi, ha⟩ := reach_blank env lead (parser_init (lead ++ render_blocks blocks)) _
    rfl rfl hlead
  have ho := outside_agree _ _ st1 ha (outside_init (lead ++ render_blocks blocks))
  exact finishes_of_reach env _ st1 _ hr (by simpa using finishes_blocks env blocks [] st1 ho hi hwf)

theorem parse_lease_file_rows (env : Env) (o : Opts) (tnow : Int) (input : List Nat)
    (st : Parser) (S : List Nat) (hp : parse_leases env input = Except.ok st)
    (hl : Linked st.heap S) :
    parse_lease_file env o tnow input = Except.ok
      ((if o.dflag = true then
          (S.map st.heap.lease).filter (fun r => decide (kept (S.map st.heap.lease) r))
        else S.map st.heap.lease).filter (last_filter o tnow)) := by
  unfold parse_lease_file
  rw [hp]
  simp only
  cases hd : o.dflag with
  | false =>
    simp only [Bool.false_eq_true, if_false]
    exact output_leases_linked o tnow st.heap S hl
  | true =>
    simp only [if_true]
    obtain ⟨h1, S1, hrd, hl1, hmap⟩ := remove_duplicates_list st.heap S hl
    rw [hrd]
    simp only
    rw [output_leases_linked o tnow h1 S1 hl1, hmap]

theorem apply_ipaddr (env : Env) (ds : List Directive) :
    ∀ r : Lease, (ds.foldl (Directive.apply env) r).ipaddr = r.ipaddr := by
  induction ds with
  | nil => intro r; rfl
  | cons d ds ih =>
    intro r
    rw [List.foldl_cons, ih]
    cases d <;> rfl

theorem apply_macaddr (env : Env) (mac : List Nat) (ds : List Directive) :
    ∀ r : Lease, (∀ m, Directive.hardware_ethernet m ∈ ds → m = mac) →
      (r.macaddr = some mac ∨ Directive.hardware_ethernet mac ∈ ds) →
      (ds.foldl (Directive.apply env) r).macaddr = some mac := by
  induction ds with
  | nil =>
    intro r _ h
    rcases h with h | h
    · exact h
    · cases h
  | cons d ds ih =>
    intro r hall h
    rw [List.foldl_cons]
    apply ih _ (fun m hm => hall m (List.mem_cons_of_mem _ hm))
    cases d with
    | hardware_ethernet m =>
      left
      rw [hall m (List.mem_cons_self _ _)]
      rfl
    | starts w t =>
      rcases h with h | h
      · exact Or.inl h
      · rcases List.mem_cons.1 h with h | h
        · cases h
        · exact Or.inr h
    | ends w t =>
      rcases h with h | h
      · exact Or.inl h
      · rcases List.mem_cons.1 h with h | h
        · cases h
        · exact Or.inr h
    | client_hostname n =>
      rcases h with h | h
      · exact Or.inl h
      · rcases List.mem_cons.1 h with h | h
        · cases h
        · exact Or.inr h
    | abandoned =>
      rcases h with h | h
      · exact Or.inl h
      · rcases List.mem_cons.1 h with h | h
        · cases h
        · exact Or.inr h

theorem apply_client (env : Env) (name : List Nat) (ds : List Directive) :
    ∀ r : Lease, (∀ n, Directive.client_hostname n ∈ ds → n = name) →
      (r.client = some name ∨ Directive.client_hostname name ∈ ds) →
      (ds.foldl (Directive.apply env) r).client = some name := by
  induction ds with
  | nil =>
    intro r _ h
    rcases h with h | h
    · exact h
    · cases h
  | cons d ds ih =>
    intro r hall h
    rw [List.foldl_cons]
    apply ih _ (fun m hm => hall m (List.mem_cons_of_mem _ hm))
    cases d with
    | client_hostname n =>
      left
      rw [hall n (List.mem_cons_self _ _)]
      rfl
    | starts w t =>
      rcases h with h | h
      · exact Or.inl h
      · rcases List.mem_cons.1 h with h | h
        · cases h
        · exact Or.inr h
    | ends w t =>
      rcases h with h | h
      · exact Or.inl h
      · rcases List.mem_cons.1 h with h | h
        · cases h
        · exact Or.inr h
    | hardware_ethernet m =>
      rcases h with h | h
      · exact Or.inl h
      · rcases List.mem_cons.1 h with h | h
        · cases h
        · exact Or.inr h
    | abandoned =>
      rcases h with h | h
      · exact Or.inl h
      · rcases List.mem_cons.1 h with h | h
        · cases h
        · exact Or.inr h

/-- The fields of a record other than the times do not depend on what
`mktime` returns. -/
theorem apply_timeless (env1 env2 : Env) (ds : List Directive) :
    ∀ r1 r2 : Lease, r1.timeless = r2.timeless →
      (ds.foldl (Directive.apply env1) r1).timeless =
        (ds.foldl (Directive.apply env2) r2).timeless := by
  induction ds with
  | nil => intro r1 r2 h; exact h
  | cons d ds ih =>
    intro r1 r2 h
    rw [List.foldl_cons, List.foldl_cons]
    apply ih
    simp only [Lease.timeless, Lease.mk.injEq, true_and] at h
    obtain ⟨h1, h2, h3, h4, h5, h6⟩ := h
    cases d <;> simp [Directive.apply, Lease.timeless, h1, h2, h3, h4, h5, h6]

theorem record_timeless (env1 env2 : Env) (b : Block) :
    (b.record env1).timeless = (b.record env2).timeless :=
  apply_timeless env1 env2 _ _ _ rfl

theorem records_timeless (env1 env2 : Env) (bs : List Block) :
    (bs.map (Block.record env1)).map Lease.timeless =
      (bs.map (Block.record env2)).map Lease.timeless := by
  rw [List.map_map, List.map_map]
  apply List.map_congr_left
  intro b _
  exact record_timeless env1 env2 b

/-- C4 (what the code does): for every file in the layout that `dhcpd`
writes, that is white space and then blocks `lease IP {` directive* `}` with
the tokens of the header and of each directive separated by one blank, each
directive ended by `;`, white space between the directives and around the
blocks, literals of fewer than 2048 bytes without white space, quote,
semicolon, brace or `#`, and times with a year below 9999:
`parse_lease_file` returns without error (it prints the rows of the records
that pass the options), and the lease list after parsing holds exactly one
record for each block, in the order of the blocks, with the address, the MAC
address, the client name and the abandoned mark of its block. -/
theorem parse_well_formed (env : Env) (o : Opts) (tnow : Int) (lead : List Nat)
    (blocks : List Block) (hlead : blank lead) (hwf : wf_blocks blocks) :
    ∃ recs, parsed_list env (lead ++ render_blocks blocks) = Except.ok recs ∧
      recs.length = blocks.length ∧
      recs.map Lease.ipaddr = blocks.map (fun b => some b.ip) ∧
      recs.map Lease.timeless = blocks.map (fun b => (b.record env).timeless) ∧
      parse_lease_file env o tnow (lead ++ render_blocks blocks) = Except.ok
        ((if o.dflag = true then recs.filter (fun r => decide (kept recs r)) else recs).filter
          (last_filter o tnow)) := by
  obtain ⟨st, S, hp, hl, hmap⟩ := parse_blocks env lead blocks hlead hwf
  refine ⟨blocks.map (Block.record env), ?_, by simp, ?_, by simp, ?_⟩
  · unfold parsed_list
    rw [hp]
    simp only
    rw [lease_list_linked st.heap S hl, hmap]
  · rw [List.map_map]
    apply List.map_congr_left
    intro b _
    simp only [Function.comp, Block.record]
    rw [apply_ipaddr]
  · rw [parse_lease_file_rows env o tnow _ st S hp hl, hmap]

/-- C4 (witness): a file of three blocks, on several lines and on one line. -/
theorem parse_well_formed_witness :
    blank [10] ∧ wf_blocks [block_lines, block_abandoned, block_host1] ∧
    ∃ recs, parsed_list env_utc ([10] ++ render_blocks [block_lines, block_abandoned, block_host1]) =
        Except.ok recs ∧
      recs.length = [block_lines, block_abandoned, block_host1].length ∧
      recs.map Lease.ipaddr =
        [block_lines, block_abandoned, block_host1].map (fun b => some b.ip) ∧
      recs.map Lease.timeless =
        [block_lines, block_abandoned, block_host1].map (fun b => (b.record env_utc).timeless) ∧
      parse_lease_file env_utc opts_none 0
          ([10] ++ render_blocks [block_lines, block_abandoned, block_host1]) = Except.ok
        ((if opts_none.dflag = true then recs.filter (fun r => decide (kept recs r))
          else recs).filter (last_filter opts_none 0)) :=
  ⟨by decide, by decide,
    parse_well_formed env_utc opts_none 0 [10] [block_lines, block_abandoned, block_host1]
      (by decide) (by decide)⟩

set_option maxRecDepth 100000 in
/-- C4 (counterexample): white space between the tokens is not enough. With
a newline between the address and the opening brace the file of one empty
block is rejected ("unexpected newline"), whatever the environment and the
options, while with a blank there it parses to one record; and with two
blanks after `starts` the text handed to `parse_date_string` starts with a
blank, nothing is copied to `datebuf`, and with zero bytes there the file is
rejected ("time conversion failed"). -/
theorem header_newline_aborts :
    (∀ (env : Env) (o : Opts) (tnow : Int),
      parse_lease_file env o tnow (bytes "lease 10.0.0.5\n\x7b\n\x7d\n") =
        Except.error Abort.unexpectedNewline) ∧
    (∀ env : Env, parsed_list env (bytes "lease 10.0.0.5 \x7b\n\x7d\n") =
      Except.ok [{ lease_zero with ipaddr := some (bytes "10.0.0.5") }]) ∧
    parse_lease_file env_utc opts_none 0
        (bytes "lease 10.0.0.5 \x7b\n  starts  2 2024/01/01 10:00:00;\n\x7d\n") =
      Except.error Abort.timeConversion ∧
    parsed_list env_utc
        (bytes "lease 10.0.0.5 \x7b\n  starts 2 2024/01/01 10:00:00;\n\x7d\n") =
      Except.ok [{ lease_zero with ipaddr := some (bytes "10.0.0.5"), start := 1704103200 }] :=
  ⟨fun env o tnow => parse_lease_file_error env o tnow _ _ rfl, fun _ => rfl, rfl, rfl⟩

theorem apply_macaddr_last (env : Env) (mac : List Nat) (ds1 ds2 : List Directive) (r : Lease)
    (h2 : ∀ m, Directive.hardware_ethernet m ∉ ds2) :
    ((ds1 ++ Directive.hardware_ethernet mac :: ds2).foldl (Directive.apply env) r).macaddr =
      some mac := by
  rw [List.foldl_append, List.foldl_cons]
  exact apply_macaddr env mac ds2 _ (fun m hm => absurd hm (h2 m)) (Or.inl rfl)

theorem apply_client_last (env : Env) (name : List Nat) (ds1 ds2 : List Directive) (r : Lease)
    (h2 : ∀ n, Directive.client_hostname n ∉ ds2) :
    ((ds1 ++ Directive.client_hostname name :: ds2).foldl (Directive.apply env) r).client =
      some name := by
  rw [List.foldl_append, List.foldl_cons]
  exact apply_client env name ds2 _ (fun n hn => absurd hn (h2 n)) (Or.inl rfl)

/-- C5 (what the code does): in every file in the layout that `dhcpd` writes
(one blank between the tokens of a header and of a directive, literals of
fewer than 2048 bytes), for every block `lease IP { ... }` whose last
`hardware ethernet` directive is `hardware ethernet M;` and whose last
`client-hostname` directive is `client-hostname "H";`, the record produced
for that block, at the position of the block in the lease list, has
`ipaddr` = IP, `macaddr` = M and `client` = H, the quotes stripped. -/
theorem block_record_fields (env : Env) (lead : List Nat) (blocks : List Block) (j : Nat)
    (b : Block) (mac name : List Nat) (dm1 dm2 dn1 dn2 : List Directive)
    (hlead : blank lead) (hwf : wf_blocks blocks) (hj : blocks[j]? = some b)
    (hm : b.body.map Prod.snd = dm1 ++ Directive.hardware_ethernet mac :: dm2)
    (hm2 : ∀ m, Directive.hardware_ethernet m ∉ dm2)
    (hn : b.body.map Prod.snd = dn1 ++ Directive.client_hostname name :: dn2)
    (hn2 : ∀ n, Directive.client_hostname n ∉ dn2) :
    ∃ recs r, parsed_list env (lead ++ render_blocks blocks) = Except.ok recs ∧
      recs.length = blocks.length ∧ recs[j]? = some r ∧
      r.ipaddr = some b.ip ∧ r.macaddr = some mac ∧ r.client = some name := by
  obtain ⟨st, S, hp, hl, hmap⟩ := parse_blocks env lead blocks hlead hwf
  refine ⟨blocks.map (Block.record env), b.record env, ?_, by simp, by simp [hj], ?_, ?_, ?_⟩
  · unfold parsed_list
    rw [hp]
    simp only
    rw [lease_list_linked st.heap S hl, hmap]
  · unfold Block.record
    rw [apply_ipaddr]
  · unfold Block.record
    rw [hm]
    exact apply_macaddr_last env mac dm1 dm2 _ hm2
  · unfold Block.record
    rw [hn]
    exact apply_client_last env name dn1 dn2 _ hn2

set_option maxRecDepth 100000 in
/-- C5 (witness): the one-line file of the lease of `host1` is the text of
one well-formed block, and it parses to exactly one record, with the address
`10.0.0.5`, the MAC address `aa:bb:cc:dd:ee:ff` and the client `host1`. -/
theorem block_record_fields_witness :
    [] ++ render_blocks [block_host1] = file_host1 ∧
    parsed_list env_utc file_host1 =
      Except.ok [{ lease_host1 with start := 1704103200, end_ := 1704708000 }] ∧
    blank [] ∧ wf_blocks [block_host1] ∧ [block_host1][0]? = some block_host1 ∧
    ∃ recs r, parsed_list env_utc ([] ++ render_blocks [block_host1]) = Except.ok recs ∧
      recs.length = [block_host1].length ∧ recs[0]? = some r ∧
      r.ipaddr = some (bytes "10.0.0.5") ∧ r.macaddr = some (bytes "aa:bb:cc:dd:ee:ff") ∧
      r.client = some (bytes "host1") :=
  ⟨by decide, rfl, by decide, by decide, rfl,
    block_record_fields env_utc [] [block_host1] 0 block_host1 (bytes "aa:bb:cc:dd:ee:ff")
      (bytes "host1")
      [Directive.starts 50 stamp_start, Directive.ends 50 stamp_end]
      [Directive.client_hostname (bytes "host1")]
      [Directive.starts 50 stamp_start, Directive.ends 50 stamp_end,
        Directive.hardware_ethernet (bytes "aa:bb:cc:dd:ee:ff")] []
      (by decide) (by decide) rfl (by decide) (by intro m hm; simp at hm) (by decide)
      (by intro n hn; simp at hn)⟩

set_option maxRecDepth 100000 in
/-- C5 (counterexample): a block of the form
`lease IP { ... hardware ethernet M; client-hostname "H"; ... }` whose record
does not have `macaddr` = M. With a second `hardware ethernet` directive
after the first the record has the address of the second; and with two
blanks between `hardware` and `ethernet` the second `get_token` of the
`hardware` case reads the empty word, the directive is dropped and `macaddr`
stays unset. -/
theorem block_record_other_mac :
    (∀ env : Env, parsed_list env (bytes
        "lease 10.0.0.5 \x7b hardware ethernet aa:bb; client-hostname \"h\"; hardware ethernet cc:dd; \x7d") =
      Except.ok [{ lease_zero with ipaddr := some (bytes "10.0.0.5"),
                                   macaddr := some (bytes "cc:dd"),
                                   client := some (bytes "h") }]) ∧
    (∀ env : Env, parsed_list env (bytes
        "lease 10.0.0.5 \x7b hardware  ethernet aa:bb; client-hostname \"h\"; \x7d") =
      Except.ok [{ lease_zero with ipaddr := some (bytes "10.0.0.5"),
                                   macaddr := none,
                                   client := some (bytes "h") }]) :=
  ⟨fun _ => rfl, fun _ => rfl⟩

/-! ## The keyword table -/

theorem casecmp_congr (a : List Nat) :
    ∀ b c : List Nat, a.map tolower = b.map tolower → casecmp a c = casecmp b c := by
  induction a with
  | nil =>
    intro b c h
    cases b with
    | nil => rfl
    | cons y bs => simp at h
  | cons x as ih =>
    intro b c h
    cases b with
    | nil => simp at h
    | cons y bs =>
      simp only [List.map_cons, List.cons.injEq] at h
      cases c with
      | nil => simp only [casecmp, h.1]
      | cons z cs => simp only [casecmp, h.1, ih bs cs h.2]

theorem bsearch_loop_congr (w v : List Nat) (h : ∀ p, keyword_cmp w p = keyword_cmp v p) :
    ∀ (fuel : Nat) (base : List (List Nat × Nat)) (lim : Nat),
      bsearch_loop w fuel base lim = bsearch_loop v fuel base lim := by
  intro fuel
  induction fuel with
  | zero => intro base lim; rfl
  | succ n ih =>
    intro base lim
    simp only [bsearch_loop, h, ih]

/-- A word that equals a keyword, ignoring case, has the value of the keyword. -/
theorem lookup_complete (w : List Nat) (k : List Nat × Nat) (hk : k ∈ keywords)
    (h : (cstr w).map tolower = (cstr k.1).map tolower) : lookup w = k.2 := by
  have hc : ∀ p, keyword_cmp w p = keyword_cmp k.1 p := by
    intro p
    unfold keyword_cmp strcasecmp
    exact casecmp_congr _ _ _ h
  unfold lookup bsearch
  rw [bsearch_loop_congr w k.1 hc]
  exact (kw_lookup k hk).1

theorem keywords_cstr : ∀ k ∈ keywords, cstr k.1 = k.1 := by decide

theorem keywords_values :
    ∀ k ∈ keywords, ∀ k1 ∈ keywords, k.2 = k1.2 → k = k1 := by decide

theorem keywords_valid : ∀ k ∈ keywords, k.2 ≠ TOK_INVALID_TOKEN := by decide

/-- C13: for every string `w` (the bytes before its first NUL count) and every
keyword `k` of the table, `lookup w` is the value of `k` exactly when `w`
equals `k` after `tolower` on every byte; `lookup w` is `TOK_INVALID_TOKEN`
exactly when `w` equals no keyword in that way, so for the empty string; and
the table is in strictly ascending order for `keyword_cmp`, the comparison
that `bsearch` uses. -/
theorem lookup_keyword (w : List Nat) :
    (∀ k ∈ keywords, (lookup w = k.2 ↔ (cstr w).map tolower = k.1.map tolower)) ∧
    (lookup w = TOK_INVALID_TOKEN ↔
      ∀ k ∈ keywords, (cstr w).map tolower ≠ k.1.map tolower) ∧
    lookup [] = TOK_INVALID_TOKEN ∧
    keywords.map Prod.snd = [TOK_ABANDONED, TOK_CLIENT_HOSTNAME, TOK_ENDS, TOK_ETHERNET,
      TOK_HARDWARE, TOK_LEASE, TOK_STARTS] ∧
    List.Pairwise (fun a b => keyword_cmp a.1 b < 0) keywords := by
  have hiff : ∀ k ∈ keywords, (lookup w = k.2 ↔ (cstr w).map tolower = k.1.map tolower) := by
    intro k hk
    constructor
    · intro h
      have hne : lookup w ≠ TOK_INVALID_TOKEN := by
        rw [h]
        exact keywords_valid k hk
      obtain ⟨k1, hk1, h0, h1⟩ := lookup_sound w hne
      have : k1 = k := keywords_values k1 hk1 k hk (h1.symm.trans h)
      subst this
      rw [strcasecmp_eq_zero, keywords_cstr k1 hk1] at h0
      exact h0
    · intro h
      apply lookup_complete w k hk
      rw [keywords_cstr k hk]
      exact h
  refine ⟨hiff, ⟨?_, ?_⟩, by decide, by decide, by decide⟩
  · intro h k hk hc
    exact keywords_valid k hk (((hiff k hk).2 hc).symm.trans h)
  · intro h
    apply lookup_invalid
    intro k hk hc
    rw [strcasecmp_eq_zero, keywords_cstr k hk] at hc
    exact h k hk hc

/-! ## What every loop over `get_char` keeps -/

theorem seek_char_loop_keeps (P : Parser → Prop)
    (hg : ∀ st c st1, P st → get_char st = Except.ok (c, st1) → P st1) (chr : Nat) :
    ∀ (fuel : Nat) (st st' : Parser), P st → seek_char_loop chr fuel st = Except.ok st' →
      P st' := by
  intro fuel
  induction fuel with
  | zero => intro st st' _ h; simp [seek_char_loop] at h
  | succ n ih =>
    intro st st' hp h
    unfold seek_char_loop at h
    cases hgc : get_char st with
    | error a => simp [hgc] at h
    | ok r =>
      obtain ⟨c, st1⟩ := r
      have hp1 := hg st c st1 hp hgc
      cases c with
      | none => simp [hgc] at h
      | some c =>
        simp only [hgc] at h
        split at h
        · cases h; exact hp1
        · split at h
          · cases h
          · exact ih _ _ hp1 h

theorem read_string_to_semicolon_loop_keeps (P : Parser → Prop)
    (hg : ∀ st c st1, P st → get_char st = Except.ok (c, st1) → P st1)
    (hb : ∀ st b, P st → P { st with buffer := b }) :
    ∀ (fuel : Nat) (st st' : Parser), P st →
      read_string_to_semicolon_loop fuel st = Except.ok st' → P st' := by
  intro fuel
  induction fuel with
  | zero => intro st st' _ h; simp [read_string_to_semicolon_loop] at h
  | succ n ih =>
    intro st st' hp h
    unfold read_string_to_semicolon_loop at h
    cases hgc : get_char st with
    | error a => simp [hgc] at h
    | ok r =>
      obtain ⟨c, st1⟩ := r
      have hp1 := hg st c st1 hp hgc
      cases c with
      | none => simp [hgc] at h
      | some c =>
        simp only [hgc] at h
        split at h
        · cases h
        · split at h
          · cases h; exact hp1
          · split at h
            · cases h
            · exact ih _ _ (hb _ _ hp1) h

theorem parse_address_loop_keeps (P : Parser → Prop)
    (hg : ∀ st c st1, P st → get_char st = Except.ok (c, st1) → P st1)
    (hb : ∀ st b, P st → P { st with buffer := b }) :
    ∀ (fuel : Nat) (st st' : Parser), P st → parse_address_loop fuel st = Except.ok st' →
      P st' := by
  intro fuel
  induction fuel with
  | zero => intro st st' _ h; simp [parse_address_loop] at h
  | succ n ih =>
    intro st st' hp h
    unfold parse_address_loop at h
    cases hgc : get_char st with
    | error a => simp [hgc] at h
    | ok r =>
      obtain ⟨c, st1⟩ := r
      have hp1 := hg st c st1 hp hgc
      cases c with
      | none => simp [hgc] at h
      | some c =>
        simp only [hgc] at h
        split at h
        · cases h
        · split at h
          · cases h; exact hp1
          · split at h
            · split at h
              · cases h
              · exact ih _ _ (hb _ _ hp1) h
            · exact ih _ _ hp1 h

theorem parse_client_hostname_loop_keeps (P : Parser → Prop)
    (hg : ∀ st c st1, P st → get_char st = Except.ok (c, st1) → P st1)
    (hb : ∀ st b, P st → P { st with buffer := b }) :
    ∀ (fuel : Nat) (st st' : Parser), P st →
      parse_client_hostname_loop fuel st = Except.ok st' → P st' := by
  intro fuel
  induction fuel with
  | zero => intro st st' _ h; simp [parse_client_hostname_loop] at h
  | succ n ih =>
    intro st st' hp h
    unfold parse_client_hostname_loop at h
    cases hgc : get_char st with
    | error a => simp [hgc] at h
    | ok r =>
      obtain ⟨c, st1⟩ := r
      have hp1 := hg st c st1 hp hgc
      cases c with
      | none => simp [hgc] at h
      | some c =>
        simp only [hgc] at h
        split at h
        · cases h
        · split at h
          · exact ih _ _ hp1 h
          · split at h
            · cases h; exact hp1
            · split at h
              · split at h
                · cases h
                · exact ih _ _ (hb _ _ hp1) h
              · exact ih _ _ hp1 h

theorem skip_comment_loop_keeps (P : Parser → Prop)
    (hg : ∀ st c st1, P st → get_char st = Except.ok (c, st1) → P st1) :
    ∀ (fuel : Nat) (st st' : Parser), P st → skip_comment_loop fuel st = Except.ok st' →
      P st' := by
  intro fuel
  induction fuel with
  | zero => intro st st' _ h; simp [skip_comment_loop] at h
  | succ n ih =>
    intro st st' hp h
    unfold skip_comment_loop at h
    cases hgc : get_char st with
    | error a => simp [hgc] at h
    | ok r =>
      obtain ⟨c, st1⟩ := r
      have hp1 := hg st c st1 hp hgc
      cases c with
      | none => simp [hgc] at h
      | some c =>
        simp only [hgc] at h
        split at h
        · cases h; exact hp1
        · exact ih _ _ hp1 h

theorem get_token_loop_keeps (P : Parser → Prop)
    (hg : ∀ st c st1, P st → get_char st = Except.ok (c, st1) → P st1)
    (hb : ∀ st b, P st → P { st with buffer := b }) :
    ∀ (fuel : Nat) (st : Parser) (b : Bool) (st' : Parser), P st →
      get_token_loop fuel st = Except.ok (b, st') → P st' := by
  intro fuel
  induction fuel with
  | zero => intro st b st' _ h; simp [get_token_loop] at h
  | succ n ih =>
    intro st b st' hp h
    unfold get_token_loop at h
    cases hgc : get_char st with
    | error a => simp [hgc] at h
    | ok r =>
      obtain ⟨c, st1⟩ := r
      have hp1 := hg st c st1 hp hgc
      cases c with
      | none =>
        simp only [hgc, Except.ok.injEq, Prod.mk.injEq] at h
        obtain ⟨_, rfl⟩ := h
        exact hp1
      | some c =>
        simp only [hgc] at h
        split at h
        · simp only [Except.ok.injEq, Prod.mk.injEq] at h
          obtain ⟨_, rfl⟩ := h
          exact hp1
        · split at h
          · cases h
          · split at h
            · cases hs : skip_comment_loop n { st1 with buffer := st1.buffer ++ [c] } with
              | error a => simp [hs] at h
              | ok st3 =>
                simp only [hs] at h
                exact ih _ _ _ (skip_comment_loop_keeps P hg n _ _ (hb _ _ hp1) hs) h
            · exact ih _ _ _ (hb _ _ hp1) h

/-! ## The invariant `Sound` -/

theorem sound_init (input : List Nat) : Sound (parser_init input) :=
  ⟨⟨[], linked_init⟩, fun h => by cases h⟩

theorem sound_get_char (st : Parser) (c : Option Nat) (st1 : Parser) (hs : Sound st)
    (h : get_char st = Except.ok (c, st1)) : Sound st1 := by
  rcases get_char_cases st _ h with ⟨hr, _⟩ | ⟨c1, rest, _, _, _, hr⟩ |
    ⟨rest, l, hp, _, _, hb, hl, hins, hr⟩
  · cases hr; exact hs
  · cases hr; exact hs
  · cases hr
    obtain ⟨S, l1, hlk, hl1, hlt, hnot⟩ := hs.2 hb
    rw [hl] at hl1
    cases hl1
    obtain ⟨h1, hins1, hlk1, _, _⟩ :=
      insert_spec st.heap S l _ hlk hnot (List.getElem?_eq_getElem hlt)
    rw [hins] at hins1
    cases hins1
    exact ⟨⟨S ++ [l], hlk1⟩, fun hc => by cases hc⟩

theorem sound_buffer (st : Parser) (b : List Nat) (hs : Sound st) :
    Sound { st with buffer := b } := hs

theorem fresh_sound (st : Parser) (h : Fresh st) : Sound st := by
  obtain ⟨S, l, hl, h1⟩ := h
  exact ⟨⟨S, hl⟩, fun _ => ⟨S, l, hl, h1⟩⟩

/-- The function `get_token` keeps the invariant, and when it returns `TOK_LEASE` the lease
it has allocated is not in the queue. -/
theorem sound_get_token (st : Parser) (tok : Nat) (st' : Parser) (hs : Sound st)
    (h : get_token st = Except.ok (tok, st')) :
    Sound st' ∧ (tok = TOK_LEASE → Fresh st') := by
  unfold get_token at h
  cases hl : get_token_loop (st.input.length + 1) { st with buffer := [], hastoken := false } with
  | error a => simp [hl] at h
  | ok r =>
    obtain ⟨b, st1⟩ := r
    have hs1 : Sound st1 :=
      get_token_loop_keeps Sound sound_get_char sound_buffer _ _ _ _
        (show Sound { st with buffer := [], hastoken := false } from hs) hl
    cases b with
    | false =>
      simp only [hl, Except.ok.injEq, Prod.mk.injEq] at h
      obtain ⟨rfl, rfl⟩ := h
      exact ⟨hs1, fun hc => by cases hc⟩
    | true =>
      simp only [hl] at h
      split at h
      · simp only [Except.ok.injEq, Prod.mk.injEq] at h
        obtain ⟨rfl, rfl⟩ := h
        exact ⟨hs1, fun hc => by cases hc⟩
      · simp only [Except.ok.injEq, Prod.mk.injEq] at h
        obtain ⟨rfl, rfl⟩ := h
        split
        · obtain ⟨S, hlk⟩ := hs1.1
          obtain ⟨a1, a2, _, _⟩ := alloc_linked st1.heap S lease_zero hlk
          have hf : Fresh { st1 with heap := (st1.heap.alloc lease_zero).1,
                                      lbuf := some (st1.heap.alloc lease_zero).2,
                                      count := st1.count + 1, hastoken := true } :=
            ⟨S, _, a1, rfl, by simp [Heap.alloc], a2⟩
          exact ⟨fresh_sound _ hf, fun _ => hf⟩
        · rename_i hne
          exact ⟨hs1, fun hc => absurd hc hne⟩

theorem fresh_set_lbuf (st st' : Parser) (f : Lease → Lease) (hf : Fresh st)
    (h : set_lbuf st f = Except.ok st') : Fresh st' := by
  obtain ⟨S, l, hlk, hl, hlt, hnot⟩ := hf
  unfold set_lbuf at h
  simp only [hl] at h
  cases he : st.heap.nodes[l]? with
  | none => simp [he] at h
  | some e =>
    simp only [he, Except.ok.injEq] at h
    subst h
    exact ⟨S, l, (setdata_linked st.heap S l e _ hlk he).1, rfl, by simpa using hlt, hnot⟩

theorem sound_set_lbuf (st st' : Parser) (f : Lease → Lease) (hs : Sound st)
    (h : set_lbuf st f = Except.ok st') : Sound st' := by
  obtain ⟨⟨S, hlk⟩, hfr⟩ := hs
  unfold set_lbuf at h
  cases hl : st.lbuf with
  | none => simp [hl] at h
  | some l =>
    simp only [hl] at h
    cases he : st.heap.nodes[l]? with
    | none => simp [he] at h
    | some e =>
      simp only [he, Except.ok.injEq] at h
      subst h
      refine ⟨⟨S, (setdata_linked st.heap S l e _ hlk he).1⟩, fun hb => ?_⟩
      obtain ⟨S1, l1, hlk1, hl1, hlt, hnot⟩ := hfr hb
      rw [hl] at hl1
      cases hl1
      exact ⟨S1, l, (setdata_linked st.heap S1 l e _ hlk1 he).1, rfl, by simpa using hlt, hnot⟩

theorem sound_peek_char (st : Parser) (c : Option Nat) (st' : Parser) (hs : Sound st)
    (h : peek_char st = Except.ok (c, st')) : Sound st' := by
  unfold peek_char at h
  rcases getc_spec st with ⟨c1, rest, _, hi, hg⟩ | ⟨_, hg⟩
  · rw [hg] at h
    simp only [Except.ok.injEq, Prod.mk.injEq] at h
    obtain ⟨_, rfl⟩ := h
    exact hs
  · rw [hg] at h
    simp only [Except.ok.injEq, Prod.mk.injEq] at h
    obtain ⟨_, rfl⟩ := h
    exact hs

theorem sound_lease_switch (env : Env) (st st' : Parser) (hs : Sound st)
    (hf : st.token = TOK_LEASE → Fresh st) (h : lease_switch env st = Except.ok st') :
    Sound st' := by
  unfold lease_switch at h
  split at h
  · rename_i ht
    split at h
    · cases h
    · cases h1 : parse_ip_address { st with inblock := true } with
      | error a => simp [h1] at h
      | ok st1 =>
        simp only [h1] at h
        by_cases hfull : buffer_full st1
        · simp [hfull] at h
        rw [if_neg hfull] at h
        cases h2 : seek_char CHAR_CURLY_BRACE_START st1 with
        | error a => simp [h2] at h
        | ok st2 =>
          simp only [h2] at h
          have s0 : Sound { st with inblock := true, buffer := [] } :=
            fresh_sound _ (show Fresh { st with inblock := true, buffer := [] } from hf ht)
          have s1 : Sound st1 :=
            parse_address_loop_keeps Sound sound_get_char sound_buffer _ _ _ s0 h1
          have s2 : Sound st2 := seek_char_loop_keeps Sound sound_get_char _ _ _ _ s1 h2
          exact sound_set_lbuf _ _ _ s2 h
  · split at h
    · cases hc : check_block_scope st with
      | error a => simp [hc] at h
      | ok u =>
        simp only [hc] at h
        cases h1 : read_string_to_semicolon st with
        | error a => simp [h1] at h
        | ok st1 =>
          simp only [h1] at h
          by_cases hfull : buffer_full st1
          · simp [hfull] at h
          rw [if_neg hfull] at h
          cases h2 : parse_date_string env st1 with
          | error a => simp [h2] at h
          | ok t =>
            simp only [h2] at h
            have s1 : Sound st1 :=
              read_string_to_semicolon_loop_keeps Sound sound_get_char sound_buffer _ _ _
                (sound_buffer st [] hs) h1
            exact sound_set_lbuf _ _ _ s1 h
    · split at h
      · cases hc : check_block_scope st with
        | error a => simp [hc] at h
        | ok u =>
          simp only [hc] at h
          cases h1 : read_string_to_semicolon st with
          | error a => simp [h1] at h
          | ok st1 =>
            simp only [h1] at h
            by_cases hfull : buffer_full st1
            · simp [hfull] at h
            rw [if_neg hfull] at h
            cases h2 : parse_date_string env st1 with
            | error a => simp [h2] at h
            | ok t =>
              simp only [h2] at h
              have s1 : Sound st1 :=
                read_string_to_semicolon_loop_keeps Sound sound_get_char sound_buffer _ _ _
                  (sound_buffer st [] hs) h1
              exact sound_set_lbuf _ _ _ s1 h
      · split at h
        · cases hc : check_block_scope st with
          | error a => simp [hc] at h
          | ok u =>
            simp only [hc] at h
            cases h1 : get_token st with
            | error a => simp [h1] at h
            | ok r =>
              obtain ⟨tmp, st1⟩ := r
              simp only [h1] at h
              have s1 := (sound_get_token _ _ _ hs h1).1
              split at h
              · cases h; exact s1
              · cases h2 : parse_ethernet_address st1 with
                | error a => simp [h2] at h
                | ok st2 =>
                  simp only [h2] at h
                  by_cases hfull : buffer_full st2
                  · simp [hfull] at h
                  rw [if_neg hfull] at h
                  have s2 : Sound st2 :=
                    parse_address_loop_keeps Sound sound_get_char sound_buffer _ _ _
                      (sound_buffer st1 [] s1) h2
                  exact sound_set_lbuf _ _ _ s2 h
        · split at h
          · cases hc : check_block_scope st with
            | error a => simp [hc] at h
            | ok u =>
              simp only [hc] at h
              cases h1 : parse_client_hostname st with
              | error a => simp [h1] at h
              | ok st1 =>
                simp only [h1] at h
                by_cases hfull : buffer_full st1
                · simp [hfull] at h
                rw [if_neg hfull] at h
                have s1 : Sound st1 :=
                  parse_client_hostname_loop_keeps Sound sound_get_char sound_buffer _ _ _
                    (sound_buffer st [] hs) h1
                exact sound_set_lbuf _ _ _ s1 h
          · split at h
            · cases h1 : peek_char st with
              | error a => simp [h1] at h
              | ok r =>
                obtain ⟨c, st1⟩ := r
                simp only [h1] at h
                exact sound_set_lbuf _ _ _ (sound_peek_char _ _ _ hs h1) h
            · cases h
              exact hs

theorem sound_lease_step (env : Env) (st st' : Parser) (hs : Sound st)
    (h : lease_step env st = Except.ok st') : Sound st' := by
  unfold lease_step at h
  cases hg : get_token st with
  | error a => simp [hg] at h
  | ok r =>
    obtain ⟨tok, st0⟩ := r
    obtain ⟨s0, hf⟩ := sound_get_token _ _ _ hs hg
    simp only [hg] at h
    split at h
    · cases h
      exact s0
    · split at h
      · cases h
      · split at h
        · cases h
        · exact sound_lease_switch env { st0 with token := tok } st'
            (show Sound { st0 with token := tok } from s0) hf h

/-- The invariant holds whenever the loop of `parse_lease_file` starts an
iteration. -/
theorem reach_sound (env : Env) (s0 st : Parser) (h0 : Sound s0) (hr : Reach env s0 st) :
    Sound st := by
  induction hr with
  | start => exact h0
  | next st st1 _ hs _ ih => exact sound_lease_step env st st1 ih hs

theorem get_token_unbalanced (st : Parser) (rest : List Nat) (he : st.eof = false)
    (hi : st.input = CHAR_CURLY_BRACE_END :: rest) (hb : st.inblock = false) :
    get_token st = Except.error Abort.unbalancedBracket := by
  unfold get_token
  rw [get_token_loop]
  simp [get_char, getc, he, hi, hb]

/-- C11: in every state of the parser in which the next byte is the closing
brace and the invariant `Sound` holds (it holds whenever the loop of
`parse_lease_file` starts an iteration, and every function of the parser keeps
it): when no block is open, `get_char` calls `error()` with "unbalanced
bracket", so the run aborts (for the call that starts a token:
`parse_lease_file` ends with that error); when a block is open, `get_char`
returns the brace, sets `inblock` to 0 and appends the lease of `lbuf`, and no
other record, to the tail of the lease list, and changes nothing else but the
read position. -/
theorem get_char_closing_brace (st : Parser) (rest : List Nat) (hs : Sound st)
    (he : st.eof = false) (hi : st.input = CHAR_CURLY_BRACE_END :: rest) :
    (st.inblock = false →
      get_char st = Except.error Abort.unbalancedBracket ∧
      ∀ (env : Env) (o : Opts) (tnow : Int) (input : List Nat),
        Reach env (parser_init input) st →
        parse_lease_file env o tnow input = Except.error Abort.unbalancedBracket) ∧
    (st.inblock = true →
      ∃ recs l hp, lease_list st.heap = Except.ok recs ∧ st.lbuf = some l ∧
        get_char st = Except.ok (some CHAR_CURLY_BRACE_END,
          { st with input := rest, inblock := false, heap := hp }) ∧
        lease_list hp = Except.ok (recs ++ [st.heap.lease l])) := by
  constructor
  · intro hb
    have hg : get_char st = Except.error Abort.unbalancedBracket := by
      unfold get_char getc
      simp [he, hi, hb]
    refine ⟨hg, fun env o tnow input hr => ?_⟩
    apply parse_lease_file_error
    apply parse_of_reach_error env input st _ hr
    unfold lease_step
    rw [get_token_unbalanced st rest he hi hb]
  · intro hb
    obtain ⟨S, l, hlk, hl, hlt, hnot⟩ := hs.2 hb
    obtain ⟨hp, hins, hlk1, hd, _⟩ :=
      insert_spec st.heap S l _ hlk hnot (List.getElem?_eq_getElem hlt)
    refine ⟨S.map st.heap.lease, l, hp, lease_list_linked _ _ hlk, hl,
      get_char_close st rest l hp he hi hb hl hins, ?_⟩
    rw [lease_list_linked hp _ hlk1, List.map_append, List.map_singleton, hd.2 l]
    congr 2
    apply List.map_congr_left
    intro k _
    exact hd.2 k

set_option maxRecDepth 100000 in
/-- C11 (witness): the file that holds only a closing brace is rejected with
"unbalanced bracket"; and in the file `lease 10.0.0.5 {}` the brace is read
while the block is open, and the lease list then holds the record of the
block. -/
theorem get_char_closing_brace_witness :
    (get_char (parser_init (bytes "\x7d")) = Except.error Abort.unbalancedBracket ∧
      parse_lease_file env_utc opts_none 0 (bytes "\x7d") =
        Except.error Abort.unbalancedBracket) ∧
    (after_steps env_utc 1 (parser_init (bytes "lease 10.0.0.5 \x7b\x7d"))).inblock = true ∧
    (after_steps env_utc 1 (parser_init (bytes "lease 10.0.0.5 \x7b\x7d"))).input =
      [CHAR_CURLY_BRACE_END] ∧
    (∃ recs l hp,
      lease_list (after_steps env_utc 1 (parser_init (bytes "lease 10.0.0.5 \x7b\x7d"))).heap =
        Except.ok recs ∧
      (after_steps env_utc 1 (parser_init (bytes "lease 10.0.0.5 \x7b\x7d"))).lbuf = some l ∧
      get_char (after_steps env_utc 1 (parser_init (bytes "lease 10.0.0.5 \x7b\x7d"))) =
        Except.ok (some CHAR_CURLY_BRACE_END,
          { after_steps env_utc 1 (parser_init (bytes "lease 10.0.0.5 \x7b\x7d")) with
            input := [], inblock := false, heap := hp }) ∧
      lease_list hp = Except.ok (recs ++
        [(after_steps env_utc 1 (parser_init (bytes "lease 10.0.0.5 \x7b\x7d"))).heap.lease l])) ∧
    parsed_list env_utc (bytes "lease 10.0.0.5 \x7b\x7d") =
      Except.ok [{ lease_zero with ipaddr := some (bytes "10.0.0.5") }] :=
  ⟨⟨((get_char_closing_brace (parser_init (bytes "\x7d")) [] (sound_init _) rfl rfl).1 rfl).1,
     ((get_char_closing_brace (parser_init (bytes "\x7d")) [] (sound_init _) rfl rfl).1 rfl).2
       env_utc opts_none 0 (bytes "\x7d") Reach.start⟩,
   rfl, rfl,
   (get_char_closing_brace
     (after_steps env_utc 1 (parser_init (bytes "lease 10.0.0.5 \x7b\x7d"))) []
     (reach_sound env_utc (parser_init (bytes "lease 10.0.0.5 \x7b\x7d")) _ (sound_init _)
       (Reach.next _ _ Reach.start rfl rfl)) rfl rfl).2 rfl,
   rfl⟩

/-! ## End of file inside a loop that only stops at a byte -/

/-- At end of file `get_char` returns -1 and leaves every variable as it is. -/
theorem get_char_at_eof (st : Parser) (he : st.eof = true) :
    get_char st = Except.ok (none, st) := by
  unfold get_char getc
  simp [he]

theorem skip_comment_loop_eof (c : List Nat) :
    ∀ (fuel : Nat) (st : Parser), st.eof = false → st.input = c →
      (∀ x ∈ c, x ≠ 10 ∧ x ≠ CHAR_CURLY_BRACE_END) → c.length < fuel →
      skip_comment_loop fuel st = Except.error Abort.loopsForever := by
  induction c with
  | nil =>
    intro fuel st _ hi _ hf
    cases fuel with
    | zero => simp at hf
    | succ n =>
      rw [skip_comment_loop, get_char_eof st hi]
  | cons x c ih =>
    intro fuel st he hi hc hf
    cases fuel with
    | zero => simp at hf
    | succ n =>
      obtain ⟨h10, h125⟩ := hc x (List.mem_cons_self _ _)
      rw [skip_comment_loop, get_char_plain st x c he hi h125]
      simp only [h10, if_false]
      exact ih n _ he rfl (fun y hy => hc y (List.mem_cons_of_mem _ hy))
        (by simpa using hf)

/-- A file that starts with a comment which no newline ends: the loop that
skips the comment never ends. -/
theorem parse_leases_comment_eof (env : Env) (c : List Nat)
    (hc : ∀ x ∈ c, x ≠ 10 ∧ x ≠ CHAR_CURLY_BRACE_END) :
    parse_leases env (35 :: c) = Except.error Abort.loopsForever := by
  have hg : get_token (parser_init (35 :: c)) = Except.error Abort.loopsForever := by
    unfold get_token
    have hlen : (parser_init (35 :: c)).input.length + 1 = (c.length + 1) + 1 := rfl
    rw [hlen, get_token_loop, get_char_plain _ 35 c rfl rfl (by decide)]
    have hdel : ¬ ((35 : Nat) = 9 ∨ (35 : Nat) = 10 ∨ 35 = CHAR_SEMICOLON ∨ isspace 35 = true) := by
      decide
    have hroom : ¬ BUFFER_SIZE ≤ 0 := by decide
    simp only [hdel, hroom, List.length_nil, if_false, if_true]
    rw [skip_comment_loop_eof c _ _ rfl rfl hc (Nat.lt_succ_self _)]
  unfold parse_leases
  rw [lease_loop, lease_step, hg]

set_option maxRecDepth 100000 in
/-- C16 (the code at the failing inputs): `parse_lease_file` does not
terminate on a file that ends inside a comment (any file that is a `#` and
then bytes other than newline and closing brace, such as `# end`), nor on the
file `lease 10.0.0.5 ` that ends after the address of a header: the loop of
`get_token` that skips the comment and the loop of `seek_char` call `get_char`
again and again, and at end of file `get_char` returns -1 and changes
nothing. -/
theorem parse_lease_file_never_ends (env : Env) (o : Opts) (tnow : Int) :
    (∀ c : List Nat, (∀ x ∈ c, x ≠ 10 ∧ x ≠ CHAR_CURLY_BRACE_END) →
      parse_lease_file env o tnow (35 :: c) = Except.error Abort.loopsForever) ∧
    parse_lease_file env o tnow (bytes "# end") = Except.error Abort.loopsForever ∧
    parse_lease_file env o tnow (bytes "lease 10.0.0.5 ") = Except.error Abort.loopsForever ∧
    (∀ st : Parser, st.eof = true → get_char st = Except.ok (none, st)) ∧
    skip_comment_loop 1 { parser_init [] with buffer := [35] } =
      Except.error Abort.loopsForever ∧
    seek_char CHAR_CURLY_BRACE_START { parser_init [] with buffer := bytes "10.0.0.5" } =
      Except.error Abort.loopsForever := by
  refine ⟨fun c hc => ?_, ?_, ?_, get_char_at_eof, rfl, rfl⟩
  · exact parse_lease_file_error env o tnow _ _ (parse_leases_comment_eof env c hc)
  · exact parse_lease_file_error env o tnow _ _ (parse_leases_comment_eof env _ (by decide))
  · exact parse_lease_file_error env o tnow _ _ rfl

/-! ## The date buffer of `parse_date_string` -/

/-- Without the digit and the white space at the front, `parse_date_string`
copies nothing and converts what lies in `datebuf`. -/
theorem parse_date_string_stack (env : Env) (st : Parser)
    (hlen : 3 ≤ (cstr st.buffer).length)
    (hpre : (isdigit ((cstr st.buffer).getD 0 0) && isspace ((cstr st.buffer).getD 1 0)) = false) :
    parse_date_string env st = string_to_time env env.stack := by
  unfold parse_date_string
  have h : ¬ (cstr st.buffer).length < 3 := by omega
  simp only [h, if_false, hpre, Bool.false_eq_true, false_and]
  cases string_to_time env env.stack <;> rfl

set_option maxRecDepth 100000 in
/-- C18 (the code at the failing input): a text without the digit and the
white space at the front is not parsed at all: `parse_date_string` converts
the bytes that lie in the uninitialised `datebuf`, whatever the text is. So
`starts 2 2024/01/01 10:00:00;` gives the start time 1704103200, while
`starts 2024/01/01 10:00:00;` aborts with "time conversion failed" when the
stack holds zero bytes, and gives the time of `1999/12/31 23:59:59` when the
bytes of that date lie in `datebuf`. -/
theorem parse_date_string_no_prefix :
    (∀ (env : Env) (st : Parser), 3 ≤ (cstr st.buffer).length →
      (isdigit ((cstr st.buffer).getD 0 0) && isspace ((cstr st.buffer).getD 1 0)) = false →
      parse_date_string env st = string_to_time env env.stack) ∧
    parsed_list env_utc (bytes "lease 10.0.0.5 \x7b starts 2 2024/01/01 10:00:00; \x7d") =
      Except.ok [{ lease_zero with ipaddr := some (bytes "10.0.0.5"), start := 1704103200 }] ∧
    parsed_list env_utc (bytes "lease 10.0.0.5 \x7b starts 2024/01/01 10:00:00; \x7d") =
      Except.error Abort.timeConversion ∧
    parse_lease_file env_utc opts_none 0
        (bytes "lease 10.0.0.5 \x7b starts 2024/01/01 10:00:00; \x7d") =
      Except.error Abort.timeConversion ∧
    parsed_list env_stale (bytes "lease 10.0.0.5 \x7b starts 2024/01/01 10:00:00; \x7d") =
      Except.ok [{ lease_zero with ipaddr := some (bytes "10.0.0.5"), start := 946684799 }] ∧
    parsed_list env_stale (bytes "lease 10.0.0.5 \x7b starts 2 2024/01/01 10:00:00; \x7d") =
      Except.ok [{ lease_zero with ipaddr := some (bytes "10.0.0.5"), start := 1704103200 }] :=
  ⟨parse_date_string_stack, rfl, rfl, rfl, rfl, rfl⟩

/-- A text with the digit and the white space at the front whose rest
`strptime` rejects whatever bytes follow it: the conversion fails. -/
theorem parse_date_string_rejects (env : Env) (st : Parser)
    (hlen : 3 ≤ (cstr st.buffer).length)
    (hpre : (isdigit ((cstr st.buffer).getD 0 0) && isspace ((cstr st.buffer).getD 1 0)) = true)
    (hno : ∀ tail : List Nat, strptime_fmt (cstr ((cstr st.buffer).drop 2 ++ tail)) = none) :
    parse_date_string env st = Except.error Abort.timeConversion := by
  unfold parse_date_string
  have h : ¬ (cstr st.buffer).length < 3 := by omega
  simp only [h, if_false, hpre, if_true, string_to_time, strncpy_over, hno]

set_option maxRecDepth 100000 in
/-- C12 (the code at the failing input): the text `2024/01/01 10:00:` does
not match the format (`strptime` returns `NULL` for it), yet the block with
`starts 2 2024/01/01 10:00:;` is accepted when the bytes of an earlier date
lie in `datebuf`: `strncpy` copies the 17 bytes of the text without a NUL, and
`strptime` reads the seconds `59` from the bytes behind them. With zero bytes
on the stack the same file is rejected; the block of the specification, with
`starts 2 2024-01-01 10:00:00;`, is rejected whatever lies in `datebuf`, and
so is every text after the digit and the white space that `strptime` rejects
whatever bytes follow it; text after a complete date, as in
`starts 2 2024/01/01 10:00:00 junk;`, is not looked at. -/
theorem parse_date_string_reads_stale :
    strptime_fmt (bytes "2024/01/01 10:00:") = none ∧
    parsed_list env_stale (bytes "lease 10.0.0.5 \x7b starts 2 2024/01/01 10:00:; \x7d") =
      Except.ok [{ lease_zero with ipaddr := some (bytes "10.0.0.5"), start := 1704103259 }] ∧
    parse_lease_file env_stale opts_none 0
        (bytes "lease 10.0.0.5 \x7b starts 2 2024/01/01 10:00:; \x7d") =
      Except.ok [{ lease_zero with ipaddr := some (bytes "10.0.0.5"), start := 1704103259 }] ∧
    parse_lease_file env_utc opts_none 0
        (bytes "lease 10.0.0.5 \x7b starts 2 2024/01/01 10:00:; \x7d") =
      Except.error Abort.timeConversion ∧
    (∀ (env : Env) (o : Opts) (tnow : Int),
      parse_lease_file env o tnow
          (bytes "lease 10.0.0.5 \x7b starts 2 2024-01-01 10:00:00; \x7d") =
        Except.error Abort.timeConversion) ∧
    (∀ env : Env,
      parsed_list env (bytes "lease 10.0.0.5 \x7b starts 2 2024/01/01 10:00:00 junk; \x7d") =
        Except.ok [{ lease_zero with
          ipaddr := some (bytes "10.0.0.5"),
          start := env.mktime { tm_sec := 0, tm_min := 0, tm_hour := 10, tm_mday := 1,
                                tm_mon := 0, tm_year := 124 } }]) ∧
    ∀ (env : Env) (st : Parser), 3 ≤ (cstr st.buffer).length →
      (isdigit ((cstr st.buffer).getD 0 0) && isspace ((cstr st.buffer).getD 1 0)) = true →
      (∀ tail : List Nat, strptime_fmt (cstr ((cstr st.buffer).drop 2 ++ tail)) = none) →
      parse_date_string env st = Except.error Abort.timeConversion :=
  ⟨rfl, rfl, rfl, rfl, fun env o tnow => parse_lease_file_error env o tnow _ _ rfl,
    fun _ => rfl, parse_date_string_rejects⟩

/-! ## Comments -/

/-- The scanning loop of `get_token` on bytes of a word: they go to the
buffer. -/
theorem get_token_loop_plain (w : List Nat) (rest : List Nat) :
    ∀ (fuel : Nat) (st : Parser), st.eof = false → st.input = w ++ rest →
      (∀ c ∈ w, isspace c = false ∧ c ≠ CHAR_SEMICOLON ∧ c ≠ 35 ∧ c ≠ CHAR_CURLY_BRACE_END) →
      st.buffer.length + w.length ≤ BUFFER_SIZE →
      get_token_loop (fuel + w.length) st =
        get_token_loop fuel { st with input := rest, buffer := st.buffer ++ w } := by
  induction w with
  | nil =>
    intro fuel st _ hi _ _
    obtain ⟨input, eof, token, inblock, buffer, lbuf, heap, count, hastoken⟩ := st
    simp only at hi
    subst hi
    simp
  | cons c w ih =>
    intro fuel st he hi hw hb
    obtain ⟨h1, h2, h3, h4⟩ := hw c (List.mem_cons_self _ _)
    have hroom : ¬ BUFFER_SIZE ≤ st.buffer.length := by
      simp only [List.length_cons] at hb
      omega
    have hdel : ¬ (c = 9 ∨ c = 10 ∨ c = CHAR_SEMICOLON ∨ isspace c = true) := by
      rintro (hc | hc | hc | hc)
      · subst hc; simp [isspace] at h1
      · subst hc; simp [isspace] at h1
      · exact h2 hc
      · rw [h1] at hc; cases hc
    have hf : fuel + (c :: w).length = (fuel + w.length) + 1 := by
      simp only [List.length_cons]; omega
    rw [hf, get_token_loop, get_char_plain st c (w ++ rest) he hi h4]
    simp only [hdel, hroom, if_false, h3]
    rw [ih fuel { st with input := w ++ rest, buffer := st.buffer ++ [c] } he rfl
      (fun x hx => hw x (List.mem_cons_of_mem _ hx))
      (by simp only [List.length_append, List.length_cons, List.length_nil] at hb ⊢; omega)]
    simp

/-- The loop that skips a comment reads through the newline that ends the
line. -/
theorem skip_comment_loop_line (cmt : List Nat) (rest : List Nat) :
    ∀ (fuel : Nat) (st : Parser), st.eof = false → st.input = cmt ++ 10 :: rest →
      (∀ x ∈ cmt, x ≠ 10 ∧ x ≠ CHAR_CURLY_BRACE_END) → cmt.length < fuel →
      skip_comment_loop fuel st = Except.ok { st with input := rest } := by
  induction cmt with
  | nil =>
    intro fuel st he hi _ hf
    cases fuel with
    | zero => simp at hf
    | succ n =>
      rw [skip_comment_loop, get_char_plain st 10 rest he hi (by decide)]
      simp
  | cons x cmt ih =>
    intro fuel st he hi hc hf
    cases fuel with
    | zero => simp at hf
    | succ n =>
      obtain ⟨h10, h125⟩ := hc x (List.mem_cons_self _ _)
      rw [skip_comment_loop, get_char_plain st x (cmt ++ 10 :: rest) he hi h125]
      simp only [h10, if_false]
      rw [ih n { st with input := cmt ++ 10 :: rest } he rfl
        (fun y hy => hc y (List.mem_cons_of_mem _ hy)) (by simpa using hf)]

/-- The scanning loop of `get_token` at a comment: the `#` goes to the
buffer, the bytes through the newline are dropped, and the loop goes on. -/
theorem get_token_loop_comment (cmt rest : List Nat) (fuel : Nat) (st : Parser)
    (he : st.eof = false) (hi : st.input = 35 :: (cmt ++ 10 :: rest))
    (hc : ∀ x ∈ cmt, x ≠ 10 ∧ x ≠ CHAR_CURLY_BRACE_END) (hf : cmt.length < fuel)
    (hb : st.buffer.length < BUFFER_SIZE) :
    get_token_loop (fuel + 1) st =
      get_token_loop fuel { st with input := rest, buffer := st.buffer ++ [35] } := by
  rw [get_token_loop, get_char_plain st 35 _ he hi (by decide)]
  have hdel : ¬ ((35 : Nat) = 9 ∨ (35 : Nat) = 10 ∨ 35 = CHAR_SEMICOLON ∨ isspace 35 = true) := by
    decide
  have hroom : ¬ BUFFER_SIZE ≤ st.buffer.length := by omega
  simp only [hdel, hroom, if_false, if_true]
  rw [skip_comment_loop_line cmt rest fuel
    { st with input := cmt ++ 10 :: rest, buffer := st.buffer ++ [35] } he rfl hc hf]

theorem keywords_hash : ∀ k ∈ keywords, 35 ∉ (cstr k.1).map tolower := by decide

/-- A word with a `#` in it is not a keyword. -/
theorem lookup_hash (w1 w2 : List Nat) (h0 : ∀ c ∈ w1, c ≠ 0) :
    lookup (w1 ++ 35 :: w2) = TOK_INVALID_TOKEN := by
  apply lookup_invalid
  intro k hk hc
  rw [strcasecmp_eq_zero] at hc
  apply keywords_hash k hk
  rw [← hc, cstr_append_nonzero w1 _ h0]
  simp [cstr, tolower]

/-- When a `#` is read while a word is accumulated, the `#` itself is stored
in the word (dhlease.c:648 comes before the test of line 650), the bytes
after it through the newline are dropped, and the accumulation goes on after
the newline: the word looked up is the bytes before the `#`, the `#`, and the
bytes after the newline up to the delimiter, as long as `buffer` holds them.
Such a word is no keyword. -/
theorem get_token_stores_hash (st : Parser) (w1 cmt w2 : List Nat) (d : Nat) (rest : List Nat)
    (he : st.eof = false) (hi : st.input = w1 ++ 35 :: (cmt ++ 10 :: (w2 ++ d :: rest)))
    (hw1 : ∀ c ∈ w1, c ≠ 0 ∧ isspace c = false ∧ c ≠ CHAR_SEMICOLON ∧ c ≠ 35 ∧
      c ≠ CHAR_CURLY_BRACE_END)
    (hc : ∀ x ∈ cmt, x ≠ 10 ∧ x ≠ CHAR_CURLY_BRACE_END)
    (hw2 : ∀ c ∈ w2, isspace c = false ∧ c ≠ CHAR_SEMICOLON ∧ c ≠ 35 ∧ c ≠ CHAR_CURLY_BRACE_END)
    (hd : isspace d = true ∨ d = CHAR_SEMICOLON)
    (hb : w1.length + 1 + w2.length < BUFFER_SIZE) :
    get_token st = Except.ok (TOK_INVALID_TOKEN,
      { st with input := rest, buffer := w1 ++ 35 :: w2, hastoken := false }) ∧
    lookup (w1 ++ 35 :: w2) = TOK_INVALID_TOKEN := by
  have hk := lookup_hash w1 w2 (fun c hc => (hw1 c hc).1)
  refine ⟨?_, hk⟩
  unfold get_token
  have hlen : st.input.length + 1 =
      ((cmt.length + w2.length + rest.length + 3) + 1) + w1.length := by
    simp only [hi, List.length_append, List.length_cons]
    omega
  rw [hlen, get_token_loop_plain w1 _ _ { st with buffer := [], hastoken := false } he hi
    (fun c hc => (hw1 c hc).2) (by simp only [List.length_nil]; omega)]
  rw [get_token_loop_comment cmt (w2 ++ d :: rest) _
    { st with buffer := [] ++ w1, hastoken := false,
              input := 35 :: (cmt ++ 10 :: (w2 ++ d :: rest)) } he rfl hc (by omega)
    (by simp only [List.nil_append]; omega)]
  rw [get_token_loop_word w2 d rest hd _
    { st with buffer := [] ++ w1 ++ [35], hastoken := false, input := w2 ++ d :: rest }
    he rfl hw2 (by omega)
    (by simp only [List.nil_append, List.length_append, List.length_cons, List.length_nil]; omega)]
  simp [hk]

set_option maxRecDepth 100000 in
/-- C15 (the code at the failing input): `get_token` stores the `#` in the
word before it tests for it (dhlease.c:648-650), so the comment is skipped
but its `#` stays in the word. With the comment line `# text` directly before
the line `lease 10.0.0.5 {`, the word looked up is `#lease`, the keyword is
not recognised, and the file, which parses to one record without the comment
line, is rejected ("unbalanced bracket" at the closing brace); with the
comment line directly before `starts`, the start time of the block is lost. -/
theorem comment_line_hides_keyword :
    get_token (parser_init (bytes "# text\nlease 10.0.0.5 \x7b\n\x7d\n")) =
      Except.ok (TOK_INVALID_TOKEN,
        { parser_init (bytes "10.0.0.5 \x7b\n\x7d\n") with buffer := bytes "#lease" }) ∧
    lookup (bytes "lease") = TOK_LEASE ∧
    parse_lease_file env_utc opts_none 0 (bytes "# text\nlease 10.0.0.5 \x7b\n\x7d\n") =
      Except.error Abort.unbalancedBracket ∧
    parse_lease_file env_utc opts_none 0 (bytes "lease 10.0.0.5 \x7b\n\x7d\n") =
      Except.ok [{ lease_zero with ipaddr := some (bytes "10.0.0.5") }] ∧
    parsed_list env_utc
        (bytes "lease 10.0.0.5 \x7b\n# text\nstarts 2 2024/01/01 10:00:00;\n\x7d\n") =
      Except.ok [{ lease_zero with ipaddr := some (bytes "10.0.0.5") }] ∧
    parsed_list env_utc (bytes "lease 10.0.0.5 \x7b\nstarts 2 2024/01/01 10:00:00;\n\x7d\n") =
      Except.ok [{ lease_zero with ipaddr := some (bytes "10.0.0.5"), start := 1704103200 }] :=
  ⟨rfl, rfl, rfl, rfl, rfl, rfl⟩

/-! ## The client name -/

/-- The loop of `parse_client_hostname` on bytes that are no white space, no
`;` and no closing brace: the ASCII bytes other than the quote go to the
buffer. -/
theorem parse_client_hostname_loop_plain (s : List Nat) (rest : List Nat) :
    ∀ (fuel : Nat) (st : Parser), st.eof = false → st.input = s ++ rest →
      (∀ c ∈ s, isspace c = false ∧ c ≠ CHAR_SEMICOLON ∧ c ≠ CHAR_CURLY_BRACE_END) →
      st.buffer.length + (s.filter (fun c => decide (c ≠ 34 ∧ c ≤ 127))).length ≤ BUFFER_SIZE →
      parse_client_hostname_loop (fuel + s.length) st =
        parse_client_hostname_loop fuel
          { st with input := rest,
                    buffer := st.buffer ++ s.filter (fun c => decide (c ≠ 34 ∧ c ≤ 127)) } := by
  induction s with
  | nil =>
    intro fuel st _ hi _ _
    obtain ⟨input, eof, token, inblock, buffer, lbuf, heap, count, hastoken⟩ := st
    simp only at hi
    subst hi
    simp
  | cons c s ih =>
    intro fuel st he hi hs hfit
    obtain ⟨h1, h2, h3⟩ := hs c (List.mem_cons_self _ _)
    have h10 : c ≠ 10 := by
      intro hc; subst hc; simp [isspace] at h1
    have hdel : ¬ (isspace c = true ∨ c = CHAR_SEMICOLON) := by
      rintro (hc | hc)
      · rw [h1] at hc; cases hc
      · exact h2 hc
    have hf : fuel + (c :: s).length = (fuel + s.length) + 1 := by
      simp only [List.length_cons]; omega
    rw [hf, parse_client_hostname_loop, get_char_plain st c (s ++ rest) he hi h3]
    simp only [h10, if_false, hdel]
    by_cases h34 : c = 34
    · subst h34
      simp only [if_true]
      rw [ih fuel { st with input := s ++ rest } he rfl
        (fun x hx => hs x (List.mem_cons_of_mem _ hx)) (by simpa [List.filter_cons] using hfit)]
      simp
    · simp only [h34, if_false]
      by_cases hasc : c ≤ 127
      · have hor : isascii c = true ∨ isdigit c = true := Or.inl (by simp [isascii, hasc])
        have hfit1 : st.buffer.length +
            ((s.filter (fun c => decide (c ≠ 34 ∧ c ≤ 127))).length + 1) ≤ BUFFER_SIZE := by
          simpa [List.filter_cons, h34, hasc] using hfit
        have hroom : ¬ BUFFER_SIZE ≤ st.buffer.length := by omega
        simp only [hor, hroom, if_true, if_false]
        rw [ih fuel { st with input := s ++ rest, buffer := st.buffer ++ [c] } he rfl
          (fun x hx => hs x (List.mem_cons_of_mem _ hx))
          (by simp only [List.length_append, List.length_cons, List.length_nil]; omega)]
        simp [h34, hasc, List.filter_cons]
      · have hor : ¬ (isascii c = true ∨ isdigit c = true) := by
          simp only [isascii, isdigit, decide_eq_true_eq, Bool.and_eq_true, not_or, not_and]
          constructor
          · exact hasc
          · intro _; omega
        simp only [hor, if_false]
        rw [ih fuel { st with input := s ++ rest } he rfl
          (fun x hx => hs x (List.mem_cons_of_mem _ hx))
          (by simpa [List.filter_cons, h34, hasc] using hfit)]
        simp [hasc, List.filter_cons]

theorem delimiter_facts (d : Nat) (hd : isspace d = true ∨ d = CHAR_SEMICOLON) :
    d ≠ CHAR_CURLY_BRACE_END ∧ d ≠ 34 := by
  rcases hd with hd | hd
  · constructor
    · intro hc; subst hc; simp [isspace, CHAR_CURLY_BRACE_END] at hd
    · intro hc; subst hc; simp [isspace] at hd
  · subst hd
    decide

/-- The loop of `parse_client_hostname` on bytes without white space and `;`
that the newline or the end of the file follows, closing braces among them or
not: it calls `error()`, in `get_char` at a brace that finds no block open, or
else at the newline or the end of the file. -/
theorem parse_client_hostname_loop_aborts (tail : List Nat) (a : Abort)
    (htail : (tail = [] ∧ a = Abort.unexpectedEOF) ∨
      (∃ rest, tail = 10 :: rest ∧ a = Abort.unexpectedNewline)) (s : List Nat) :
    ∀ (fuel : Nat) (st : Parser), Sound st → st.eof = false → st.input = s ++ tail →
      (∀ c ∈ s, isspace c = false ∧ c ≠ CHAR_SEMICOLON) →
      st.buffer.length + (s.filter (fun c => decide (c ≠ 34 ∧ c ≤ 127))).length ≤ BUFFER_SIZE →
      s.length < fuel →
      parse_client_hostname_loop fuel st = Except.error a ∨
        parse_client_hostname_loop fuel st = Except.error Abort.unbalancedBracket := by
  induction s with
  | nil =>
    intro fuel st _ he hi _ _ hf
    cases fuel with
    | zero => simp at hf
    | succ n =>
      left
      rcases htail with ⟨rfl, rfl⟩ | ⟨rest, rfl, rfl⟩
      · rw [parse_client_hostname_loop, get_char_eof st (by simpa using hi)]
      · rw [parse_client_hostname_loop, get_char_plain st 10 rest he (by simpa using hi) (by decide)]
        simp
  | cons c s ih =>
    intro fuel st hsound he hi hs hfit hf
    cases fuel with
    | zero => simp at hf
    | succ n =>
      obtain ⟨h1, h2⟩ := hs c (List.mem_cons_self _ _)
      have hs1 : ∀ x ∈ s, isspace x = false ∧ x ≠ CHAR_SEMICOLON :=
        fun x hx => hs x (List.mem_cons_of_mem _ hx)
      have hn : s.length < n := by simpa using hf
      have h10 : c ≠ 10 := by
        intro hc; subst hc; simp [isspace] at h1
      have hdel : ¬ (isspace c = true ∨ c = CHAR_SEMICOLON) := by
        rintro (hc | hc)
        · rw [h1] at hc; cases hc
        · exact h2 hc
      have hi1 : st.input = c :: (s ++ tail) := by simpa using hi
      by_cases h125 : c = CHAR_CURLY_BRACE_END
      · subst h125
        by_cases hb : st.inblock = true
        · obtain ⟨S, l, hlk, hl, hlt, hnot⟩ := hsound.2 hb
          obtain ⟨hp, hins, _, _, _⟩ :=
            insert_spec st.heap S l _ hlk hnot (List.getElem?_eq_getElem hlt)
          have hgc := get_char_close st (s ++ tail) l hp he hi1 hb hl hins
          have hs2 := sound_get_char st _ _ hsound hgc
          have hfit1 : st.buffer.length +
              ((s.filter (fun c => decide (c ≠ 34 ∧ c ≤ 127))).length + 1) ≤ BUFFER_SIZE := by
            simpa [List.filter_cons, CHAR_CURLY_BRACE_END] using hfit
          have hroom : ¬ BUFFER_SIZE ≤ st.buffer.length := by omega
          have hb1 : ¬ (CHAR_CURLY_BRACE_END = 34) := by decide
          have hb4 : isascii CHAR_CURLY_BRACE_END = true ∨ isdigit CHAR_CURLY_BRACE_END = true := by
            decide
          rw [parse_client_hostname_loop, hgc]
          simp only [h10, hb1, hdel, hb4, hroom, if_false, if_true]
          exact ih n
            { st with input := s ++ tail, inblock := false, heap := hp,
                      buffer := st.buffer ++ [CHAR_CURLY_BRACE_END] }
            (sound_buffer { st with input := s ++ tail, inblock := false, heap := hp }
              (st.buffer ++ [CHAR_CURLY_BRACE_END]) hs2) he rfl hs1
            (by simp only [List.length_append, List.length_cons, List.length_nil]; omega) hn
        · right
          rw [parse_client_hostname_loop]
          simp [get_char, getc, he, hi1, hb]
      · have hgc := get_char_plain st c (s ++ tail) he hi1 h125
        have hs2 := sound_get_char st _ _ hsound hgc
        rw [parse_client_hostname_loop, hgc]
        simp only [h10, if_false, hdel]
        by_cases h34 : c = 34
        · subst h34
          simp only [if_true]
          exact ih n { st with input := s ++ tail } hs2 he rfl hs1
            (by simpa [List.filter_cons] using hfit) hn
        · simp only [h34, if_false]
          by_cases hasc : c ≤ 127
          · have hor : isascii c = true ∨ isdigit c = true := Or.inl (by simp [isascii, hasc])
            have hfit1 : st.buffer.length +
                ((s.filter (fun c => decide (c ≠ 34 ∧ c ≤ 127))).length + 1) ≤ BUFFER_SIZE := by
              simpa [List.filter_cons, h34, hasc] using hfit
            have hroom : ¬ BUFFER_SIZE ≤ st.buffer.length := by omega
            simp only [hor, hroom, if_true, if_false]
            exact ih n { st with input := s ++ tail, buffer := st.buffer ++ [c] }
              (sound_buffer { st with input := s ++ tail } (st.buffer ++ [c]) hs2) he rfl hs1
              (by simp only [List.length_append, List.length_cons, List.length_nil]; omega) hn
          · have hor : ¬ (isascii c = true ∨ isdigit c = true) := by
              simp only [isascii, isdigit, decide_eq_true_eq, Bool.and_eq_true, not_or, not_and]
              constructor
              · exact hasc
              · intro _; omega
            simp only [hor, if_false]
            exact ih n { st with input := s ++ tail } hs2 he rfl hs1
              (by simpa [List.filter_cons, h34, hasc] using hfit) hn

/-- C19 (what the code does): for every byte sequence `s` without white
space and `;` that follows the keyword, read in a state of a run (the
invariant `Sound` holds in all of them), with fewer than 2048 ASCII bytes
other than `"` in it, which is what `buffer` holds with a NUL:

* when `s` has no closing brace and a white space byte other than the
  newline, or `;`, comes next, `parse_client_hostname` returns with exactly
  the ASCII bytes of `s` other than `"` in the buffer, and has read the bytes
  and the delimiter;
* with one closing brace in `s`, read while the block is open, the same
  holds, the brace is in the buffer, and the block is closed and its lease
  appended to the queue;
* when the newline or the end of the file comes next, the run ends in a call
  of `error()` whatever `s` holds: "unexpected newline" or "unexpected EOF",
  or "unbalanced bracket" at a closing brace of `s` that finds no block open;
  without a closing brace in `s` it is the first two. -/
theorem parse_client_hostname_buffer (st : Parser) (s : List Nat) (he : st.eof = false)
    (hsound : Sound st) (hs : ∀ c ∈ s, isspace c = false ∧ c ≠ CHAR_SEMICOLON)
    (hfit : (s.filter (fun c => decide (c ≠ 34 ∧ c ≤ 127))).length < BUFFER_SIZE) :
    (∀ (d : Nat) (rest : List Nat), st.input = s ++ d :: rest → d ≠ 10 →
      (isspace d = true ∨ d = CHAR_SEMICOLON) → CHAR_CURLY_BRACE_END ∉ s →
      parse_client_hostname st = Except.ok
        { st with input := rest, buffer := s.filter (fun c => decide (c ≠ 34 ∧ c ≤ 127)) }) ∧
    (∀ (s1 s2 : List Nat) (d : Nat) (rest : List Nat), s = s1 ++ CHAR_CURLY_BRACE_END :: s2 →
      CHAR_CURLY_BRACE_END ∉ s1 → CHAR_CURLY_BRACE_END ∉ s2 →
      st.input = s ++ d :: rest → d ≠ 10 → (isspace d = true ∨ d = CHAR_SEMICOLON) →
      st.inblock = true →
      ∃ l hp, st.lbuf = some l ∧ TAILQ_INSERT_TAIL st.heap l = Except.ok hp ∧
        parse_client_hostname st = Except.ok
          { st with input := rest, inblock := false, heap := hp,
                    buffer := s.filter (fun c => decide (c ≠ 34 ∧ c ≤ 127)) }) ∧
    (∀ rest : List Nat, st.input = s ++ 10 :: rest →
      parse_client_hostname st = Except.error Abort.unexpectedNewline ∨
        parse_client_hostname st = Except.error Abort.unbalancedBracket) ∧
    (st.input = s →
      parse_client_hostname st = Except.error Abort.unexpectedEOF ∨
        parse_client_hostname st = Except.error Abort.unbalancedBracket) ∧
    (CHAR_CURLY_BRACE_END ∉ s →
      (∀ rest : List Nat, st.input = s ++ 10 :: rest →
        parse_client_hostname st = Except.error Abort.unexpectedNewline) ∧
      (st.input = s → parse_client_hostname st = Except.error Abort.unexpectedEOF)) := by
  have hplain : ∀ t : List Nat, (∀ c ∈ t, isspace c = false ∧ c ≠ CHAR_SEMICOLON) →
      CHAR_CURLY_BRACE_END ∉ t →
      ∀ c ∈ t, isspace c = false ∧ c ≠ CHAR_SEMICOLON ∧ c ≠ CHAR_CURLY_BRACE_END :=
    fun t ht hno c hc => ⟨(ht c hc).1, (ht c hc).2, fun h => hno (h ▸ hc)⟩
  have hfit0 : ({ st with buffer := [] } : Parser).buffer.length +
      (s.filter (fun c => decide (c ≠ 34 ∧ c ≤ 127))).length ≤ BUFFER_SIZE := by
    simp only [List.length_nil]
    omega
  refine ⟨?_, ?_, ?_, ?_, ?_⟩
  · intro d rest hi h10 hd hno
    obtain ⟨hd1, hd2⟩ := delimiter_facts d hd
    unfold parse_client_hostname
    have hlen : st.input.length + 1 = (rest.length + 1 + 1) + s.length := by
      simp only [hi, List.length_append, List.length_cons]; omega
    rw [hlen, parse_client_hostname_loop_plain s (d :: rest) _ { st with buffer := [] } he hi
      (hplain s hs hno) hfit0]
    rw [parse_client_hostname_loop,
      get_char_plain { st with buffer := [] ++ s.filter (fun c => decide (c ≠ 34 ∧ c ≤ 127)),
                               input := d :: rest } d rest he rfl hd1]
    simp [h10, hd2, hd]
  · intro s1 s2 d rest hsplit hno1 hno2 hi h10 hd hb
    subst hsplit
    have hs1 := hplain s1 (fun c hc => hs c (List.mem_append_left _ hc)) hno1
    have hs2 := hplain s2
      (fun c hc => hs c (List.mem_append_right _ (List.mem_cons_of_mem _ hc))) hno2
    have hlenf : (s1.filter (fun c => decide (c ≠ 34 ∧ c ≤ 127))).length + 1 +
        (s2.filter (fun c => decide (c ≠ 34 ∧ c ≤ 127))).length < BUFFER_SIZE := by
      have hkeep : decide (CHAR_CURLY_BRACE_END ≠ 34 ∧ CHAR_CURLY_BRACE_END ≤ 127) = true := by
        decide
      have := hfit
      simp only [List.filter_append, List.filter_cons, hkeep, if_true, List.length_append,
        List.length_cons] at this
      omega
    obtain ⟨hd1, hd2⟩ := delimiter_facts d hd
    obtain ⟨S, l, hlk, hl, hlt, hnot⟩ := hsound.2 hb
    obtain ⟨hp, hins, _, _, _⟩ :=
      insert_spec st.heap S l _ hlk hnot (List.getElem?_eq_getElem hlt)
    refine ⟨l, hp, hl, hins, ?_⟩
    have hi1 : st.input = s1 ++ CHAR_CURLY_BRACE_END :: (s2 ++ d :: rest) := by
      rw [hi]; simp
    unfold parse_client_hostname
    have hlen : st.input.length + 1 =
        (((rest.length + 1 + 1) + s2.length) + 1) + s1.length := by
      simp only [hi1, List.length_append, List.length_cons]; omega
    rw [hlen, parse_client_hostname_loop_plain s1 _ _ { st with buffer := [] } he hi1 hs1
      (by simp only [List.length_nil]; omega)]
    rw [parse_client_hostname_loop,
      get_char_close { st with buffer := [] ++ s1.filter (fun c => decide (c ≠ 34 ∧ c ≤ 127)),
                               input := CHAR_CURLY_BRACE_END :: (s2 ++ d :: rest) }
        (s2 ++ d :: rest) l hp he rfl hb hl hins]
    have hb1 : ¬ (CHAR_CURLY_BRACE_END = 10) := by decide
    have hb2 : ¬ (CHAR_CURLY_BRACE_END = 34) := by decide
    have hb3 : ¬ (isspace CHAR_CURLY_BRACE_END = true ∨ CHAR_CURLY_BRACE_END = CHAR_SEMICOLON) := by
      decide
    have hb4 : isascii CHAR_CURLY_BRACE_END = true ∨ isdigit CHAR_CURLY_BRACE_END = true := by
      decide
    have hroom : ¬ BUFFER_SIZE ≤
        ([] ++ s1.filter (fun c => decide (c ≠ 34 ∧ c ≤ 127))).length := by
      simp only [List.nil_append]
      omega
    simp only [hb1, hb2, hb3, hb4, hroom, if_false, if_true]
    rw [parse_client_hostname_loop_plain s2 (d :: rest) _
      { st with input := s2 ++ d :: rest, inblock := false, heap := hp,
                buffer := [] ++ s1.filter (fun c => decide (c ≠ 34 ∧ c ≤ 127)) ++
                  [CHAR_CURLY_BRACE_END] } he rfl hs2
      (by simp only [List.nil_append, List.length_append, List.length_cons, List.length_nil]
          omega)]
    rw [parse_client_hostname_loop,
      get_char_plain
        { st with input := d :: rest, inblock := false, heap := hp,
                  buffer := [] ++ s1.filter (fun c => decide (c ≠ 34 ∧ c ≤ 127)) ++
                    [CHAR_CURLY_BRACE_END] ++ s2.filter (fun c => decide (c ≠ 34 ∧ c ≤ 127)) }
        d rest he rfl hd1]
    simp [h10, hd2, hd, List.filter_append, List.filter_cons, CHAR_CURLY_BRACE_END]
  · intro rest hi
    unfold parse_client_hostname
    exact parse_client_hostname_loop_aborts (10 :: rest) _ (Or.inr ⟨rest, rfl, rfl⟩) s _
      { st with buffer := [] } hsound he hi hs hfit0
      (by simp only [hi, List.length_append, List.length_cons]; omega)
  · intro hi
    unfold parse_client_hostname
    exact parse_client_hostname_loop_aborts [] _ (Or.inl ⟨rfl, rfl⟩) s _
      { st with buffer := [] } hsound he (by simpa using hi) hs hfit0
      (by simp only [hi]; omega)
  · intro hno
    constructor
    · intro rest hi
      unfold parse_client_hostname
      have hlen : st.input.length + 1 = (rest.length + 1 + 1) + s.length := by
        simp only [hi, List.length_append, List.length_cons]; omega
      rw [hlen, parse_client_hostname_loop_plain s (10 :: rest) _ { st with buffer := [] } he hi
        (hplain s hs hno) hfit0]
      rw [parse_client_hostname_loop,
        get_char_plain { st with buffer := [] ++ s.filter (fun c => decide (c ≠ 34 ∧ c ≤ 127)),
                                 input := 10 :: rest } 10 rest he rfl (by decide)]
      simp
    · intro hi
      unfold parse_client_hostname
      have hlen : st.input.length + 1 = 1 + s.length := by
        simp only [hi]; omega
      have hi1 : st.input = s ++ [] := by simp [hi]
      rw [hlen, parse_client_hostname_loop_plain s [] _ { st with buffer := [] } he hi1
        (hplain s hs hno) hfit0]
      rw [parse_client_hostname_loop, get_char_eof _ rfl]

set_option maxRecDepth 100000 in
/-- C19 (witness): the bytes `"host1"` before `;` leave `host1` in the
buffer; before a newline and at the end of the file they end the run. -/
theorem parse_client_hostname_buffer_witness :
    parse_client_hostname (parser_init (bytes "\"host1\"; ")) =
      Except.ok { parser_init (bytes " ") with buffer := bytes "host1" } ∧
    (parse_client_hostname (parser_init (bytes "\"host1\"\n")) =
        Except.error Abort.unexpectedNewline ∨
      parse_client_hostname (parser_init (bytes "\"host1\"\n")) =
        Except.error Abort.unbalancedBracket) ∧
    parse_client_hostname (parser_init (bytes "\"host1\"")) =
      Except.error Abort.unexpectedEOF :=
  ⟨(parse_client_hostname_buffer (parser_init (bytes "\"host1\"; ")) (bytes "\"host1\"") rfl
      (sound_init _) (by decide) (by decide)).1 59 (bytes " ") rfl (by decide) (Or.inr rfl)
      (by decide),
   (parse_client_hostname_buffer (parser_init (bytes "\"host1\"\n")) (bytes "\"host1\"") rfl
      (sound_init _) (by decide) (by decide)).2.2.1 [] rfl,
   ((parse_client_hostname_buffer (parser_init (bytes "\"host1\"")) (bytes "\"host1\"") rfl
      (sound_init _) (by decide) (by decide)).2.2.2.2 (by decide)).2 rfl⟩

set_option maxRecDepth 100000 in
/-- C19 (counterexample): the bytes `a}}b` come before `;` and before any
newline, yet `parse_client_hostname`, called in the block that the header
`lease 10.0.0.5 {` has opened, does not return with `a}}b` in the buffer: the
first closing brace closes the block, and at the second one `get_char` calls
`error()` ("unbalanced bracket"). So the file with
`client-hostname a}}b;` is rejected. -/
theorem parse_client_hostname_second_brace :
    (after_steps env_utc 1 (parser_init (bytes "lease 10.0.0.5 \x7b"))).inblock = true ∧
    (after_steps env_utc 1 (parser_init (bytes "lease 10.0.0.5 \x7b"))).eof = false ∧
    parse_client_hostname
        { after_steps env_utc 1 (parser_init (bytes "lease 10.0.0.5 \x7b")) with
          input := bytes "a\x7d\x7db; " } =
      Except.error Abort.unbalancedBracket ∧
    parse_lease_file env_utc opts_none 0
        (bytes "lease 10.0.0.5 \x7b client-hostname a\x7d\x7db; \x7d") =
      Except.error Abort.unbalancedBracket ∧
    parsed_list env_utc (bytes "lease 10.0.0.5 \x7b client-hostname ab; \x7d") =
      Except.ok [{ lease_zero with ipaddr := some (bytes "10.0.0.5"),
                                   client := some (bytes "ab") }] :=
  ⟨rfl, rfl, rfl, rfl, rfl⟩

/-! ## Runs through blocks, with text left to read -/

theorem render_blocks_append (bs1 bs2 : List Block) :
    render_blocks (bs1 ++ bs2) = render_blocks bs1 ++ render_blocks bs2 := by
  induction bs1 with
  | nil => rfl
  | cons b bs ih => simp [render_blocks, ih, List.append_assoc]

theorem render_body_append (ds1 ds2 : List (List Nat × Directive)) :
    render_body (ds1 ++ ds2) = render_body ds1 ++ render_body ds2 := by
  induction ds1 with
  | nil => rfl
  | cons gd ds ih =>
    obtain ⟨g, d⟩ := gd
    simp [render_body, ih, List.append_assoc]

/-- The parts of a well-formed sequence of blocks around one of them. -/
theorem wf_blocks_split (bs1 : List Block) (b : Block) (bs2 : List Block) :
    wf_blocks (bs1 ++ b :: bs2) →
      (∀ a ∈ bs1, a.wf ∧ a.after ≠ []) ∧ b.wf ∧ (bs2 ≠ [] → b.after ≠ []) ∧ wf_blocks bs2 := by
  induction bs1 with
  | nil =>
    intro h
    cases bs2 with
    | nil => exact ⟨fun _ ha => (by cases ha), h, fun hc => absurd rfl hc, trivial⟩
    | cons b1 bs => exact ⟨fun _ ha => (by cases ha), h.1, fun _ => h.2.1, h.2.2⟩
  | cons a bs1 ih =>
    intro h
    have h1 : a.wf ∧ a.after ≠ [] ∧ wf_blocks (bs1 ++ b :: bs2) := by
      cases bs1 with
      | nil => exact h
      | cons a1 bs => exact h
    obtain ⟨h2, h3, h4, h5⟩ := ih h1.2.2
    refine ⟨fun x hx => ?_, h3, h4, h5⟩
    rcases List.mem_cons.1 hx with rfl | hx
    · exact ⟨h1.1, h1.2.1⟩
    · exact h2 x hx

/-- Closed blocks, each with white space after it, are read one after the
other, and the lease list gets their records. -/
theorem reach_blocks (env : Env) (blocks : List Block) :
    ∀ (recs : List Lease) (st : Parser) (rest : List Nat), Outside recs st →
      st.input = render_blocks blocks ++ rest → (∀ b ∈ blocks, b.wf ∧ b.after ≠ []) →
      ∃ st1, Reach env st st1 ∧ st1.input = rest ∧
        Outside (recs ++ blocks.map (Block.record env)) st1 := by
  induction blocks with
  | nil =>
    intro recs st rest ho hi _
    exact ⟨st, Reach.start, hi, by simpa using ho⟩
  | cons b bs ih =>
    intro recs st rest ho hi hwf
    obtain ⟨hbwf, hafter⟩ := hwf b (List.mem_cons_self _ _)
    have hi0 : st.input = b.render ++ (render_blocks bs ++ rest) := by
      rw [hi]
      simp [render_blocks, List.append_assoc]
    obtain ⟨st1, hr1, hi1, hin1⟩ := reach_block env recs b st _ ho hi0 hbwf
    obtain ⟨c, ws, hcw⟩ := List.exists_cons_of_ne_nil hafter
    have hblank : blank (c :: ws) := by
      rw [← hcw]
      exact hbwf.2.2.2
    have hi1a : st1.input = CHAR_CURLY_BRACE_END :: c :: (ws ++ (render_blocks bs ++ rest)) := by
      rw [hi1, hcw]
      rfl
    obtain ⟨st2, hs2, hi2, ho2⟩ := lease_step_close env recs _ st1 c _ hin1 hi1a
      (hblank c (List.mem_cons_self _ _))
    obtain ⟨st3, hr3, hi3, ha3⟩ := reach_blank env ws st2 _ ho2.1 hi2
      (fun x hx => hblank x (List.mem_cons_of_mem _ hx))
    have ho3 := outside_agree _ st2 st3 ha3 ho2
    obtain ⟨st4, hr4, hi4, ho4⟩ := ih _ st3 rest ho3 hi3
      (fun x hx => hwf x (List.mem_cons_of_mem _ hx))
    refine ⟨st4, ?_, hi4, by simpa using ho4⟩
    exact reach_trans env _ _ _ hr1 (reach_trans env _ _ _ (reach_one env _ _ hs2 ho2.1)
      (reach_trans env _ _ _ hr3 hr4))

/-- From the closing brace of the open block the run goes on through the
blocks that follow to the end of the file. -/
theorem finishes_inside (env : Env) (recs : List Lease) (cur : Lease) (st : Parser)
    (after : List Nat) (bs : List Block) (hin : Inside recs cur st)
    (hi : st.input = CHAR_CURLY_BRACE_END :: (after ++ render_blocks bs))
    (hblank : blank after) (hne : bs ≠ [] → after ≠ []) (hwf : wf_blocks bs) :
    Finishes env st (recs ++ cur :: bs.map (Block.record env)) := by
  cases hafter : after with
  | nil =>
    have hbs : bs = [] := by
      by_contra hc
      exact hne hc hafter
    subst hbs
    rw [hafter] at hi
    obtain ⟨st2, S, hs, he, hl, hmap⟩ := lease_step_close_eof env recs _ st hin hi
    exact ⟨st, st2, S, Reach.start, hs, he, hl, by simpa using hmap⟩
  | cons c ws =>
    rw [hafter] at hi hblank
    obtain ⟨st2, hs2, hi2, ho2⟩ := lease_step_close env recs _ st c (ws ++ render_blocks bs)
      hin hi (hblank c (List.mem_cons_self _ _))
    obtain ⟨st3, hr3, hi3, ha3⟩ := reach_blank env ws st2 _ ho2.1 hi2
      (fun x hx => hblank x (List.mem_cons_of_mem _ hx))
    have ho3 := outside_agree _ st2 st3 ha3 ho2
    have hfin := finishes_blocks env bs _ st3 ho3 hi3 hwf
    have heq : recs ++ cur :: bs.map (Block.record env) =
        recs ++ [cur] ++ bs.map (Block.record env) := by simp
    rw [heq]
    exact finishes_of_reach env st st3 _
      (reach_trans env _ _ _ (reach_one env _ _ hs2 ho2.1) hr3) hfin

/-- A well-formed file in which bytes `x` that the parser passes over inside
a block, leaving the lease of the block as it is, stand after the first `n`
directives of one block: the run ends at the end of the file with the
records of the blocks. -/
theorem parse_inserted (env : Env) (lead : List Nat) (bs1 : List Block) (b : Block)
    (bs2 : List Block) (n : Nat) (x : List Nat) (hlead : blank lead)
    (hwf : wf_blocks (bs1 ++ b :: bs2))
    (hx : ∀ (recs : List Lease) (cur : Lease) (st : Parser) (rest : List Nat),
      Inside recs cur st → st.input = x ++ rest →
      ∃ st1, Reach env st st1 ∧ st1.input = rest ∧ Inside recs cur st1) :
    ∃ st S, parse_leases env
        (lead ++ (render_blocks bs1 ++ (b.render_with n x ++ render_blocks bs2))) =
          Except.ok st ∧
      Linked st.heap S ∧ S.map st.heap.lease = (bs1 ++ b :: bs2).map (Block.record env) := by
  obtain ⟨hwf1, hbwf, hne, hwf2⟩ := wf_blocks_split bs1 b bs2 hwf
  obtain ⟨hip, hbody, hclose, hafter⟩ := hbwf
  apply parse_of_finishes
  obtain ⟨st1, hr1, hi1, ha1⟩ := reach_blank env lead
    (parser_init (lead ++ (render_blocks bs1 ++ (b.render_with n x ++ render_blocks bs2))))
    _ rfl rfl hlead
  have ho1 := outside_agree _ _ st1 ha1 (outside_init _)
  obtain ⟨st2, hr2, hi2, ho2⟩ := reach_blocks env bs1 [] st1 _ ho1 hi1 hwf1
  have hi2a : st2.input = bytes "lease " ++ (b.ip ++ (32 :: 123 ::
      (render_body (b.body.take n) ++ (x ++ (render_body (b.body.drop n) ++ (b.close ++
        (CHAR_CURLY_BRACE_END :: (b.after ++ render_blocks bs2)))))))) := by
    rw [hi2]
    simp [Block.render_with, List.append_assoc, CHAR_CURLY_BRACE_END]
  obtain ⟨st3, hs3, hi3, hin3⟩ := lease_step_header env _ st2 b.ip _ ho2 hi2a hip
  obtain ⟨st4, hr4, hi4, hin4⟩ := reach_body env _ (b.body.take n) _ st3 _ hin3 hi3 (by simp)
    (fun gd hgd => hbody gd (List.mem_of_mem_take hgd))
  obtain ⟨st5, hr5, hi5, hin5⟩ := hx _ _ st4 _ hin4 hi4
  obtain ⟨st6, hr6, hi6, hin6⟩ := reach_body env _ (b.body.drop n) _ st5 _ hin5 hi5 (by simp)
    (fun gd hgd => hbody gd (List.mem_of_mem_drop hgd))
  obtain ⟨st7, hr7, hi7, ha7⟩ := reach_blank env b.close st6 _ hin6.1 hi6 hclose
  have hin7 := inside_agree _ _ st6 st7 ha7 hin6
  have hrec : ((b.body.drop n).map Prod.snd).foldl (Directive.apply env)
      (((b.body.take n).map Prod.snd).foldl (Directive.apply env)
        { lease_zero with ipaddr := some b.ip }) = b.record env := by
    unfold Block.record
    rw [← List.foldl_append, ← List.map_append, List.take_append_drop]
  rw [hrec] at hin7
  have hfin := finishes_inside env _ _ st7 b.after bs2 hin7 hi7 hafter hne hwf2
  have heq : [] ++ bs1.map (Block.record env) ++ b.record env :: bs2.map (Block.record env) =
      (bs1 ++ b :: bs2).map (Block.record env) := by simp
  rw [heq] at hfin
  exact finishes_of_reach env _ st7 _
    (reach_trans env _ _ _ hr1 (reach_trans env _ _ _ hr2 (reach_trans env _ _ _
      (reach_one env _ _ hs3 hin3.1) (reach_trans env _ _ _ hr4 (reach_trans env _ _ _ hr5
        (reach_trans env _ _ _ hr6 hr7)))))) hfin

/-! ## Statements that the parser passes over inside a block -/

/-- The iteration for a word that is no keyword, inside a block. -/
theorem lease_step_word (env : Env) (recs : List Lease) (cur : Lease) (st : Parser)
    (w : List Nat) (d : Nat) (rest : List Nat) (hin : Inside recs cur st)
    (hi : st.input = w ++ d :: rest) (hw : word w) (hk : no_keyword w) (hd : delimiter d) :
    ∃ st1, lease_step env st = Except.ok st1 ∧ st1.input = rest ∧ Inside recs cur st1 := by
  have hg := get_token_unknown st w d rest hin.1 hi hw.2 hd (lookup_invalid w hk)
    (le_of_lt hw.1)
  refine ⟨_, lease_step_invalid env st _ hg, rfl, ?_⟩
  exact inside_agree recs cur st _ ⟨rfl, rfl, rfl, rfl, rfl⟩ hin

/-- Words that are no keywords, each with its delimiter, are passed over. -/
theorem reach_words (env : Env) (ws : List (List Nat × Nat)) :
    ∀ (recs : List Lease) (cur : Lease) (st : Parser) (rest : List Nat), Inside recs cur st →
      st.input = render_words ws ++ rest →
      (∀ wd ∈ ws, word wd.1 ∧ no_keyword wd.1 ∧ delimiter wd.2) →
      ∃ st1, Reach env st st1 ∧ st1.input = rest ∧ Inside recs cur st1 := by
  induction ws with
  | nil =>
    intro recs cur st rest hin hi _
    exact ⟨st, Reach.start, hi, hin⟩
  | cons wd ws ih =>
    intro recs cur st rest hin hi hws
    obtain ⟨w, d⟩ := wd
    obtain ⟨hw, hk, hd⟩ := hws (w, d) (List.mem_cons_self _ _)
    have hi1 : st.input = w ++ d :: (render_words ws ++ rest) := by
      rw [hi]
      simp [render_words, List.append_assoc]
    obtain ⟨st1, hs1, hi2, hin1⟩ := lease_step_word env recs cur st w d _ hin hi1 hw hk hd
    obtain ⟨st2, hr2, hi3, hin2⟩ := ih recs cur st1 rest hin1 hi2
      (fun x hx => hws x (List.mem_cons_of_mem _ hx))
    exact ⟨st2, reach_trans env _ _ _ (reach_one env _ _ hs1 hin1.1) hr2, hi3, hin2⟩

/-- White space and then words that are no keywords are passed over. -/
theorem reach_gap_words (env : Env) (gap : List Nat) (ws : List (List Nat × Nat))
    (hgap : blank gap) (hws : ∀ wd ∈ ws, word wd.1 ∧ no_keyword wd.1 ∧ delimiter wd.2)
    (recs : List Lease) (cur : Lease) (st : Parser) (rest : List Nat)
    (hin : Inside recs cur st) (hi : st.input = (gap ++ render_words ws) ++ rest) :
    ∃ st1, Reach env st st1 ∧ st1.input = rest ∧ Inside recs cur st1 := by
  rw [List.append_assoc] at hi
  obtain ⟨st1, hr1, hi1, ha1⟩ := reach_blank env gap st _ hin.1 hi hgap
  have hin1 := inside_agree recs cur st st1 ha1 hin
  obtain ⟨st2, hr2, hi2, hin2⟩ := reach_words env ws recs cur st1 rest hin1 hi1 hws
  exact ⟨st2, reach_trans env _ _ _ hr1 hr2, hi2, hin2⟩

theorem render_with_nil (b : Block) (n : Nat) : b.render_with n [] = b.render := by
  unfold Block.render_with Block.render
  rw [List.nil_append, ← List.append_assoc (render_body _) (render_body _), ← render_body_append,
    List.take_append_drop]

/-- The function `get_token` on a word of more than 2048 bytes: the store of byte 2049
is outside `buffer`. -/
theorem get_token_overflow (st : Parser) (w : List Nat) (c : Nat) (rest : List Nat)
    (he : st.eof = false) (hi : st.input = w ++ c :: rest)
    (hw : ∀ x ∈ w, isspace x = false ∧ x ≠ CHAR_SEMICOLON ∧ x ≠ 35 ∧ x ≠ CHAR_CURLY_BRACE_END)
    (hc : isspace c = false ∧ c ≠ CHAR_SEMICOLON ∧ c ≠ CHAR_CURLY_BRACE_END)
    (hlen : w.length = BUFFER_SIZE) :
    get_token st = Except.error Abort.bufferOverflow := by
  obtain ⟨h1, h2, h4⟩ := hc
  have hdel : ¬ (c = 9 ∨ c = 10 ∨ c = CHAR_SEMICOLON ∨ isspace c = true) := by
    rintro (hc | hc | hc | hc)
    · subst hc; simp [isspace] at h1
    · subst hc; simp [isspace] at h1
    · exact h2 hc
    · rw [h1] at hc; cases hc
  unfold get_token
  have hfuel : st.input.length + 1 = (rest.length + 1 + 1) + w.length := by
    simp only [hi, List.length_append, List.length_cons]; omega
  rw [hfuel, get_token_loop_plain w (c :: rest) _ { st with buffer := [], hastoken := false } he hi hw
    (by simp only [List.length_nil]; omega)]
  rw [get_token_loop,
    get_char_plain { st with buffer := [] ++ w, hastoken := false, input := c :: rest } c rest he
      rfl h4]
  have hfull : BUFFER_SIZE ≤ ([] ++ w).length := by
    simp only [List.nil_append]; omega
  simp only [hdel, hfull, if_false, if_true]

/-- The lease lists of a file and of the file with passed-over bytes in one
block, each parsed in a run of its own, and the report of the second. -/
theorem inserted_runs (env env0 : Env) (o : Opts) (tnow : Int) (lead : List Nat)
    (bs1 : List Block) (b : Block) (bs2 : List Block) (n : Nat) (x : List Nat)
    (hlead : blank lead) (hwf : wf_blocks (bs1 ++ b :: bs2))
    (hx : ∀ (recs : List Lease) (cur : Lease) (st : Parser) (rest : List Nat),
      Inside recs cur st → st.input = x ++ rest →
      ∃ st1, Reach env st st1 ∧ st1.input = rest ∧ Inside recs cur st1) :
    parsed_list env0 (lead ++ render_blocks (bs1 ++ b :: bs2)) =
      Except.ok ((bs1 ++ b :: bs2).map (Block.record env0)) ∧
    parsed_list env (lead ++ (render_blocks bs1 ++ (b.render_with n x ++ render_blocks bs2))) =
      Except.ok ((bs1 ++ b :: bs2).map (Block.record env)) ∧
    ∃ rows, parse_lease_file env o tnow
        (lead ++ (render_blocks bs1 ++ (b.render_with n x ++ render_blocks bs2))) =
      Except.ok rows := by
  obtain ⟨st, S, hp, hl, hmap⟩ := parse_blocks env0 lead _ hlead hwf
  obtain ⟨st1, S1, hp1, hl1, hmap1⟩ := parse_inserted env lead bs1 b bs2 n x hlead hwf hx
  refine ⟨?_, ?_, _, parse_lease_file_rows env o tnow _ st1 S1 hp1 hl1⟩
  · unfold parsed_list
    rw [hp]
    simp only
    rw [lease_list_linked st.heap S hl, hmap]
  · unfold parsed_list
    rw [hp1]
    simp only
    rw [lease_list_linked st1.heap S1 hl1, hmap1]

/-- C14 (what the code does): for every file in the layout that `dhcpd`
writes, every place after the first `n` directives of one of its blocks, and
all words `u` and `v` of fewer than 2048 bytes that are no keywords (for
`strcasecmp`, which reads them as C strings) and hold no white space, `;`,
`#` or closing brace: with the statement `u;`, or `u v;`, put in at that
place after white space, the file is parsed without error as the file
without it is, the report is printed, and the lease lists of the two files
have one record for each block with the same address, MAC address, client
name and abandoned mark. The two files are parsed in runs of their own
(`env0` and `env`); the times of the records, which `mktime` computes with a
`tm_isdst` that the program does not initialise, are not compared. -/
theorem unknown_statement_ignored (env env0 : Env) (o : Opts) (tnow : Int) (lead : List Nat)
    (bs1 : List Block) (b : Block) (bs2 : List Block) (n : Nat) (gap u v : List Nat) (d : Nat)
    (hlead : blank lead) (hwf : wf_blocks (bs1 ++ b :: bs2)) (hgap : blank gap)
    (hu : word u ∧ no_keyword u) (hv : word v ∧ no_keyword v) (hd : isspace d = true) :
    ∃ recs0 recs1 recs2 rows1 rows2,
      parsed_list env0 (lead ++ render_blocks (bs1 ++ b :: bs2)) = Except.ok recs0 ∧
      recs0.length = (bs1 ++ b :: bs2).length ∧
      parsed_list env (lead ++ (render_blocks bs1 ++
          (b.render_with n (gap ++ (u ++ [CHAR_SEMICOLON])) ++ render_blocks bs2))) =
        Except.ok recs1 ∧
      parse_lease_file env o tnow (lead ++ (render_blocks bs1 ++
          (b.render_with n (gap ++ (u ++ [CHAR_SEMICOLON])) ++ render_blocks bs2))) =
        Except.ok rows1 ∧
      recs1.map Lease.timeless = recs0.map Lease.timeless ∧
      parsed_list env (lead ++ (render_blocks bs1 ++
          (b.render_with n (gap ++ (u ++ d :: (v ++ [CHAR_SEMICOLON]))) ++ render_blocks bs2))) =
        Except.ok recs2 ∧
      parse_lease_file env o tnow (lead ++ (render_blocks bs1 ++
          (b.render_with n (gap ++ (u ++ d :: (v ++ [CHAR_SEMICOLON]))) ++ render_blocks bs2))) =
        Except.ok rows2 ∧
      recs2.map Lease.timeless = recs0.map Lease.timeless := by
  have h1 := inserted_runs env env0 o tnow lead bs1 b bs2 n
    (gap ++ render_words [(u, CHAR_SEMICOLON)])
    hlead hwf (reach_gap_words env gap _ hgap (by
      intro wd hwd
      simp only [List.mem_singleton] at hwd
      subst hwd
      exact ⟨hu.1, hu.2, Or.inr rfl⟩))
  have h2 := inserted_runs env env0 o tnow lead bs1 b bs2 n
    (gap ++ render_words [(u, d), (v, CHAR_SEMICOLON)]) hlead hwf
    (reach_gap_words env gap _ hgap (by
      intro wd hwd
      simp only [List.mem_cons, List.mem_singleton, List.not_mem_nil, or_false] at hwd
      rcases hwd with rfl | rfl
      · exact ⟨hu.1, hu.2, Or.inl hd⟩
      · exact ⟨hv.1, hv.2, Or.inr rfl⟩))
  have e1 : render_words [(u, CHAR_SEMICOLON)] = u ++ [CHAR_SEMICOLON] := by
    simp [render_words]
  have e2 : render_words [(u, d), (v, CHAR_SEMICOLON)] = u ++ d :: (v ++ [CHAR_SEMICOLON]) := by
    simp [render_words]
  rw [e1] at h1
  rw [e2] at h2
  obtain ⟨h10, h11, rows1, h12⟩ := h1
  obtain ⟨_, h21, rows2, h22⟩ := h2
  exact ⟨_, _, _, rows1, rows2, h10, by simp, h11, h12, records_timeless env env0 _, h21, h22,
    records_timeless env env0 _⟩

set_option maxRecDepth 100000 in
/-- C14 (witness): the statements `uid;` and `uid x;` after the first
directive of the first of two blocks. -/
theorem unknown_statement_ignored_witness :
    [] ++ (render_blocks [] ++ (block_lines.render_with 1
        ([10, 32, 32] ++ (bytes "uid" ++ 32 :: (bytes "x" ++ [CHAR_SEMICOLON]))) ++
        render_blocks [block_host1])) =
      bytes "lease 10.0.0.6 \x7b\n  ends 3 2024/01/08 10:00:00;\n  uid x;\n  hardware ethernet aa:bb:cc:dd:ee:00;\n  abandoned;\n\x7d\n" ++ file_host1 ∧
    ∃ recs0 recs1 recs2 rows1 rows2,
      parsed_list env_stale ([] ++ render_blocks ([] ++ block_lines :: [block_host1])) =
        Except.ok recs0 ∧
      recs0.length = ([] ++ block_lines :: [block_host1]).length ∧
      parsed_list env_utc ([] ++ (render_blocks [] ++
          (block_lines.render_with 1 ([10, 32, 32] ++ (bytes "uid" ++ [CHAR_SEMICOLON])) ++
            render_blocks [block_host1]))) =
        Except.ok recs1 ∧
      parse_lease_file env_utc opts_none 0 ([] ++ (render_blocks [] ++
          (block_lines.render_with 1 ([10, 32, 32] ++ (bytes "uid" ++ [CHAR_SEMICOLON])) ++
            render_blocks [block_host1]))) =
        Except.ok rows1 ∧
      recs1.map Lease.timeless = recs0.map Lease.timeless ∧
      parsed_list env_utc ([] ++ (render_blocks [] ++
          (block_lines.render_with 1
            ([10, 32, 32] ++ (bytes "uid" ++ 32 :: (bytes "x" ++ [CHAR_SEMICOLON]))) ++
            render_blocks [block_host1]))) =
        Except.ok recs2 ∧
      parse_lease_file env_utc opts_none 0 ([] ++ (render_blocks [] ++
          (block_lines.render_with 1
            ([10, 32, 32] ++ (bytes "uid" ++ 32 :: (bytes "x" ++ [CHAR_SEMICOLON]))) ++
            render_blocks [block_host1]))) =
        Except.ok rows2 ∧
      recs2.map Lease.timeless = recs0.map Lease.timeless :=
  ⟨by decide,
   unknown_statement_ignored env_utc env_stale opts_none 0 [] [] block_lines [block_host1] 1
     [10, 32, 32] (bytes "uid") (bytes "x") 32 (by decide) (by decide) (by decide) (by decide)
     (by decide) (by decide)⟩

/-- The run on a file whose first block holds, after the header and a
newline, a word of more than 2048 bytes. -/
theorem parse_long_word (env : Env) (o : Opts) (tnow : Int) (ip w : List Nat) (c : Nat)
    (rest : List Nat) (hip : literal ip)
    (hw : ∀ x ∈ w, isspace x = false ∧ x ≠ CHAR_SEMICOLON ∧ x ≠ 35 ∧ x ≠ CHAR_CURLY_BRACE_END)
    (hc : isspace c = false ∧ c ≠ CHAR_SEMICOLON ∧ c ≠ CHAR_CURLY_BRACE_END)
    (hlen : w.length = BUFFER_SIZE) :
    parse_lease_file env o tnow
        (bytes "lease " ++ (ip ++ (32 :: 123 :: ([10] ++ (w ++ c :: rest))))) =
      Except.error Abort.bufferOverflow := by
  obtain ⟨st1, hs1, hi1, hin1⟩ := lease_step_header env [] (parser_init _) ip _
    (outside_init _) rfl hip
  obtain ⟨st2, hr2, hi2, ha2⟩ := reach_blank env [10] st1 _ hin1.1 hi1 (by decide)
  have hin2 := inside_agree [] _ st1 st2 ha2 hin1
  have hg := get_token_overflow st2 w c rest hin2.1 hi2 hw hc hlen
  have hs : lease_step env st2 = Except.error Abort.bufferOverflow := by
    unfold lease_step
    rw [hg]
  exact parse_lease_file_error env o tnow _ _
    (parse_of_reach_error env _ st2 _
      (reach_trans env _ _ _ (reach_one env _ _ hs1 hin1.1) hr2) hs)

set_option maxRecDepth 100000 in
/-- C14 (counterexample): a word of 2049 bytes `x` is no keyword and holds no
white space, `;`, `#` or brace, yet with the statement made of it put into
the block the run does not parse the file as before: `get_token` stores byte
2049 of the word outside `buffer[2048]` (dhlease.c:648), which is undefined
behaviour. And the six bytes `lease` and NUL are not a keyword as bytes, but
`lookup` reads `buffer` as a C string: with them as a statement the run ends
with "lease section began inside existing lease section". Without the
statement the file parses to one record. -/
theorem long_statement_overflows :
    (∀ (env : Env) (o : Opts) (tnow : Int),
      parse_lease_file env o tnow
          (bytes "lease " ++ (bytes "10.0.0.5" ++ (32 :: 123 :: ([10] ++
            (List.replicate 2048 120 ++ 120 :: bytes ";\n\x7d\n"))))) =
        Except.error Abort.bufferOverflow) ∧
    no_keyword (List.replicate 2049 120) ∧
    (∀ (env : Env) (o : Opts) (tnow : Int),
      parse_lease_file env o tnow
          (bytes "lease 10.0.0.5 \x7b\n" ++ (bytes "lease" ++ 0 :: bytes ";\n\x7d\n")) =
        Except.error Abort.nestedLease) ∧
    (∀ env : Env, parsed_list env (bytes "lease 10.0.0.5 \x7b\n\x7d\n") =
      Except.ok [{ lease_zero with ipaddr := some (bytes "10.0.0.5") }]) :=
  ⟨fun env o tnow => parse_long_word env o tnow (bytes "10.0.0.5") (List.replicate 2048 120) 120
      (bytes ";\n\x7d\n") (by decide)
      (fun x hx => by rw [List.eq_of_mem_replicate hx]; decide) (by decide)
      (List.length_replicate _ _),
    by decide,
    fun env o tnow => parse_lease_file_error env o tnow _ _ rfl,
    fun _ => rfl⟩

/-! ## The word after `hardware` -/

/-- A word that differs from a keyword for `strcasecmp` does not get its value. -/
theorem lookup_ne_of (w : List Nat) (k : List Nat × Nat) (hk : k ∈ keywords)
    (h : strcasecmp w k.1 ≠ 0) : lookup w ≠ k.2 := by
  intro hc
  have hne : lookup w ≠ TOK_INVALID_TOKEN := by
    rw [hc]
    exact keywords_valid k hk
  obtain ⟨k1, hk1, h0, h1⟩ := lookup_sound w hne
  have : k1 = k := keywords_values k1 hk1 k hk (h1.symm.trans hc)
  subst this
  exact h h0

/-- The case `TOK_HARDWARE` of the switch when the next token is not
`ethernet`: nothing is done after `get_token`. -/
theorem lease_switch_hardware_other (env : Env) (s s1 : Parser) (tmp : Nat)
    (ht : s.token = TOK_HARDWARE) (hb : s.inblock = true)
    (hg : get_token s = Except.ok (tmp, s1)) (hne : tmp ≠ TOK_ETHERNET) :
    lease_switch env s = Except.ok s1 := by
  have h1 : ¬ TOK_HARDWARE = TOK_LEASE := by decide
  have h2 : ¬ TOK_HARDWARE = TOK_STARTS := by decide
  have h3 : ¬ TOK_HARDWARE = TOK_ENDS := by decide
  unfold lease_switch check_block_scope
  simp only [ht, h1, h2, h3, hb, Bool.true_eq_false, if_true, if_false, hg, hne, ne_eq,
    not_false_eq_true]

/-- The statement `hardware w ADDR;` with a word `w` that is neither
`ethernet` nor `lease` is passed over inside a block. -/
theorem reach_hardware_other (env : Env) (w addr : List Nat) (d : Nat) (hw : word w)
    (hwe : strcasecmp w (bytes "ethernet") ≠ 0) (hwl : strcasecmp w (bytes "lease") ≠ 0)
    (hd : isspace d = true) (ha : word addr) (hak : no_keyword addr)
    (recs : List Lease) (cur : Lease) (st : Parser) (rest : List Nat)
    (hin : Inside recs cur st)
    (hi : st.input = (bytes "hardware " ++ (w ++ d :: (addr ++ [CHAR_SEMICOLON]))) ++ rest) :
    ∃ st1, Reach env st st1 ∧ st1.input = rest ∧ Inside recs cur st1 := by
  have hin0 := hin
  obtain ⟨he, hb, hc, S, l, hl, hmap, hlb, hlS, hlt, hcur⟩ := hin
  have hi1 : st.input = bytes "hardware" ++ 32 :: (w ++ d :: (addr ++ CHAR_SEMICOLON :: rest)) := by
    rw [hi]
    simp [List.append_assoc]
    rfl
  have hstep := lease_step_keyword env recs cur st (bytes "hardware", TOK_HARDWARE) 32 _ hin0
    (by decide) (by decide) hi1 (Or.inl (by decide))
  have hne_eth : lookup w ≠ TOK_ETHERNET :=
    lookup_ne_of w (bytes "ethernet", TOK_ETHERNET) (by decide) hwe
  have hne_lease : lookup w ≠ TOK_LEASE :=
    lookup_ne_of w (bytes "lease", TOK_LEASE) (by decide) hwl
  have hmid : ∃ s1, lease_step env st = Except.ok s1 ∧
      s1.input = addr ++ CHAR_SEMICOLON :: rest ∧ Inside recs cur s1 := by
    by_cases hk : lookup w = TOK_INVALID_TOKEN
    · have hg := get_token_unknown
        { st with input := w ++ d :: (addr ++ CHAR_SEMICOLON :: rest), buffer := bytes "hardware",
                  hastoken := true, count := st.count + 1, token := TOK_HARDWARE }
        w d (addr ++ CHAR_SEMICOLON :: rest) he rfl hw.2 (Or.inl hd) hk (le_of_lt hw.1)
      refine ⟨_, hstep.trans (lease_switch_hardware_other env _ _ _ rfl hb hg (by decide)), rfl,
        he, hb, ?_, S, l, hl, hmap, hlb, hlS, hlt, hcur⟩
      exact Nat.le_succ_of_le hc
    · have hg := get_token_keyword
        { st with input := w ++ d :: (addr ++ CHAR_SEMICOLON :: rest), buffer := bytes "hardware",
                  hastoken := true, count := st.count + 1, token := TOK_HARDWARE }
        w d (addr ++ CHAR_SEMICOLON :: rest) he rfl hw.2 (Or.inl hd) hk hne_lease
        (le_of_lt hw.1)
      refine ⟨_, hstep.trans (lease_switch_hardware_other env _ _ _ rfl hb hg hne_eth), rfl,
        he, hb, ?_, S, l, hl, hmap, hlb, hlS, hlt, hcur⟩
      exact Nat.le_succ_of_le (Nat.le_succ_of_le hc)
  obtain ⟨s1, hs1, hi2, hin1⟩ := hmid
  obtain ⟨s2, hs2, hi3, hin2⟩ := lease_step_word env recs cur s1 addr CHAR_SEMICOLON rest hin1 hi2
    ha hak (Or.inr rfl)
  exact ⟨s2, reach_trans env _ _ _ (reach_one env _ _ hs1 hin1.1) (reach_one env _ _ hs2 hin2.1),
    hi3, hin2⟩

/-- C20 (what the code does): for every file in the layout that `dhcpd`
writes, every place after the first `n` directives of one of its blocks,
every word `w` of fewer than 2048 bytes that is neither `ethernet` nor
`lease` (for `strcasecmp`) and every word `ADDR` of fewer than 2048 bytes
that is no keyword: with the statement `hardware w ADDR;` put in at that
place after white space, the file is parsed without error as the file
without it is, the report is printed, and the lease lists of the two files
have one record for each block with the same address, MAC address, client
name and abandoned mark. The two files are parsed in runs of their own
(`env0` and `env`); the times of the records, which `mktime` computes with a
`tm_isdst` that the program does not initialise, are not compared. -/
theorem hardware_other_ignored (env env0 : Env) (o : Opts) (tnow : Int) (lead : List Nat)
    (bs1 : List Block) (b : Block) (bs2 : List Block) (n : Nat) (gap w addr : List Nat) (d : Nat)
    (hlead : blank lead) (hwf : wf_blocks (bs1 ++ b :: bs2)) (hgap : blank gap)
    (hw : word w) (hwe : strcasecmp w (bytes "ethernet") ≠ 0)
    (hwl : strcasecmp w (bytes "lease") ≠ 0) (hd : isspace d = true)
    (ha : word addr ∧ no_keyword addr) :
    ∃ recs0 recs1 rows1,
      parsed_list env0 (lead ++ render_blocks (bs1 ++ b :: bs2)) = Except.ok recs0 ∧
      recs0.length = (bs1 ++ b :: bs2).length ∧
      parsed_list env (lead ++ (render_blocks bs1 ++
          (b.render_with n
            (gap ++ (bytes "hardware " ++ (w ++ d :: (addr ++ [CHAR_SEMICOLON])))) ++
            render_blocks bs2))) =
        Except.ok recs1 ∧
      parse_lease_file env o tnow (lead ++ (render_blocks bs1 ++
          (b.render_with n
            (gap ++ (bytes "hardware " ++ (w ++ d :: (addr ++ [CHAR_SEMICOLON])))) ++
            render_blocks bs2))) =
        Except.ok rows1 ∧
      recs1.map Lease.timeless = recs0.map Lease.timeless ∧
      recs1.map Lease.macaddr = recs0.map Lease.macaddr := by
  obtain ⟨h0, h1, rows1, h2⟩ := inserted_runs env env0 o tnow lead bs1 b bs2 n
    (gap ++ (bytes "hardware " ++ (w ++ d :: (addr ++ [CHAR_SEMICOLON])))) hlead hwf (by
      intro recs cur st rest hin hi
      rw [List.append_assoc] at hi
      obtain ⟨st1, hr1, hi1, ha1⟩ := reach_blank env gap st _ hin.1 hi hgap
      have hin1 := inside_agree recs cur st st1 ha1 hin
      obtain ⟨st2, hr2, hi2, hin2⟩ := reach_hardware_other env w addr d hw hwe hwl hd ha.1 ha.2
        recs cur st1 rest hin1 hi1
      exact ⟨st2, reach_trans env _ _ _ hr1 hr2, hi2, hin2⟩)
  have ht := records_timeless env env0 (bs1 ++ b :: bs2)
  refine ⟨_, _, rows1, h0, by simp, h1, h2, ht, ?_⟩
  have hm := congrArg (List.map Lease.macaddr) ht
  simpa [List.map_map, Function.comp, Lease.timeless] using hm

set_option maxRecDepth 100000 in
/-- C20 (witness): the statement `hardware token-ring 00:11:22;` after the
first directive of a block of several lines. -/
theorem hardware_other_ignored_witness :
    [] ++ (render_blocks [] ++ (block_lines.render_with 1
        ([10, 32, 32] ++ (bytes "hardware " ++ (bytes "token-ring" ++ 32 ::
          (bytes "00:11:22" ++ [CHAR_SEMICOLON])))) ++ render_blocks [])) =
      bytes "lease 10.0.0.6 \x7b\n  ends 3 2024/01/08 10:00:00;\n  hardware token-ring 00:11:22;\n  hardware ethernet aa:bb:cc:dd:ee:00;\n  abandoned;\n\x7d\n" ∧
    ∃ recs0 recs1 rows1,
      parsed_list env_stale ([] ++ render_blocks ([] ++ block_lines :: [])) = Except.ok recs0 ∧
      recs0.length = ([] ++ block_lines :: []).length ∧
      parsed_list env_utc ([] ++ (render_blocks [] ++
          (block_lines.render_with 1
            ([10, 32, 32] ++ (bytes "hardware " ++ (bytes "token-ring" ++ 32 ::
              (bytes "00:11:22" ++ [CHAR_SEMICOLON])))) ++
            render_blocks []))) =
        Except.ok recs1 ∧
      parse_lease_file env_utc opts_none 0 ([] ++ (render_blocks [] ++
          (block_lines.render_with 1
            ([10, 32, 32] ++ (bytes "hardware " ++ (bytes "token-ring" ++ 32 ::
              (bytes "00:11:22" ++ [CHAR_SEMICOLON])))) ++
            render_blocks []))) =
        Except.ok rows1 ∧
      recs1.map Lease.timeless = recs0.map Lease.timeless ∧
      recs1.map Lease.macaddr = recs0.map Lease.macaddr :=
  ⟨by decide,
   hardware_other_ignored env_utc env_stale opts_none 0 [] [] block_lines [] 1 [10, 32, 32]
     (bytes "token-ring") (bytes "00:11:22") 32 (by decide) (by decide) (by decide) (by decide)
     (by decide) (by decide) (by decide) (by decide)⟩

set_option maxRecDepth 100000 in
/-- C20 (counterexample): the word `lease` is not `ethernet`, yet with
`hardware lease aa:bb;` in the block the record of the block has no address:
`get_token`, called for the word after `hardware`, allocates a new lease for
`lbuf`, and the fields stored before, here also the MAC address and the client
name, are lost. -/
theorem hardware_lease_resets_record :
    strcasecmp (bytes "lease") (bytes "ethernet") ≠ 0 ∧
    parsed_list env_utc (bytes "lease 10.0.0.5 \x7b hardware lease aa:bb; \x7d") =
      Except.ok [lease_zero] ∧
    parsed_list env_utc (bytes "lease 10.0.0.5 \x7b \x7d") =
      Except.ok [{ lease_zero with ipaddr := some (bytes "10.0.0.5") }] ∧
    parsed_list env_utc (bytes "lease 10.0.0.5 \x7b hardware ethernet 11:22; client-hostname \"h\"; hardware lease aa:bb; \x7d") =
      Except.ok [lease_zero] ∧
    parsed_list env_utc (bytes "lease 10.0.0.5 \x7b hardware ethernet 11:22; client-hostname \"h\"; \x7d") =
      Except.ok [{ lease_zero with ipaddr := some (bytes "10.0.0.5"),
                                   macaddr := some (bytes "11:22"),
                                   client := some (bytes "h") }] :=
  ⟨by decide, rfl, rfl, rfl, rfl⟩

/-! ## A block that the end of the file leaves open -/

/-- The iteration at the end of the file, inside a block: the loop ends, and
the lease of the block is not in the queue. -/
theorem lease_step_end (env : Env) (recs : List Lease) (cur : Lease) (st : Parser)
    (hin : Inside recs cur st) (hi : st.input = []) :
    ∃ st1 S, lease_step env st = Except.ok st1 ∧ st1.eof = true ∧
      Linked st1.heap S ∧ S.map st1.heap.lease = recs := by
  obtain ⟨_, _, _, S, l, hl, hmap, _⟩ := hin
  rw [lease_step_invalid env st _ (get_token_eof st hi)]
  exact ⟨_, S, rfl, rfl, hl, hmap⟩

/-- White space up to the end of the file, inside a block. -/
theorem finishes_open (env : Env) (recs : List Lease) (cur : Lease) (st : Parser)
    (ws : List Nat) (hin : Inside recs cur st) (hi : st.input = ws) (hws : blank ws) :
    Finishes env st recs := by
  have hi0 : st.input = ws ++ [] := by simp [hi]
  obtain ⟨st1, hr1, hi1, ha1⟩ := reach_blank env ws st _ hin.1 hi0 hws
  have hin1 := inside_agree recs cur st st1 ha1 hin
  obtain ⟨st2, S, hs, he, hl, hmap⟩ := lease_step_end env recs cur st1 hin1 hi1
  exact ⟨st1, st2, S, hr1, hs, he, hl, hmap⟩

/-- An assignment to a field of the lease of the open block leaves the lease
list as it is. -/
theorem inside_set_lbuf_list (recs : List Lease) (cur : Lease) (st st0 : Parser)
    (f : Lease → Lease) (hin : Inside recs cur st) (h3 : st0.heap = st.heap)
    (h4 : st0.lbuf = st.lbuf) :
    ∃ st1 S, set_lbuf st0 f = Except.ok st1 ∧ st1.eof = st0.eof ∧ Linked st1.heap S ∧
      S.map st1.heap.lease = recs := by
  obtain ⟨_, _, _, S, l, hl, hmap, hlb, hlS, hlt, _⟩ := hin
  have hload : st.heap.nodes[l]? = some (st.heap.nodes[l]) := List.getElem?_eq_getElem hlt
  obtain ⟨hl1, hother, _⟩ :=
    setdata_linked st.heap S l _ (f (st.heap.nodes[l]).toLease) hl hload
  refine ⟨_, S, set_lbuf_eq st0 f l _ (h4.trans hlb) (by rw [h3]; exact hload), rfl, ?_, ?_⟩
  · rw [h3]; exact hl1
  · rw [← hmap, h3]
    apply List.map_congr_left
    intro k hk
    exact hother k (fun hkl => hlS (hkl ▸ hk))

/-- The iteration for a well-formed directive other than `abandoned`, with
anything after it. -/
theorem lease_step_directive_any (env : Env) (recs : List Lease) (cur : Lease) (st : Parser)
    (d : Directive) (rest : List Nat) (hin : Inside recs cur st)
    (hi : st.input = d.render ++ rest) (hwf : d.wf) (hd : d ≠ Directive.abandoned) :
    ∃ st1, lease_step env st = Except.ok st1 ∧ st1.input = rest ∧
      Inside recs (d.apply env cur) st1 := by
  have hin0 := hin
  obtain ⟨he, hb, hc, _⟩ := hin
  cases d with
  | starts w t =>
    have hi1 : st.input = bytes "starts" ++ 32 :: (w :: 32 :: (t.render ++ CHAR_SEMICOLON :: rest)) := by
      rw [hi]
      simp [Directive.render, CHAR_SEMICOLON]
      rfl
    rw [lease_step_keyword env recs cur st (bytes "starts", TOK_STARTS) 32 _ hin0 (by decide)
      (by decide) hi1 (Or.inl (by decide))]
    rw [lease_switch_starts env _ w t rest ?_ ?_ ?_ ?_ hwf.1 hwf.2]
    · exact inside_set_lbuf recs cur st _ _ hin0 rfl rfl rfl rfl (Nat.le_succ _)
    · rfl
    · exact hb
    · exact he
    · rfl
  | ends w t =>
    have hi1 : st.input = bytes "ends" ++ 32 :: (w :: 32 :: (t.render ++ CHAR_SEMICOLON :: rest)) := by
      rw [hi]
      simp [Directive.render, CHAR_SEMICOLON]
      rfl
    rw [lease_step_keyword env recs cur st (bytes "ends", TOK_ENDS) 32 _ hin0 (by decide)
      (by decide) hi1 (Or.inl (by decide))]
    rw [lease_switch_ends env _ w t rest ?_ ?_ ?_ ?_ hwf.1 hwf.2]
    · exact inside_set_lbuf recs cur st _ _ hin0 rfl rfl rfl rfl (Nat.le_succ _)
    · rfl
    · exact hb
    · exact he
    · rfl
  | hardware_ethernet mac =>
    have hi1 : st.input = bytes "hardware" ++ 32 ::
        (bytes "ethernet" ++ 32 :: (mac ++ CHAR_SEMICOLON :: rest)) := by
      rw [hi]
      simp [Directive.render, CHAR_SEMICOLON]
      rfl
    rw [lease_step_keyword env recs cur st (bytes "hardware", TOK_HARDWARE) 32 _ hin0 (by decide)
      (by decide) hi1 (Or.inl (by decide))]
    rw [lease_switch_hardware env _ mac rest ?_ ?_ ?_ ?_ hwf]
    · exact inside_set_lbuf recs cur st _ _ hin0 rfl rfl rfl rfl
        (le_trans (Nat.le_succ _) (Nat.le_succ _))
    · rfl
    · exact hb
    · exact he
    · rfl
  | client_hostname name =>
    have hi1 : st.input = bytes "client-hostname" ++ 32 ::
        (34 :: (name ++ 34 :: CHAR_SEMICOLON :: rest)) := by
      rw [hi]
      simp [Directive.render, CHAR_SEMICOLON]
      rfl
    rw [lease_step_keyword env recs cur st (bytes "client-hostname", TOK_CLIENT_HOSTNAME) 32 _
      hin0 (by decide) (by decide) hi1 (Or.inl (by decide))]
    rw [lease_switch_client env _ name rest ?_ ?_ ?_ ?_ hwf]
    · exact inside_set_lbuf recs cur st _ _ hin0 rfl rfl rfl rfl (Nat.le_succ _)
    · rfl
    · exact hb
    · exact he
    · rfl
  | abandoned => exact absurd rfl hd

/-- The case `TOK_ABANDONED` of the switch at the end of the file: `peek_char`
meets the end of the file. -/
theorem lease_switch_abandoned_eof (env : Env) (s : Parser) (ht : s.token = TOK_ABANDONED)
    (he : s.eof = false) (hi : s.input = []) :
    lease_switch env s = set_lbuf { s with eof := true } (fun r => { r with abandoned := 1 }) := by
  have h1 : ¬ TOK_ABANDONED = TOK_LEASE := by decide
  have h2 : ¬ TOK_ABANDONED = TOK_STARTS := by decide
  have h3 : ¬ TOK_ABANDONED = TOK_ENDS := by decide
  have h4 : ¬ TOK_ABANDONED = TOK_HARDWARE := by decide
  have h5 : ¬ TOK_ABANDONED = TOK_CLIENT_HOSTNAME := by decide
  have hp : peek_char s = Except.ok (none, { s with eof := true }) := by
    unfold peek_char getc
    simp [he, hi]
  unfold lease_switch
  simp only [ht, h1, h2, h3, h4, h5, if_true, if_false, hp]

/-- A well-formed directive that ends the file, inside a block: the run ends
without error, and the lease of the block is not in the queue. -/
theorem finishes_directive (env : Env) (recs : List Lease) (cur : Lease) (st : Parser)
    (d : Directive) (hin : Inside recs cur st) (hi : st.input = d.render) (hwf : d.wf) :
    Finishes env st recs := by
  by_cases hd : d = Directive.abandoned
  · subst hd
    have hi1 : st.input = bytes "abandoned" ++ CHAR_SEMICOLON :: [] := by
      rw [hi]
      rfl
    have hs := lease_step_keyword env recs cur st (bytes "abandoned", TOK_ABANDONED)
      CHAR_SEMICOLON _ hin (by decide) (by decide) hi1 (Or.inr rfl)
    have hsw := lease_switch_abandoned_eof env
      { st with input := [], buffer := bytes "abandoned", hastoken := true,
                count := st.count + 1, token := TOK_ABANDONED } rfl hin.1 rfl
    obtain ⟨st1, S, h1, h2, h3, h4⟩ := inside_set_lbuf_list recs cur st
      { st with input := [], buffer := bytes "abandoned", hastoken := true,
                count := st.count + 1, token := TOK_ABANDONED, eof := true }
      (fun r => { r with abandoned := 1 }) hin rfl rfl
    exact ⟨st, st1, S, Reach.start, (hs.trans hsw).trans h1, h2, h3, h4⟩
  · have hi1 : st.input = d.render ++ [] := by simp [hi]
    obtain ⟨st1, hs1, hi2, hin1⟩ := lease_step_directive_any env recs cur st d [] hin hi1 hwf hd
    obtain ⟨st2, S, hs2, he2, hl, hmap⟩ := lease_step_end env recs _ st1 hin1 hi2
    exact ⟨st1, st2, S, reach_one env _ _ hs1 hin1.1, hs2, he2, hl, hmap⟩

/-- The directives of a block and white space, up to the end of the file:
the run ends without error, and the lease of the block is not in the queue. -/
theorem finishes_open_body (env : Env) (recs : List Lease) (ws : List Nat) (hws : blank ws)
    (ds : List (List Nat × Directive)) :
    ∀ (cur : Lease) (st : Parser), Inside recs cur st → st.input = render_body ds ++ ws →
      (∀ gd ∈ ds, blank gd.1 ∧ gd.2.wf) → Finishes env st recs := by
  induction ds with
  | nil =>
    intro cur st hin hi _
    exact finishes_open env recs cur st ws hin (by simpa [render_body] using hi) hws
  | cons gd ds ih =>
    intro cur st hin hi hwf
    obtain ⟨gap, d⟩ := gd
    obtain ⟨hgap, hd⟩ := hwf (gap, d) (List.mem_cons_self _ _)
    have hi1 : st.input = gap ++ (d.render ++ (render_body ds ++ ws)) := by
      rw [hi]
      simp [render_body, List.append_assoc]
    obtain ⟨st1, hr1, hi2, ha1⟩ := reach_blank env gap st _ hin.1 hi1 hgap
    have hin1 := inside_agree recs cur st st1 ha1 hin
    by_cases hne : render_body ds ++ ws = []
    · rw [hne, List.append_nil] at hi2
      exact finishes_of_reach env st st1 _ hr1 (finishes_directive env recs cur st1 d hin1 hi2 hd)
    · obtain ⟨st2, hs2, hi3, hin2⟩ := lease_step_directive env recs cur st1 d _ hin1 hi2 hd hne
      have hfin := ih _ st2 hin2 hi3 (fun x hx => hwf x (List.mem_cons_of_mem _ hx))
      exact finishes_of_reach env st st2 _
        (reach_trans env _ _ _ hr1 (reach_one env _ _ hs2 hin2.1)) hfin

/-- A file of well-formed closed blocks and a well-formed block without its
closing brace: the run ends without error, with the records of the closed
blocks as the lease list. -/
theorem parse_open_block (env : Env) (lead : List Nat) (blocks : List Block) (b : Block)
    (hlead : blank lead) (hwf : wf_blocks (blocks ++ [b])) :
    ∃ st S, parse_leases env (lead ++ (render_blocks blocks ++ b.render_open)) = Except.ok st ∧
      Linked st.heap S ∧ S.map st.heap.lease = blocks.map (Block.record env) := by
  obtain ⟨hwf1, hbwf, _, _⟩ := wf_blocks_split blocks b [] hwf
  obtain ⟨hip, hbody, hclose, _⟩ := hbwf
  apply parse_of_finishes
  obtain ⟨st1, hr1, hi1, ha1⟩ := reach_blank env lead
    (parser_init (lead ++ (render_blocks blocks ++ b.render_open))) _ rfl rfl hlead
  have ho1 := outside_agree _ _ st1 ha1 (outside_init _)
  obtain ⟨st2, hr2, hi2, ho2⟩ := reach_blocks env blocks [] st1 _ ho1 hi1 hwf1
  obtain ⟨st3, hs3, hi3, hin3⟩ := lease_step_header env _ st2 b.ip
    (render_body b.body ++ b.close) ho2 hi2 hip
  have hfin := finishes_open_body env _ b.close hclose b.body _ st3 hin3 hi3 hbody
  rw [List.nil_append] at hfin
  exact finishes_of_reach env _ st3 _
    (reach_trans env _ _ _ hr1 (reach_trans env _ _ _ hr2 (reach_one env _ _ hs3 hin3.1))) hfin

/-- C17 (what the code does): for every file in the layout that `dhcpd`
writes (one blank between the tokens of a header and of a directive, white
space after each closing brace, literals of fewer than 2048 bytes) that holds
closed blocks and then a block without its closing brace (its header, its
directives, each complete, and white space up to the end of the file):
`parse_lease_file` returns without error, the lease list holds exactly one
record for each closed block, in their order and with the fields of its
block, and so not the record of the open block; with the closing brace the
record of that block is the last of the list. -/
theorem unterminated_block_dropped (env : Env) (o : Opts) (tnow : Int) (lead : List Nat)
    (blocks : List Block) (b : Block) (hlead : blank lead) (hwf : wf_blocks (blocks ++ [b])) :
    ∃ recs, parsed_list env (lead ++ (render_blocks blocks ++ b.render_open)) = Except.ok recs ∧
      recs.length = blocks.length ∧
      recs.map Lease.ipaddr = blocks.map (fun b => some b.ip) ∧
      recs.map Lease.timeless = blocks.map (fun b => (b.record env).timeless) ∧
      parse_lease_file env o tnow (lead ++ (render_blocks blocks ++ b.render_open)) = Except.ok
        ((if o.dflag = true then recs.filter (fun r => decide (kept recs r)) else recs).filter
          (last_filter o tnow)) ∧
      ∃ recs1 r, parsed_list env (lead ++ render_blocks (blocks ++ [b])) =
          Except.ok (recs1 ++ [r]) ∧
        recs1.length = blocks.length ∧ r.ipaddr = some b.ip := by
  obtain ⟨st, S, hp, hl, hmap⟩ := parse_open_block env lead blocks b hlead hwf
  obtain ⟨st1, S1, hp1, hl1, hmap1⟩ := parse_blocks env lead _ hlead hwf
  refine ⟨blocks.map (Block.record env), ?_, by simp, ?_, by simp, ?_,
    blocks.map (Block.record env), b.record env, ?_, by simp, ?_⟩
  · unfold parsed_list
    rw [hp]
    simp only
    rw [lease_list_linked st.heap S hl, hmap]
  · rw [List.map_map]
    apply List.map_congr_left
    intro b _
    simp only [Function.comp, Block.record]
    rw [apply_ipaddr]
  · rw [parse_lease_file_rows env o tnow _ st S hp hl, hmap]
  · unfold parsed_list
    rw [hp1]
    simp only
    rw [lease_list_linked st1.heap S1 hl1, hmap1]
    simp
  · unfold Block.record
    rw [apply_ipaddr]

set_option maxRecDepth 100000 in
/-- C17 (witness): a closed block on one line and then a block of three
directives that the end of the file leaves open. -/
theorem unterminated_block_dropped_witness :
    [] ++ (render_blocks [block_abandoned] ++ block_lines.render_open) =
      bytes "lease 10.0.0.7 \x7b abandoned; \x7d\nlease 10.0.0.6 \x7b\n  ends 3 2024/01/08 10:00:00;\n  hardware ethernet aa:bb:cc:dd:ee:00;\n  abandoned;\n" ∧
    ∃ recs, parsed_list env_utc ([] ++ (render_blocks [block_abandoned] ++
        block_lines.render_open)) = Except.ok recs ∧
      recs.length = [block_abandoned].length ∧
      recs.map Lease.ipaddr = [block_abandoned].map (fun b => some b.ip) ∧
      recs.map Lease.timeless = [block_abandoned].map (fun b => (b.record env_utc).timeless) ∧
      parse_lease_file env_utc opts_none 0
          ([] ++ (render_blocks [block_abandoned] ++ block_lines.render_open)) = Except.ok
        ((if opts_none.dflag = true then recs.filter (fun r => decide (kept recs r))
          else recs).filter (last_filter opts_none 0)) ∧
      ∃ recs1 r, parsed_list env_utc ([] ++ render_blocks ([block_abandoned] ++ [block_lines])) =
          Except.ok (recs1 ++ [r]) ∧
        recs1.length = [block_abandoned].length ∧ r.ipaddr = some block_lines.ip :=
  ⟨by decide,
   unterminated_block_dropped env_utc opts_none 0 [] [block_abandoned] block_lines (by decide)
     (by decide)⟩

set_option maxRecDepth 100000 in
/-- C17 (counterexample): a closed block and then a block that is opened and
not closed, both of them well-formed but for the white space. With no white
space between the closing brace of the first block and `lease`, the word
read is the brace with `lease` behind it, no block is opened, and at
`abandoned` the run ends with "found token outside lease boundaries"; and
with a newline between the address and the opening brace of the open block
the run ends with "unexpected newline". With a newline after the closing
brace and a blank before the opening one the file parses to the record of
the closed block. -/
theorem open_block_layout_aborts :
    (∀ (env : Env) (o : Opts) (tnow : Int),
      parse_lease_file env o tnow
          (bytes "lease 10.0.0.5 \x7b\n\x7dlease 10.0.0.6 \x7b\n  abandoned;\n") =
        Except.error Abort.outsideBoundaries) ∧
    (∀ (env : Env) (o : Opts) (tnow : Int),
      parse_lease_file env o tnow
          (bytes "lease 10.0.0.5 \x7b\n\x7d\nlease 10.0.0.6\n\x7b\n  abandoned;\n") =
        Except.error Abort.unexpectedNewline) ∧
    (∀ env : Env,
      parsed_list env (bytes "lease 10.0.0.5 \x7b\n\x7d\nlease 10.0.0.6 \x7b\n  abandoned;\n") =
        Except.ok [{ lease_zero with ipaddr := some (bytes "10.0.0.5") }]) :=
  ⟨fun env o tnow => parse_lease_file_error env o tnow _ _ rfl,
    fun env o tnow => parse_lease_file_error env o tnow _ _ rfl, fun _ => rfl⟩

/-! ## The decision for one record of the report -/

theorem last_filter_same (o o1 : Opts) (tnow : Int) (r : Lease) (h : same_last_filter o o1) :
    last_filter o1 tnow r = last_filter o tnow r := by
  obtain ⟨hx, h1⟩ := h
  unfold last_filter
  rw [hx]
  cases hxo : o.xflag with
  | true => rfl
  | false =>
    obtain ⟨ha, h2⟩ := h1 hxo
    rw [ha]
    cases hao : o.aflag with
    | true => rfl
    | false =>
      obtain ⟨hi, hiv, h3⟩ := h2 hao
      rw [hi]
      cases hio : o.iflag with
      | true => simp [hiv hio]
      | false =>
        obtain ⟨hc, hcv, h4⟩ := h3 hio
        rw [hc]
        cases hco : o.cflag with
        | true => simp [hcv hco]
        | false =>
          obtain ⟨hm, hmv⟩ := h4 hco
          rw [hm]
          cases hmo : o.mflag with
          | true => simp [hmv hmo]
          | false => rfl

theorem any_filter_same (o o1 : Opts) (h : same_last_filter o o1) (ha : any_filter o) :
    any_filter o1 := by
  obtain ⟨hx, h1⟩ := h
  unfold any_filter at ha ⊢
  cases hxo : o.xflag with
  | true => exact Or.inr (Or.inr (Or.inr (Or.inr (hx.trans hxo))))
  | false =>
    obtain ⟨haf, h2⟩ := h1 hxo
    cases hao : o.aflag with
    | true => exact Or.inr (Or.inr (Or.inr (Or.inl (haf.trans hao))))
    | false =>
      obtain ⟨hi, _, h3⟩ := h2 hao
      cases hio : o.iflag with
      | true => exact Or.inr (Or.inr (Or.inl (hi.trans hio)))
      | false =>
        obtain ⟨hc, _, h4⟩ := h3 hio
        cases hco : o.cflag with
        | true => exact Or.inr (Or.inl (hc.trans hco))
        | false =>
          obtain ⟨hm, _⟩ := h4 hco
          cases hmo : o.mflag with
          | true => exact Or.inl (hm.trans hmo)
          | false =>
            rw [hxo, hao, hio, hco, hmo] at ha
            simp at ha

/-- The rows for a list in two parts are the rows for the first part and then
the rows for the second. -/
theorem output_leases_append (o : Opts) (tnow : Int) (pre ls : List Lease) :
    ∃ h hp hl, queue_of (pre ++ ls) TAILQ_INIT = Except.ok h ∧
      queue_of pre TAILQ_INIT = Except.ok hp ∧ queue_of ls TAILQ_INIT = Except.ok hl ∧
      ∃ rows_pre rows, output_leases o tnow hp = Except.ok rows_pre ∧
        output_leases o tnow hl = Except.ok rows ∧
        output_leases o tnow h = Except.ok (rows_pre ++ rows) := by
  obtain ⟨h, S, hq, hl, hmap, _⟩ := queue_of_init (pre ++ ls)
  obtain ⟨hp, Sp, hqp, hlp, hmapp, _⟩ := queue_of_init pre
  obtain ⟨hl1, Sl, hql, hll, hmapl, _⟩ := queue_of_init ls
  refine ⟨h, hp, hl1, hq, hqp, hql, pre.filter (last_filter o tnow),
    ls.filter (last_filter o tnow), ?_, ?_, ?_⟩
  · rw [output_leases_linked o tnow hp Sp hlp, hmapp]
  · rw [output_leases_linked o tnow hl1 Sl hll, hmapl]
  · rw [output_leases_linked o tnow h S hl, hmap, List.filter_append]

/-- C21: in `output_leases`, for all options and every value of now: when a
filter is active, the value of `display` after the assignments for a record
is 1 or 0 as the last active filter, in the order `-m`, `-c`, `-i`, `-a`,
`-x`, accepts or rejects that record, whatever `display` was before, and it is
the same for all options that agree on that last filter, whatever the filters
before it are; when no filter is active `display` keeps its value, which is 1
from the start, and every record is printed. So the rows for a lease list in
two parts are the rows for the first part followed by the rows for the second
part alone: the records before a record do not change what is decided for
it. -/
theorem output_decision_per_record (o : Opts) (tnow : Int) :
    (any_filter o → ∀ (r : Lease) (display : Int),
      output_display o tnow r display = if last_filter o tnow r = true then 1 else 0) ∧
    (any_filter o → ∀ (o1 : Opts) (r : Lease) (display display1 : Int), same_last_filter o o1 →
      output_display o1 tnow r display1 = output_display o tnow r display) ∧
    (¬ any_filter o → ∀ (r : Lease) (display : Int),
      output_display o tnow r display = display) ∧
    (¬ any_filter o → ∀ ls : List Lease, ∃ h, queue_of ls TAILQ_INIT = Except.ok h ∧
      lease_list h = Except.ok ls ∧ output_leases o tnow h = Except.ok ls) ∧
    (∀ pre ls : List Lease, ∃ h hp hl, queue_of (pre ++ ls) TAILQ_INIT = Except.ok h ∧
      queue_of pre TAILQ_INIT = Except.ok hp ∧ queue_of ls TAILQ_INIT = Except.ok hl ∧
      ∃ rows_pre rows, output_leases o tnow hp = Except.ok rows_pre ∧
        output_leases o tnow hl = Except.ok rows ∧
        output_leases o tnow h = Except.ok (rows_pre ++ rows)) ∧
    (∀ (pre : List Lease) (r : Lease), ∃ h rows_pre, queue_of (pre ++ [r]) TAILQ_INIT = Except.ok h ∧
      output_leases o tnow h =
        Except.ok (rows_pre ++ (if last_filter o tnow r = true then [r] else []))) := by
  refine ⟨?_, ?_, ?_, ?_, output_leases_append o tnow, ?_⟩
  · intro ha r d
    unfold any_filter at ha
    rw [output_display_eq, if_pos ha]
  · intro ha o1 r d d1 hs
    have ha1 := any_filter_same o o1 hs ha
    unfold any_filter at ha ha1
    rw [output_display_eq, output_display_eq, if_pos ha, if_pos ha1,
      last_filter_same o o1 tnow r hs]
  · intro ha r d
    unfold any_filter at ha
    rw [output_display_eq, if_neg ha]
  · intro ha ls
    obtain ⟨h, S, hq, hl, hmap, hlist⟩ := queue_of_init ls
    refine ⟨h, hq, hlist, ?_⟩
    rw [output_leases_linked o tnow h S hl, hmap]
    congr 1
    apply List.filter_eq_self.2
    intro r _
    exact last_filter_none o tnow r ha
  · intro pre r
    obtain ⟨h, S, hq, hl, hmap, _⟩ := queue_of_init (pre ++ [r])
    refine ⟨h, pre.filter (last_filter o tnow), hq, ?_⟩
    rw [output_leases_linked o tnow h S hl, hmap, List.filter_append]
    congr 2
    by_cases hf : last_filter o tnow r = true
    · simp [hf]
    · simp [hf]

/-- C21 (witness): with `-m zz -c host -x` the decision for the record of
`host1` is that of `-x` alone, whatever `display` was before: the filters
`-m` and `-c` have no influence. -/
theorem output_decision_per_record_witness :
    any_filter opts_mcx ∧ same_last_filter opts_mcx opts_x ∧
    output_display opts_x 0 lease_host1 0 = output_display opts_mcx 0 lease_host1 1 ∧
    output_display opts_mcx 0 lease_host1 1 =
      (if last_filter opts_mcx 0 lease_host1 = true then 1 else 0) :=
  ⟨by decide, by decide,
   (output_decision_per_record opts_mcx 0).2.1 (by decide) opts_x lease_host1 1 0 (by decide),
   (output_decision_per_record opts_mcx 0).1 (by decide) lease_host1 1⟩

end Dhlease
